import Mathlib

/-!
Verification of the cursor pagination component of venom-entities
(src/venom_resource/backends/alchemy/pagination.py).

Embedding conventions:
* Python byte strings are `List Nat` (each entry < 256 by construction);
  Python text strings are Lean `String` (Python strings that contain lone
  surrogates are not representable and out of scope).
* Fallible Python code returns `Except PyExc`; the exception classes that the
  source can raise are the constructors of `PyExc`.  `binascii.Error` and the
  `UnicodeEncodeError` and `UnicodeDecodeError` classes are subclasses of
  `ValueError` in Python and are therefore modelled as `PyExc.valueError`.
* The SQLAlchemy query object is modelled as the snapshot of the collection,
  a `List` of rows; `order_by` is a deterministic (stable) sort, `filter`
  is `List.filter` and the slice `query[a:b]` is `drop a` then `take (b - a)`.
  Row types are an arbitrary type `R` together with an attribute reader
  `f : String -> R -> String` giving, for a field name, the stringified
  column value of a row (the model of `str(getattr(instance, field))`;
  column values are modelled as strings compared lexicographically by code
  point, the collation assumed for the SQL comparisons `column < position`
  and `ORDER BY column`).
* The target Python version is the 3.5/3.6 family named by setup.py: `int()`
  does not accept underscores, `parse_qsl` splits fields on both separator
  characters, and the key order of a small dict literal is its insertion
  order.  Whitespace stripping in `int()` and the exact replacement policy
  of `errors=replace` for malformed percent escapes are modelled for ASCII
  input; neither is observable in any claim.
-/

/-- The Python exceptions reachable from the paginator. `notFound` is
`venom.exceptions.NotFound`, carrying an optional message. -/
inductive PyExc where
  | notFound (msg : Option String)
  | valueError
  | typeError
  | attributeError
  | indexError
  | assertionError
deriving DecidableEq

deriving instance DecidableEq for Except

/-- `CursorPagination.invalid_cursor_message`. -/
def invalid_cursor_message : String := "Invalid cursor"

/-- `CursorPagination.offset_cutoff` (class attribute, 1000). -/
def offset_cutoff : Nat := 1000

/-- The `Cursor` namedtuple: `Cursor = namedtuple('Cursor', ['offset', 'reverse', 'position'])`.
Decoded offsets are always non-negative (`_positive_int`), hence `Nat`. -/
structure Cursor where
  offset : Nat
  reverse : Bool
  position : Option String
deriving DecidableEq

/-- ASCII decimal digit test. -/
def isAsciiDigit (c : Char) : Bool := 48 ≤ c.toNat && c.toNat ≤ 57

/-- Whitespace stripped by Python `int()` (ASCII fragment). -/
def isPySpace (c : Char) : Bool :=
  c = ' ' || c = '\t' || c = '\n' || c = '\x0d' || c = '\x0b' || c = '\x0c'

/-- Value of a list of ASCII decimal digits, most significant first. -/
def decValue (l : List Char) : Nat :=
  l.foldl (fun a c => a * 10 + (c.toNat - 48)) 0

/-- Parse a nonempty all-digit character list. -/
def pyIntDigits (l : List Char) : Option Nat :=
  if l ≠ [] ∧ l.all isAsciiDigit then some (decValue l) else none

/-- Python `int(string)`: optional surrounding whitespace, optional sign,
nonempty run of decimal digits; anything else raises `ValueError`. -/
def pyInt (s : String) : Except PyExc Int :=
  let t := ((s.data.dropWhile isPySpace).reverse.dropWhile isPySpace).reverse
  match t with
  | [] => .error .valueError
  | c :: ds =>
    if c = '-' then
      match pyIntDigits ds with
      | some n => .ok (-(n : Int))
      | none => .error .valueError
    else if c = '+' then
      match pyIntDigits ds with
      | some n => .ok (n : Int)
      | none => .error .valueError
    else
      match pyIntDigits (c :: ds) with
      | some n => .ok (n : Int)
      | none => .error .valueError

/-- `_positive_int(integer_string, strict, cutoff)` from pagination.py:
casts a string to a non-negative integer, rejecting zero when `strict`,
and clamps to `cutoff` when that argument is truthy. -/
def positive_int (s : String) (strict : Bool) (cutoff : Option Nat) : Except PyExc Nat :=
  match pyInt s with
  | .error e => .error e
  | .ok i =>
    if i < 0 ∨ (i = 0 ∧ strict) then .error .valueError
    else
      match cutoff with
      | some c => if c ≠ 0 then .ok (min i.toNat c) else .ok i.toNat
      | none => .ok i.toNat

/-- Digit character for a value below 10 or 16 (uppercase hex). -/
def digitChar (n : Nat) : Char :=
  if n < 10 then Char.ofNat (48 + n) else Char.ofNat (55 + n)

/-- Decimal digits of `n`, most significant first, with structural fuel
(first argument); used with fuel `n + 1`.  Models Python `str(n)` for a
non-negative integer. -/
def decAux : Nat → Nat → List Char
  | 0, _ => []
  | fuel + 1, n => if n < 10 then [digitChar n] else decAux fuel (n / 10) ++ [digitChar (n % 10)]

/-- Python `str(n)` for a natural number. -/
def decRepr (n : Nat) : String := ⟨decAux (n + 1) n⟩

/-! ### base64 (`base64.b64encode` / `base64.b64decode` over byte lists) -/

/-- ASCII code of the base64 alphabet character for a 6-bit value. -/
def b64Char (n : Nat) : Nat :=
  if n < 26 then 65 + n
  else if n < 52 then 71 + n
  else if n < 62 then n - 4
  else if n = 62 then 43
  else 47

/-- Inverse of `b64Char`: 6-bit value of an ASCII code, `none` when the code
is not in the base64 alphabet. -/
def b64CharVal (c : Nat) : Option Nat :=
  if 65 ≤ c ∧ c ≤ 90 then some (c - 65)
  else if 97 ≤ c ∧ c ≤ 122 then some (c - 71)
  else if 48 ≤ c ∧ c ≤ 57 then some (c + 4)
  else if c = 43 then some 62
  else if c = 47 then some 63
  else none

/-- `base64.b64encode` on bytes: 3-byte groups to 4 alphabet characters,
with `=` (code 61) padding for a short final group. -/
def b64encodeBytes : List Nat → List Nat
  | [] => []
  | [a] => [b64Char (a / 4), b64Char (a % 4 * 16), 61, 61]
  | [a, b] => [b64Char (a / 4), b64Char (a % 4 * 16 + b / 16), b64Char (b % 16 * 4), 61]
  | a :: b :: c :: rest =>
    b64Char (a / 4) :: b64Char (a % 4 * 16 + b / 16) :: b64Char (b % 16 * 4 + c / 64)
      :: b64Char (c % 64) :: b64encodeBytes rest

/-- Decode a base64 character stream already filtered to alphabet and padding
characters, quad by quad.  A quad malformed or truncated in any way raises
`binascii.Error`, a `ValueError` subclass. -/
def b64Quads : List Nat → Except PyExc (List Nat)
  | [] => .ok []
  | c1 :: c2 :: c3 :: c4 :: rest =>
    match b64CharVal c1, b64CharVal c2 with
    | some a, some b =>
      if c3 = 61 then
        if c4 = 61 ∧ rest = [] then .ok [a * 4 + b / 16] else .error .valueError
      else if c4 = 61 then
        match b64CharVal c3 with
        | some c => if rest = [] then .ok [a * 4 + b / 16, b % 16 * 16 + c / 4] else .error .valueError
        | none => .error .valueError
      else
        match b64CharVal c3, b64CharVal c4 with
        | some c, some d =>
          (b64Quads rest).map
            (fun t => (a * 4 + b / 16) :: (b % 16 * 16 + c / 4) :: (c % 4 * 64 + d) :: t)
        | _, _ => .error .valueError
    | _, _ => .error .valueError
  | _ => .error .valueError

/-- `base64.b64decode` (default non-strict mode): characters outside the
alphabet and padding are discarded, then the stream is decoded in quads. -/
def b64decodeBytes (s : List Nat) : Except PyExc (List Nat) :=
  b64Quads (s.filter (fun c => (b64CharVal c).isSome || c == 61))

/-- `str.encode('ascii')`: fails (`UnicodeEncodeError`, a `ValueError`) on a
code point above 127. -/
def strToAscii (s : String) : Except PyExc (List Nat) :=
  if s.data.all (fun c => c.toNat < 128) then .ok (s.data.map Char.toNat)
  else .error .valueError

/-- `bytes.decode('ascii')`: fails (`UnicodeDecodeError`, a `ValueError`) on a
byte above 127. -/
def bytesToAscii (bs : List Nat) : Except PyExc String :=
  if bs.all (fun b => b < 128) then .ok ⟨bs.map Char.ofNat⟩
  else .error .valueError

/-! ### Percent-encoding (`urllib.parse.quote_plus` / `unquote_plus`) -/

/-- UTF-8 bytes of a single code point. -/
def utf8Bytes (c : Char) : List Nat :=
  let n := c.toNat
  if n < 128 then [n]
  else if n < 2048 then [192 + n / 64, 128 + n % 64]
  else if n < 65536 then [224 + n / 4096, 128 + n / 64 % 64, 128 + n % 64]
  else [240 + n / 262144, 128 + n / 4096 % 64, 128 + n / 64 % 64, 128 + n % 64]

/-- The characters never quoted by `urllib.parse.quote` (`_ALWAYS_SAFE`):
ASCII letters, digits, and `_.-~`. -/
def isAlwaysSafe (c : Char) : Bool :=
  (65 ≤ c.toNat && c.toNat ≤ 90) || (97 ≤ c.toNat && c.toNat ≤ 122) ||
    (48 ≤ c.toNat && c.toNat ≤ 57) || c = '_' || c = '.' || c = '-' || c = '~'

/-- Quoting of one character by `quote_plus` with empty `safe`: safe
characters pass through, space becomes `+`, anything else is the
percent-escaped UTF-8 byte sequence (uppercase hex). -/
def quotePlusChar (c : Char) : List Char :=
  if isAlwaysSafe c then [c]
  else if c = ' ' then ['+']
  else ((utf8Bytes c).map (fun b => ['%', digitChar (b / 16), digitChar (b % 16)])).flatten

/-- `urllib.parse.quote_plus(s, safe='')` as used by `urlencode`. -/
def quote_plus (s : String) : String := ⟨(s.data.map quotePlusChar).flatten⟩

/-- Hex digit value, accepting both cases as Python unquote does. -/
def hexVal (c : Char) : Option Nat :=
  if 48 ≤ c.toNat ∧ c.toNat ≤ 57 then some (c.toNat - 48)
  else if 65 ≤ c.toNat ∧ c.toNat ≤ 70 then some (c.toNat - 55)
  else if 97 ≤ c.toNat ∧ c.toNat ≤ 102 then some (c.toNat - 87)
  else none

/-- First unquoting pass: replace each valid `%XX` escape by its byte,
leaving invalid escapes as literal text, as `urllib.parse.unquote` does.
Structural fuel, one unit per emitted element; the input length suffices. -/
def pctPass1F : Nat → List Char → List (Sum Char Nat)
  | 0, _ => []
  | _ + 1, [] => []
  | fuel + 1, c :: rest =>
    if c = '%' then
      match rest with
      | h1 :: h2 :: rest2 =>
        match hexVal h1, hexVal h2 with
        | some a, some b => Sum.inr (a * 16 + b) :: pctPass1F fuel rest2
        | _, _ => Sum.inl '%' :: pctPass1F fuel rest
      | _ => Sum.inl '%' :: pctPass1F fuel rest
    else Sum.inl c :: pctPass1F fuel rest

/-- First unquoting pass. -/
def pctPass1 (l : List Char) : List (Sum Char Nat) := pctPass1F l.length l

/-- The U+FFFD replacement character. -/
def replChar : Char := Char.ofNat 65533

/-- Is the byte a UTF-8 continuation byte. -/
def isCont (b : Nat) : Bool := 128 ≤ b && b < 192

/-- UTF-8 decoding with `errors='replace'`, with structural fuel (one unit
per decoded character, so the byte count suffices): valid sequences decode
to their code point, an invalid leading or continuation byte yields U+FFFD
for the leading byte and scanning resumes after it. -/
def utf8DecodeReplF : Nat → List Nat → List Char
  | 0, _ => []
  | _ + 1, [] => []
  | fuel + 1, b :: rest =>
    if b < 128 then Char.ofNat b :: utf8DecodeReplF fuel rest
    else if 194 ≤ b ∧ b ≤ 223 then
      match rest with
      | b2 :: rest2 =>
        if isCont b2 then Char.ofNat ((b - 192) * 64 + (b2 - 128)) :: utf8DecodeReplF fuel rest2
        else replChar :: utf8DecodeReplF fuel rest
      | [] => [replChar]
    else if 224 ≤ b ∧ b ≤ 239 then
      match rest with
      | b2 :: b3 :: rest3 =>
        if isCont b2 ∧ isCont b3 then
          let n := (b - 224) * 4096 + (b2 - 128) * 64 + (b3 - 128)
          if 2048 ≤ n ∧ ¬(55296 ≤ n ∧ n ≤ 57343) then Char.ofNat n :: utf8DecodeReplF fuel rest3
          else replChar :: utf8DecodeReplF fuel rest
        else replChar :: utf8DecodeReplF fuel rest
      | _ => replChar :: utf8DecodeReplF fuel rest
    else if 240 ≤ b ∧ b ≤ 244 then
      match rest with
      | b2 :: b3 :: b4 :: rest4 =>
        if isCont b2 ∧ isCont b3 ∧ isCont b4 then
          let n := (b - 240) * 262144 + (b2 - 128) * 4096 + (b3 - 128) * 64 + (b4 - 128)
          if 65536 ≤ n ∧ n < 1114112 then Char.ofNat n :: utf8DecodeReplF fuel rest4
          else replChar :: utf8DecodeReplF fuel rest
        else replChar :: utf8DecodeReplF fuel rest
      | _ => replChar :: utf8DecodeReplF fuel rest
    else replChar :: utf8DecodeReplF fuel rest

/-- UTF-8 decoding with `errors='replace'`. -/
def utf8DecodeRepl (bs : List Nat) : List Char := utf8DecodeReplF bs.length bs

/-- Second unquoting pass: maximal runs of consecutive escape bytes are
UTF-8 decoded together (the accumulator holds the current run, reversed). -/
def pctGroup : List Nat → List (Sum Char Nat) → List Char
  | acc, [] => utf8DecodeRepl acc.reverse
  | acc, Sum.inr b :: rest => pctGroup (b :: acc) rest
  | acc, Sum.inl c :: rest => utf8DecodeRepl acc.reverse ++ c :: pctGroup [] rest

/-- The plus-to-space substitution performed by `unquote_plus` before
percent-unquoting. -/
def plusSubst (c : Char) : Char := if c = '+' then ' ' else c

/-- `urllib.parse.unquote_plus`: `+` to space, then percent-unquoting with
`errors='replace'`. -/
def unquote_plus (s : String) : String :=
  ⟨pctGroup [] (pctPass1 (s.data.map plusSubst))⟩

/-! ### Query strings (`urllib.parse.urlencode` / `parse_qs`) -/

/-- Split a query string into fields at `&` and `;`, the two separators of
the Python 3.5 era `parse_qsl`.  The accumulator holds the current field,
reversed. -/
def splitFields : List Char → List Char → List (List Char)
  | acc, [] => [acc.reverse]
  | acc, c :: rest =>
    if c = '&' ∨ c = ';' then acc.reverse :: splitFields [] rest
    else splitFields (c :: acc) rest

/-- Split a field at its first `=`, Python `split('=', 1)`. -/
def splitEq : List Char → Option (List Char × List Char)
  | [] => none
  | c :: rest =>
    if c = '=' then some ([], rest)
    else (splitEq rest).map (fun p => (c :: p.1, p.2))

/-- `urllib.parse.parse_qsl(qs, keep_blank_values=True)`: empty fields are
skipped, a field without `=` keeps its name with an empty value, and names
and values are plus-and-percent unquoted. -/
def parse_qsl (qs : String) : List (String × String) :=
  (splitFields [] qs.data).filterMap fun field =>
    if field = [] then none
    else
      match splitEq field with
      | some (n, v) => some (unquote_plus ⟨n⟩, unquote_plus ⟨v⟩)
      | none => some (unquote_plus ⟨field⟩, "")

/-- First value for a key in a parsed query string: `tokens.get(k, [d])[0]`
on the dict built by `parse_qs`, whose per-key lists are in field order. -/
def qsGetFirst (l : List (String × String)) (k : String) : Option String :=
  (l.find? (fun kv => kv.1 = k)).map (fun kv => kv.2)

/-- `urllib.parse.urlencode(tokens, doseq=True)` on string-valued entries:
quote each key and value and join with `&`.  The entry order is the
insertion order of the dict built in `encode_cursor`. -/
def urlencode : List (String × String) → String
  | [] => ""
  | kv :: rest =>
    quote_plus kv.1 ++ "=" ++ quote_plus kv.2 ++
      (if rest.isEmpty then "" else "&" ++ urlencode rest)

/-! ### `CursorPagination.encode_cursor` / `decode_cursor` -/

/-- The token dict built by `encode_cursor`: only non-default fields (`o`
when the offset is non-zero, `r` when reversed, `p` when a position is
present), in insertion order. -/
def cursorTokens (c : Cursor) : List (String × String) :=
  (if c.offset ≠ 0 then [("o", decRepr c.offset)] else []) ++
    (if c.reverse then [("r", "1")] else []) ++
    (match c.position with
     | some p => [("p", p)]
     | none => [])

/-- `encode_cursor`: the token dict as a query string, base64 encoded.  The
query string is ASCII by construction, so the two `ascii` codec steps of
the source cannot fail and the function is total. -/
def encode_cursor (c : Cursor) : String :=
  let querystring := urlencode (cursorTokens c)
  ⟨(b64encodeBytes (querystring.data.map Char.toNat)).map Char.ofNat⟩

/-- The body of `decode_cursor` inside its `try` block. -/
def decodeCursorRaw (s : String) : Except PyExc Cursor := do
  let bs ← strToAscii s
  let qsBytes ← b64decodeBytes bs
  let qs ← bytesToAscii qsBytes
  let tokens := parse_qsl qs
  let o := (qsGetFirst tokens "o").getD "0"
  let offset ← positive_int o false (some offset_cutoff)
  let r := (qsGetFirst tokens "r").getD "0"
  let ri ← pyInt r
  let position := qsGetFirst tokens "p"
  .ok ⟨offset, decide (ri ≠ 0), position⟩

/-- `decode_cursor`: an absent or empty token decodes to `None` (first page);
otherwise parse, converting any `TypeError` or `ValueError` into
`NotFound(invalid_cursor_message)`. -/
def decode_cursor (encoded : Option String) : Except PyExc (Option Cursor) :=
  match encoded with
  | none => .ok none
  | some s =>
    if s = "" then .ok none
    else
      match decodeCursorRaw s with
      | .ok c => .ok (some c)
      | .error .valueError => .error (.notFound (some invalid_cursor_message))
      | .error .typeError => .error (.notFound (some invalid_cursor_message))
      | .error e => .error e

/-! ### Ordering specifications and `CursorPagination.__init__` -/

/-- A validated ordering entry (a `{'field': ..., 'ascending': ...}` dict
that survived construction-time filtering). -/
structure OrderEntry where
  field : String
  ascending : Bool
deriving DecidableEq

/-- An ordering entry as passed to the constructor: the `ascending` key may
be absent (or `None`), modelled as `none`. -/
structure RawOrderEntry where
  field : String
  ascending : Option Bool
deriving DecidableEq

/-- The possible Python values of the `ordering` constructor argument. -/
inductive OrderingArg where
  | pyNone
  | pyStr (s : String)
  | single (d : RawOrderEntry)
  | many (l : List RawOrderEntry)

/-- The construction-time filter: keep entries whose field exists on the
model and whose `ascending` value is present. -/
def filterOrdering (attrs : List String) (l : List RawOrderEntry) : List OrderEntry :=
  l.filterMap fun d =>
    if attrs.contains d.field then
      match d.ascending with
      | some a => some ⟨d.field, a⟩
      | none => none
    else none

/-- The paginator state established by `CursorPagination.__init__`: the model
(represented by the list of its attribute names), the page size, and the
filtered ordering. -/
structure Paginator where
  attrs : List String
  page_size : Nat
  ordering : List OrderEntry

/-- `CursorPagination.__init__`: assert the ordering argument is a dict,
list or tuple, normalize a single dict to a one-element list, filter the
entries, and assert at least one entry survives. -/
def cursorPaginationInit (attrs : List String) (page_size : Nat) (ordering : OrderingArg) :
    Except PyExc Paginator :=
  match ordering with
  | .pyNone => .error .assertionError
  | .pyStr _ => .error .assertionError
  | .single d =>
    let filtered := filterOrdering attrs [d]
    if filtered = [] then .error .assertionError else .ok ⟨attrs, page_size, filtered⟩
  | .many l =>
    let filtered := filterOrdering attrs l
    if filtered = [] then .error .assertionError else .ok ⟨attrs, page_size, filtered⟩

/-- `_reverse_ordering`: invert the `ascending` flag of every entry. -/
def reverse_ordering (l : List OrderEntry) : List OrderEntry :=
  l.map fun e => ⟨e.field, !e.ascending⟩

/-! ### The query model -/

/-- Lexicographic code point comparison of character lists; the model of the
string collation used by the SQL `<` and `ORDER BY` on the stringified
column values. -/
def charListLt : List Char → List Char → Bool
  | [], [] => false
  | [], _ :: _ => true
  | _ :: _, [] => false
  | a :: as, b :: bs =>
    if a.toNat < b.toNat then true
    else if b.toNat < a.toNat then false
    else charListLt as bs

/-- Lexicographic string comparison. -/
def strLt (a b : String) : Bool := charListLt a.data b.data

/-- Row comparison induced by an `ORDER BY` clause list: the first entry
whose values differ decides, according to its direction; rows equal under
every clause compare as tied (either order allowed). -/
def rowBle (f : String → R → String) : List OrderEntry → R → R → Bool
  | [], _, _ => true
  | e :: rest, a, b =>
    let x := f e.field a
    let y := f e.field b
    if x = y then rowBle f rest a b
    else if e.ascending then strLt x y else strLt y x

/-- `query.order_by(*clauses)` on a fixed snapshot: a deterministic stable
sort by the clause list (ties are returned in snapshot order, the fixed
behaviour assumed of the database for this snapshot). -/
def order_by (f : String → R → String) (ord : List OrderEntry) (query : List R) : List R :=
  List.insertionSort (fun a b => rowBle f ord a b = true) query

/-- `_get_position_from_instance`: the stringified value of the first
ordering field on a row.  (`ordering[0]` raises on an empty ordering, which
construction rules out; the default entry is never consulted for a
paginator built by `cursorPaginationInit`.) -/
def position_of (f : String → R → String) (ordering : List OrderEntry) (row : R) : String :=
  f (ordering.headD ⟨"", true⟩).field row

/-! ### `paginate_query` -/

/-- The decoded cursor triple, with the null cursor defaulted to
`(0, False, None)` exactly as in `paginate_query`. -/
def cursorTriple (c? : Option Cursor) : Nat × Bool × Option String :=
  match c? with
  | none => (0, false, none)
  | some c => (c.offset, c.reverse, c.position)

/-- The instance attributes set by `paginate_query` and read back by
`get_next_token` / `get_previous_token`.  The source assigns
`next_position` and `previous_position` only under their `has_next` /
`has_previous` guards and reads them only under the same guards; the
never-assigned attribute is modelled as `none`. -/
structure PageState (R : Type) where
  cursor : Option Cursor
  page : List R
  has_next : Bool
  has_previous : Bool
  next_position : Option String
  previous_position : Option String
deriving DecidableEq

/-- The ordered query of `paginate_query`: base ordering, or the inverted
ordering for a reverse cursor. -/
def orderedOf (pg : Paginator) (f : String → R → String) (query : List R) (reverse : Bool) :
    List R :=
  if reverse then order_by f (reverse_ordering pg.ordering) query
  else order_by f pg.ordering query

/-- The position filter of `paginate_query`: with an anchored cursor, keep
rows strictly beyond the anchor on the first ordering field, the comparison
direction given by (cursor reversed) XOR (primary ordering descending); a
vanished ordering field raises `NotFound`. -/
def filteredOf (pg : Paginator) (f : String → R → String) (query : List R) (c? : Option Cursor) :
    Except PyExc (List R) :=
  let (_, reverse, current_position) := cursorTriple c?
  let ordered := orderedOf pg f query reverse
  match current_position with
  | none => .ok ordered
  | some pos =>
    let order := pg.ordering.headD ⟨"", true⟩
    let is_reversed : Bool := order.ascending = false
    if pg.attrs.contains order.field = false then .error (.notFound none)
    else if reverse ≠ is_reversed then
      .ok (ordered.filter (fun x => strLt (f order.field x) pos))
    else
      .ok (ordered.filter (fun x => strLt pos (f order.field x)))

/-- The `results` list of `paginate_query`: the slice
`query[offset : offset + page_size + 1]` of the ordered, filtered query
(one extra row to detect a following page). -/
def resultsOf (pg : Paginator) (f : String → R → String) (query : List R)
    (c? : Option Cursor) : Except PyExc (List R) :=
  let (offset, _, _) := cursorTriple c?
  match filteredOf pg f query c? with
  | .error e => .error e
  | .ok filtered => .ok ((filtered.drop offset).take (pg.page_size + 1))

/-- `paginate_query` after cursor decoding: order, filter, slice
`[offset : offset + page_size + 1]`, truncate to the page, detect and
record the following position, re-reverse a reverse page, and fill the
direction table. -/
def paginateCursor (pg : Paginator) (f : String → R → String) (query : List R)
    (c? : Option Cursor) : Except PyExc (PageState R) :=
  let (offset, reverse, current_position) := cursorTriple c?
  match resultsOf pg f query c? with
  | .error e => .error e
  | .ok results =>
    let page0 := results.take pg.page_size
    let has_following_position := decide (page0.length < results.length)
    let following_position :=
      if has_following_position then (results.getLast?).map (position_of f pg.ordering) else none
    let page := if reverse then page0.reverse else page0
    let has_next :=
      if reverse then decide (current_position ≠ none ∨ 0 < offset) else has_following_position
    let has_previous :=
      if reverse then has_following_position else decide (current_position ≠ none ∨ 0 < offset)
    let next_position :=
      if reverse then (if has_next then current_position else none)
      else (if has_next then following_position else none)
    let previous_position :=
      if reverse then (if has_previous then following_position else none)
      else (if has_previous then current_position else none)
    .ok ⟨c?, page, has_next, has_previous, next_position, previous_position⟩

/-- `paginate_query(query, page_token)`: decode the token, then paginate. -/
def paginate_query (pg : Paginator) (f : String → R → String) (query : List R)
    (page_token : Option String) : Except PyExc (PageState R) :=
  match decode_cursor page_token with
  | .error e => .error e
  | .ok c? => paginateCursor pg f query c?

/-! ### `get_next_token` / `get_previous_token` -/

/-- The tie-run scan shared by both token derivations: walk the items,
counting while the stringified position equals `compare`, and stop at the
first differing item, returning the accumulated offset and that item's
position; `none` when the scan exhausts the list (the `for ... else`
branch). -/
def tieScan (pos1 : R → String) : List R → Option String → Option (Nat × String)
  | [], _ => none
  | item :: rest, compare =>
    let position := pos1 item
    if (some position = compare : Prop) then
      (tieScan pos1 rest (some position)).map (fun p => (p.1 + 1, p.2))
    else some (0, position)

/-- The initial `compare` value of `get_next_token`: the position of the
last page item when the existing cursor is reversed with a non-zero offset
(a direction flip mid tie-run), else the recorded `next_position`.
(`self.page[-1]` on an empty page raises `IndexError`.) -/
def nextCompare (pg : Paginator) (f : String → R → String) (st : PageState R) :
    Except PyExc (Option String) :=
  match st.cursor with
  | some c =>
    if c.reverse ∧ c.offset ≠ 0 then
      match st.page.getLast? with
      | some it => .ok (some (position_of f pg.ordering it))
      | none => .error .indexError
    else .ok st.next_position
  | none => .ok st.next_position

/-- The cursor built by `get_next_token` (before encoding); `none` when
there is no next page. -/
def getNextCursor (pg : Paginator) (f : String → R → String) (st : PageState R) :
    Except PyExc (Option Cursor) :=
  if st.has_next = false then .ok none
  else
    match nextCompare pg f st with
    | .error e => .error e
    | .ok compare =>
      match tieScan (position_of f pg.ordering) st.page.reverse compare with
      | some (offset, position) => .ok (some ⟨offset, false, some position⟩)
      | none =>
        if st.has_previous = false then .ok (some ⟨pg.page_size, false, none⟩)
        else
          match st.cursor with
          | none => .error .attributeError
          | some c =>
            if c.reverse then .ok (some ⟨0, false, st.previous_position⟩)
            else .ok (some ⟨c.offset + pg.page_size, false, st.previous_position⟩)

/-- `get_next_token`. -/
def get_next_token (pg : Paginator) (f : String → R → String) (st : PageState R) :
    Except PyExc (Option String) :=
  (getNextCursor pg f st).map (Option.map encode_cursor)

/-- The initial `compare` value of `get_previous_token`: the position of the
first page item when the existing cursor is forward with a non-zero offset,
else the recorded `previous_position`. -/
def prevCompare (pg : Paginator) (f : String → R → String) (st : PageState R) :
    Except PyExc (Option String) :=
  match st.cursor with
  | some c =>
    if c.reverse = false ∧ c.offset ≠ 0 then
      match st.page.head? with
      | some it => .ok (some (position_of f pg.ordering it))
      | none => .error .indexError
    else .ok st.previous_position
  | none => .ok st.previous_position

/-- The cursor built by `get_previous_token` (before encoding); `none` when
there is no previous page. -/
def getPrevCursor (pg : Paginator) (f : String → R → String) (st : PageState R) :
    Except PyExc (Option Cursor) :=
  if st.has_previous = false then .ok none
  else
    match prevCompare pg f st with
    | .error e => .error e
    | .ok compare =>
      match tieScan (position_of f pg.ordering) st.page compare with
      | some (offset, position) => .ok (some ⟨offset, true, some position⟩)
      | none =>
        if st.has_next = false then .ok (some ⟨pg.page_size, true, none⟩)
        else
          match st.cursor with
          | none => .error .attributeError
          | some c =>
            if c.reverse then .ok (some ⟨c.offset + pg.page_size, true, st.next_position⟩)
            else .ok (some ⟨0, true, st.next_position⟩)

/-- `get_previous_token`. -/
def get_previous_token (pg : Paginator) (f : String → R → String) (st : PageState R) :
    Except PyExc (Option String) :=
  (getPrevCursor pg f st).map (Option.map encode_cursor)

/-! ### Traversal -/

/-- One round of the forward walk: `paginate_query` on a token, then
`get_next_token` on the resulting state. -/
def walkStep (pg : Paginator) (f : String → R → String) (query : List R)
    (tok : Option String) : Except PyExc (PageState R × Option String) :=
  match paginate_query pg f query tok with
  | .error e => .error e
  | .ok st =>
    match get_next_token pg f st with
    | .error e => .error e
    | .ok nt => .ok (st, nt)

/-- The forward walk of the spec: repeatedly paginate and take the next
token until it is null, collecting the pages.  The boolean records whether
the walk terminated (reached a null next token) within the given fuel. -/
def walk (pg : Paginator) (f : String → R → String) (query : List R) :
    Nat → Option String → Except PyExc (List (List R) × Bool)
  | 0, _ => .ok ([], false)
  | n + 1, tok =>
    match walkStep pg f query tok with
    | .error e => .error e
    | .ok (st, none) => .ok ([st.page], true)
    | .ok (st, some t) => (walk pg f query n (some t)).map (fun pr => (st.page :: pr.1, pr.2))

/-- The percent-escape text of a byte list (three characters per byte),
the unsafe-character portion of `quote_plus` output. -/
def escBytes (bs : List Nat) : List Char :=
  (bs.map (fun b => ['%', digitChar (b / 16), digitChar (b % 16)])).flatten

/-- One quoted character as seen by the unquoting side, after the
plus-to-space substitution. -/
def quotedPiece (c : Char) : List Char := (quotePlusChar c).map plusSubst

/-- The chain of forward walk rounds: round `i + 1` paginates the next
token produced by round `i`.  A round past the end of the chain (the
previous round produced no next token) is marked with an error so that
only genuinely reached pages appear as `ok`. -/
def chainSt (pg : Paginator) (f : String → R → String) (query : List R) :
    Nat → Except PyExc (PageState R × Option String)
  | 0 => walkStep pg f query none
  | i + 1 =>
    match chainSt pg f query i with
    | .ok (_, some t) => walkStep pg f query (some t)
    | .ok (_, none) => .error .indexError
    | .error e => .error e

/-- Classification used for the error-handling claims: the computation either
succeeded or failed with `ValueError`. -/
def onlyVE : Except PyExc α → Prop
  | .ok _ => True
  | .error e => e = .valueError

/-- The keep-direction of the positional filter relative to the base
ordering direction of the primary field: with `asc` true keep rows whose
primary value is strictly greater than the anchor, otherwise strictly
smaller. -/
def pKeep (asc : Bool) (p x : String) : Bool := if asc then strLt p x else strLt x p

/-- An anchor `p` with boundary index `m` into the sorted snapshot `L`:
rows before `m` are rejected by the positional filter for `p` and rows
from `m` on are kept. -/
def GoodAnchor (asc : Bool) (pos1 : R → String) (L : List R) (p : String) (m : Nat) : Prop :=
  m ≤ L.length ∧
    (∀ i (hi : i < L.length), i < m → pKeep asc p (pos1 (L.get ⟨i, hi⟩)) = false) ∧
    (∀ i (hi : i < L.length), m ≤ i → pKeep asc p (pos1 (L.get ⟨i, hi⟩)) = true)

/-- Invariant of the forward walk: the decoded cursor resumes the sorted
snapshot `L` exactly at index `s`. -/
def GoodCur (asc : Bool) (pos1 : R → String) (L : List R) :
    Option Cursor → Nat → Prop
  | none, s => s = 0
  | some c, s =>
    c.reverse = false ∧
      (match c.position with
       | none => c.offset = s
       | some p => ∃ m, GoodAnchor asc pos1 L p m ∧ m + c.offset = s)

/-! ## Lemmas: characters and digits -/

theorem char_eq_of_toNat {a b : Char} (h : a.toNat = b.toNat) : a = b :=
  Char.ext (UInt32.ext h)

theorem char_toNat_lt (c : Char) : c.toNat < 1114112 := by
  have h := c.valid
  show c.val.toNat < 1114112
  rcases h with h | ⟨h1, h2⟩ <;> omega

theorem char_not_surrogate (c : Char) : ¬(55296 ≤ c.toNat ∧ c.toNat ≤ 57343) := by
  have h := c.valid
  show ¬(55296 ≤ c.val.toNat ∧ c.val.toNat ≤ 57343)
  rcases h with h | ⟨h1, h2⟩ <;> omega

theorem toNat_ofNat_valid {n : Nat} (h : n < 55296) : (Char.ofNat n).toNat = n := by
  have hv : n.isValidChar := Or.inl h
  simp [Char.ofNat, hv]
  rfl

theorem digitChar_toNat_lt10 {n : Nat} (h : n < 10) : (digitChar n).toNat = 48 + n := by
  unfold digitChar
  rw [if_pos h]
  exact toNat_ofNat_valid (by omega)

theorem digitChar_toNat_hex {n : Nat} (h1 : 10 ≤ n) (h2 : n < 16) :
    (digitChar n).toNat = 55 + n := by
  unfold digitChar
  rw [if_neg (by omega)]
  exact toNat_ofNat_valid (by omega)

theorem isAsciiDigit_digitChar {n : Nat} (h : n < 10) : isAsciiDigit (digitChar n) = true := by
  simp [isAsciiDigit, digitChar_toNat_lt10 h]
  omega

/-! ## Lemmas: decimal printing and parsing -/

theorem decAux_spec : ∀ (fuel n : Nat), n < fuel →
    (decAux fuel n ≠ [] ∧ (∀ c ∈ decAux fuel n, isAsciiDigit c) ∧ decValue (decAux fuel n) = n)
  | 0, n, h => absurd h (by omega)
  | fuel + 1, n, h => by
    by_cases h10 : n < 10
    · simp only [decAux, if_pos h10]
      refine ⟨by simp, ?_, ?_⟩
      · intro c hc
        simp at hc
        subst hc
        exact isAsciiDigit_digitChar h10
      · simp [decValue, digitChar_toNat_lt10 h10]
    · have hrec := decAux_spec fuel (n / 10) (by omega)
      simp only [decAux, if_neg h10]
      refine ⟨by simp, ?_, ?_⟩
      · intro c hc
        simp at hc
        rcases hc with hc | hc
        · exact hrec.2.1 c hc
        · subst hc
          exact isAsciiDigit_digitChar (by omega)
      · have heq : decValue (decAux fuel (n / 10) ++ [digitChar (n % 10)]) =
            decValue (decAux fuel (n / 10)) * 10 + ((digitChar (n % 10)).toNat - 48) := by
          simp [decValue, List.foldl_append]
        rw [heq, hrec.2.2, digitChar_toNat_lt10 (by omega)]
        omega

theorem isPySpace_of_digit {c : Char} (h : isAsciiDigit c = true) : isPySpace c = false := by
  simp only [isAsciiDigit, Bool.and_eq_true, decide_eq_true_eq] at h
  by_contra hne
  rw [Bool.not_eq_false] at hne
  simp only [isPySpace, Bool.or_eq_true, decide_eq_true_eq] at hne
  rcases hne with ((((he | he) | he) | he) | he) | he <;> (subst he; exact absurd h (by decide))

theorem dropWhile_head_false {p : Char → Bool} {x : Char} {xs : List Char}
    (h : p x = false) : (x :: xs).dropWhile p = x :: xs := by
  simp [List.dropWhile, h]

theorem pyInt_decRepr (n : Nat) : pyInt (decRepr n) = .ok (n : Int) := by
  obtain ⟨hne, hdig, hval⟩ := decAux_spec (n + 1) n (by omega)
  rcases hd : decAux (n + 1) n with _ | ⟨c, ds⟩
  · exact absurd hd hne
  · have hcd : isAsciiDigit c = true := hdig c (by rw [hd]; simp)
    have hdata : (⟨decAux (n + 1) n⟩ : String).data = c :: ds := by rw [hd]
    have hstrip : ((((⟨decAux (n + 1) n⟩ : String).data.dropWhile isPySpace).reverse.dropWhile
        isPySpace).reverse : List Char) = c :: ds := by
      rw [hdata, dropWhile_head_false (isPySpace_of_digit hcd)]
      rcases hr : (c :: ds).reverse with _ | ⟨y, ys⟩
      · simp at hr
      · have hy : y ∈ c :: ds := by
          have h2 : y ∈ (c :: ds).reverse := by rw [hr]; simp
          rw [List.mem_reverse] at h2
          exact h2
        have hyd : isAsciiDigit y = true := hdig y (by rw [hd]; exact hy)
        rw [dropWhile_head_false (isPySpace_of_digit hyd), ← hr, List.reverse_reverse]
    have hcm : ¬(c = '-') := by
      intro he; subst he; exact absurd hcd (by decide)
    have hcp : ¬(c = '+') := by
      intro he; subst he; exact absurd hcd (by decide)
    have hpd : pyIntDigits (c :: ds) = some n := by
      unfold pyIntDigits
      rw [if_pos]
      · rw [← hd, hval]
      · refine ⟨by simp, ?_⟩
        rw [List.all_eq_true]
        intro x hx
        exact hdig x (by rw [hd]; exact hx)
    unfold pyInt decRepr
    rw [hstrip]
    show (if c = '-' then
        (match pyIntDigits ds with
         | some n => Except.ok (-(n : Int))
         | none => Except.error PyExc.valueError)
      else if c = '+' then
        (match pyIntDigits ds with
         | some n => Except.ok ((n : Int))
         | none => Except.error PyExc.valueError)
      else
        (match pyIntDigits (c :: ds) with
         | some n => Except.ok ((n : Int))
         | none => Except.error PyExc.valueError)) = Except.ok (n : Int)
    rw [if_neg hcm, if_neg hcp, hpd]

/-! ## Lemmas: base64 round trip -/

theorem b64CharVal_b64Char : ∀ n, n < 64 → b64CharVal (b64Char n) = some n := by decide

theorem b64Char_ne_61 : ∀ n, n < 64 → ¬(b64Char n = 61) := by decide

theorem b64Char_lt_128 : ∀ n, n < 64 → b64Char n < 128 := by decide

theorem b64Keep_61 : (((b64CharVal 61).isSome || (61 : Nat) == 61) = true) := by decide

theorem b64Keep_char {n : Nat} (h : n < 64) :
    ((b64CharVal (b64Char n)).isSome || b64Char n == 61) = true := by
  rw [b64CharVal_b64Char n h]
  rfl

theorem b64encode_filter : ∀ (bs : List Nat), (∀ b ∈ bs, b < 256) →
    (b64encodeBytes bs).filter (fun c => (b64CharVal c).isSome || c == 61) = b64encodeBytes bs
  | [], _ => rfl
  | [a], h => by
    have ha : a < 256 := h a (by simp)
    simp only [b64encodeBytes, List.filter]
    rw [b64Keep_char (by omega : a / 4 < 64), b64Keep_char (by omega : a % 4 * 16 < 64), b64Keep_61]
  | [a, b], h => by
    have ha : a < 256 := h a (by simp)
    have hb : b < 256 := h b (by simp)
    simp only [b64encodeBytes, List.filter]
    rw [b64Keep_char (by omega : a / 4 < 64), b64Keep_char (by omega : a % 4 * 16 + b / 16 < 64),
      b64Keep_char (by omega : b % 16 * 4 < 64), b64Keep_61]
  | a :: b :: c :: rest, h => by
    have ha : a < 256 := h a (by simp)
    have hb : b < 256 := h b (by simp)
    have hc : c < 256 := h c (by simp)
    have ih := b64encode_filter rest (fun x hx => h x (by simp [hx]))
    simp only [b64encodeBytes, List.filter] at ih ⊢
    rw [b64Keep_char (by omega : a / 4 < 64), b64Keep_char (by omega : a % 4 * 16 + b / 16 < 64),
      b64Keep_char (by omega : b % 16 * 4 + c / 64 < 64), b64Keep_char (by omega : c % 64 < 64), ih]

theorem b64Quads_encode : ∀ (bs : List Nat), (∀ b ∈ bs, b < 256) →
    b64Quads (b64encodeBytes bs) = .ok bs
  | [], _ => rfl
  | [a], h => by
    have ha : a < 256 := h a (by simp)
    simp only [b64encodeBytes, b64Quads]
    rw [b64CharVal_b64Char _ (by omega : a / 4 < 64),
      b64CharVal_b64Char _ (by omega : a % 4 * 16 < 64)]
    simp only [if_pos rfl, and_self, if_true]
    have : a / 4 * 4 + a % 4 * 16 / 16 = a := by omega
    rw [this]
  | [a, b], h => by
    have ha : a < 256 := h a (by simp)
    have hb : b < 256 := h b (by simp)
    have e1 := b64CharVal_b64Char _ (by omega : a / 4 < 64)
    have e2 := b64CharVal_b64Char _ (by omega : a % 4 * 16 + b / 16 < 64)
    have e3 := b64CharVal_b64Char _ (by omega : b % 16 * 4 < 64)
    have hne : (b64Char (b % 16 * 4) = 61) = False :=
      eq_false (b64Char_ne_61 _ (by omega : b % 16 * 4 < 64))
    simp only [b64encodeBytes, b64Quads, e1, e2, e3, hne, if_false, if_pos rfl]
    have h1 : a / 4 * 4 + (a % 4 * 16 + b / 16) / 16 = a := by omega
    have h2 : (a % 4 * 16 + b / 16) % 16 * 16 + b % 16 * 4 / 4 = b := by omega
    rw [h1, h2]
    simp
  | a :: b :: c :: rest, h => by
    have ha : a < 256 := h a (by simp)
    have hb : b < 256 := h b (by simp)
    have hc : c < 256 := h c (by simp)
    have ih := b64Quads_encode rest (fun x hx => h x (by simp [hx]))
    have e1 := b64CharVal_b64Char _ (by omega : a / 4 < 64)
    have e2 := b64CharVal_b64Char _ (by omega : a % 4 * 16 + b / 16 < 64)
    have e3 := b64CharVal_b64Char _ (by omega : b % 16 * 4 + c / 64 < 64)
    have e4 := b64CharVal_b64Char _ (by omega : c % 64 < 64)
    have hne3 : (b64Char (b % 16 * 4 + c / 64) = 61) = False :=
      eq_false (b64Char_ne_61 _ (by omega : b % 16 * 4 + c / 64 < 64))
    have hne4 : (b64Char (c % 64) = 61) = False :=
      eq_false (b64Char_ne_61 _ (by omega : c % 64 < 64))
    simp only [b64encodeBytes, b64Quads, e1, e2, e3, e4, hne3, hne4, if_false, ih, Except.map]
    have h1 : a / 4 * 4 + (a % 4 * 16 + b / 16) / 16 = a := by omega
    have h2 : (a % 4 * 16 + b / 16) % 16 * 16 + (b % 16 * 4 + c / 64) / 4 = b := by omega
    have h3 : (b % 16 * 4 + c / 64) % 4 * 64 + c % 64 = c := by omega
    rw [h1, h2, h3]

theorem b64decode_encode (bs : List Nat) (h : ∀ b ∈ bs, b < 256) :
    b64decodeBytes (b64encodeBytes bs) = .ok bs := by
  unfold b64decodeBytes
  rw [b64encode_filter bs h, b64Quads_encode bs h]

theorem b64encode_lt_128 : ∀ (bs : List Nat), (∀ b ∈ bs, b < 256) →
    ∀ x ∈ b64encodeBytes bs, x < 128
  | [], _ => by simp [b64encodeBytes]
  | [a], h => by
    have ha : a < 256 := h a (by simp)
    simp only [b64encodeBytes]
    intro x hx
    simp only [List.mem_cons, List.not_mem_nil, or_false] at hx
    rcases hx with hx | hx | hx | hx <;> subst hx
    · exact b64Char_lt_128 _ (by omega)
    · exact b64Char_lt_128 _ (by omega)
    · omega
    · omega
  | [a, b], h => by
    have ha : a < 256 := h a (by simp)
    have hb : b < 256 := h b (by simp)
    simp only [b64encodeBytes]
    intro x hx
    simp only [List.mem_cons, List.not_mem_nil, or_false] at hx
    rcases hx with hx | hx | hx | hx <;> subst hx
    · exact b64Char_lt_128 _ (by omega)
    · exact b64Char_lt_128 _ (by omega)
    · exact b64Char_lt_128 _ (by omega)
    · omega
  | a :: b :: c :: rest, h => by
    have ha : a < 256 := h a (by simp)
    have hb : b < 256 := h b (by simp)
    have hc : c < 256 := h c (by simp)
    have ih := b64encode_lt_128 rest (fun x hx => h x (by simp [hx]))
    simp only [b64encodeBytes]
    intro x hx
    simp only [List.mem_cons] at hx
    rcases hx with hx | hx | hx | hx | hx
    · subst hx; exact b64Char_lt_128 _ (by omega)
    · subst hx; exact b64Char_lt_128 _ (by omega)
    · subst hx; exact b64Char_lt_128 _ (by omega)
    · subst hx; exact b64Char_lt_128 _ (by omega)
    · exact ih x hx

/-! ## Lemmas: UTF-8 round trip -/

theorem utf8Bytes_lt_256 (c : Char) : ∀ b ∈ utf8Bytes c, b < 256 := by
  have hlt := char_toNat_lt c
  unfold utf8Bytes
  by_cases h1 : c.toNat < 128
  · simp only [if_pos h1]
    intro b hb
    simp only [List.mem_singleton] at hb
    omega
  · by_cases h2 : c.toNat < 2048
    · simp only [if_neg h1, if_pos h2]
      intro b hb
      simp only [List.mem_cons, List.not_mem_nil, or_false] at hb
      rcases hb with hb | hb <;> omega
    · by_cases h3 : c.toNat < 65536
      · simp only [if_neg h1, if_neg h2, if_pos h3]
        intro b hb
        simp only [List.mem_cons, List.not_mem_nil, or_false] at hb
        rcases hb with hb | hb | hb <;> omega
      · simp only [if_neg h1, if_neg h2, if_neg h3]
        intro b hb
        simp only [List.mem_cons, List.not_mem_nil, or_false] at hb
        rcases hb with hb | hb | hb | hb <;> omega

theorem utf8Bytes_length_pos (c : Char) : 0 < (utf8Bytes c).length := by
  unfold utf8Bytes
  by_cases h1 : c.toNat < 128
  · simp [if_pos h1]
  · by_cases h2 : c.toNat < 2048
    · simp [if_neg h1, if_pos h2]
    · by_cases h3 : c.toNat < 65536
      · simp [if_neg h1, if_neg h2, if_pos h3]
      · simp [if_neg h1, if_neg h2, if_neg h3]

theorem utf8_step (fuel : Nat) (c : Char) (rest : List Nat) :
    utf8DecodeReplF (fuel + 1) (utf8Bytes c ++ rest) = c :: utf8DecodeReplF fuel rest := by
  have hlt := char_toNat_lt c
  have hsur := char_not_surrogate c
  unfold utf8Bytes
  by_cases h1 : c.toNat < 128
  · simp only [if_pos h1, List.cons_append, List.nil_append]
    simp only [utf8DecodeReplF]
    rw [if_pos h1]
    rw [show Char.ofNat c.toNat = c from Char.ofNat_toNat c]
  · by_cases h2 : c.toNat < 2048
    · simp only [if_neg h1, if_pos h2, List.cons_append, List.nil_append]
      simp only [utf8DecodeReplF]
      rw [if_neg (by omega), if_pos (by omega : 194 ≤ 192 + c.toNat / 64 ∧ 192 + c.toNat / 64 ≤ 223)]
      have hc : isCont (128 + c.toNat % 64) = true := by
        simp only [isCont, Bool.and_eq_true, decide_eq_true_eq]
        omega
      rw [if_pos hc]
      have harith : (192 + c.toNat / 64 - 192) * 64 + (128 + c.toNat % 64 - 128) = c.toNat := by
        omega
      rw [harith, Char.ofNat_toNat]
    · by_cases h3 : c.toNat < 65536
      · simp only [if_neg h1, if_neg h2, if_pos h3, List.cons_append, List.nil_append]
        simp only [utf8DecodeReplF]
        rw [if_neg (by omega), if_neg (by omega), if_pos (by omega :
          224 ≤ 224 + c.toNat / 4096 ∧ 224 + c.toNat / 4096 ≤ 239)]
        have hc : (isCont (128 + c.toNat / 64 % 64) = true ∧ isCont (128 + c.toNat % 64) = true) := by
          simp only [isCont, Bool.and_eq_true, decide_eq_true_eq]
          omega
        rw [if_pos hc]
        have harith : (224 + c.toNat / 4096 - 224) * 4096 + (128 + c.toNat / 64 % 64 - 128) * 64 +
            (128 + c.toNat % 64 - 128) = c.toNat := by
          omega
        rw [if_pos (by omega : 2048 ≤ (224 + c.toNat / 4096 - 224) * 4096 +
          (128 + c.toNat / 64 % 64 - 128) * 64 + (128 + c.toNat % 64 - 128) ∧
          ¬(55296 ≤ (224 + c.toNat / 4096 - 224) * 4096 + (128 + c.toNat / 64 % 64 - 128) * 64 +
            (128 + c.toNat % 64 - 128) ∧ (224 + c.toNat / 4096 - 224) * 4096 +
            (128 + c.toNat / 64 % 64 - 128) * 64 + (128 + c.toNat % 64 - 128) ≤ 57343))]
        rw [harith, Char.ofNat_toNat]
      · simp only [if_neg h1, if_neg h2, if_neg h3, List.cons_append, List.nil_append]
        simp only [utf8DecodeReplF]
        rw [if_neg (by omega), if_neg (by omega), if_neg (by omega), if_pos (by omega :
          240 ≤ 240 + c.toNat / 262144 ∧ 240 + c.toNat / 262144 ≤ 244)]
        have hc : (isCont (128 + c.toNat / 4096 % 64) = true ∧
            isCont (128 + c.toNat / 64 % 64) = true ∧ isCont (128 + c.toNat % 64) = true) := by
          simp only [isCont, Bool.and_eq_true, decide_eq_true_eq]
          omega
        rw [if_pos hc]
        have harith : (240 + c.toNat / 262144 - 240) * 262144 + (128 + c.toNat / 4096 % 64 - 128) *
            4096 + (128 + c.toNat / 64 % 64 - 128) * 64 + (128 + c.toNat % 64 - 128) = c.toNat := by
          omega
        rw [harith]
        rw [if_pos (by omega : 65536 ≤ c.toNat ∧ c.toNat < 1114112)]
        rw [Char.ofNat_toNat]

theorem utf8DecodeReplF_nil : ∀ fuel, utf8DecodeReplF fuel [] = [] := by
  intro fuel
  cases fuel <;> rfl

theorem utf8_concat : ∀ (ds : List Char) (fuel : Nat), ds.length ≤ fuel →
    utf8DecodeReplF fuel ((ds.map utf8Bytes).flatten) = ds
  | [], fuel, _ => by simp [utf8DecodeReplF_nil]
  | d :: ds, fuel, h => by
    rcases fuel with _ | f
    · simp at h
    · simp only [List.map_cons, List.flatten_cons]
      rw [utf8_step f d ((ds.map utf8Bytes).flatten)]
      rw [utf8_concat ds f (by simp at h; omega)]

theorem length_le_utf8_flatten (ds : List Char) :
    ds.length ≤ ((ds.map utf8Bytes).flatten).length := by
  induction ds with
  | nil => simp
  | cons d ds ih =>
    simp only [List.map_cons, List.flatten_cons, List.length_append, List.length_cons]
    have := utf8Bytes_length_pos d
    omega

theorem utf8DecodeRepl_concat (ds : List Char) :
    utf8DecodeRepl ((ds.map utf8Bytes).flatten) = ds := by
  unfold utf8DecodeRepl
  exact utf8_concat ds _ (length_le_utf8_flatten ds)

/-! ## Lemmas: percent encoding round trip -/

theorem hexVal_digitChar : ∀ v, v < 16 → hexVal (digitChar v) = some v := by decide

theorem digitChar_ne_pct : ∀ v, v < 16 → ¬(digitChar v = '%') := by decide

theorem digitChar_ne_plus : ∀ v, v < 16 → ¬(digitChar v = '+') := by decide

theorem pctPass1F_nil : ∀ fuel, pctPass1F fuel [] = [] := by
  intro fuel
  cases fuel <;> rfl

theorem pctPass1F_chr (fuel : Nat) (c : Char) (t : List Char) (h : ¬(c = '%')) :
    pctPass1F (fuel + 1) (c :: t) = Sum.inl c :: pctPass1F fuel t := by
  simp only [pctPass1F, if_neg h]

theorem pctPass1F_esc : ∀ (bs : List Nat) (extra : Nat) (t : List Char), (∀ b ∈ bs, b < 256) →
    pctPass1F (extra + bs.length) (escBytes bs ++ t) = bs.map Sum.inr ++ pctPass1F extra t
  | [], extra, t, _ => by simp [escBytes]
  | b :: bs, extra, t, h => by
    have hb : b < 256 := h b (by simp)
    have ih := pctPass1F_esc bs extra t (fun x hx => h x (by simp [hx]))
    have hlen : extra + (b :: bs).length = (extra + bs.length) + 1 := by simp; omega
    rw [hlen]
    show pctPass1F ((extra + bs.length) + 1)
      ('%' :: digitChar (b / 16) :: digitChar (b % 16) :: (escBytes bs ++ t)) = _
    simp only [pctPass1F, if_pos rfl]
    rw [hexVal_digitChar _ (by omega), hexVal_digitChar _ (by omega)]
    show Sum.inr (b / 16 * 16 + b % 16) :: pctPass1F (extra + bs.length) (escBytes bs ++ t) = _
    rw [ih]
    have : b / 16 * 16 + b % 16 = b := by omega
    rw [this]
    rfl

theorem pctGroup_inr : ∀ (bs : List Nat) (acc : List Nat) (t : List (Sum Char Nat)),
    pctGroup acc (bs.map Sum.inr ++ t) = pctGroup (bs.reverse ++ acc) t
  | [], acc, t => by simp
  | b :: bs, acc, t => by
    show pctGroup (b :: acc) (bs.map Sum.inr ++ t) = _
    rw [pctGroup_inr bs (b :: acc) t]
    simp

theorem isAlwaysSafe_ne_pct {c : Char} (h : isAlwaysSafe c = true) : ¬(c = '%') := by
  intro he
  subst he
  exact absurd h (by decide)

theorem isAlwaysSafe_ne_plus {c : Char} (h : isAlwaysSafe c = true) : ¬(c = '+') := by
  intro he
  subst he
  exact absurd h (by decide)

theorem quotedPiece_safe {c : Char} (h : isAlwaysSafe c = true) : quotedPiece c = [c] := by
  unfold quotedPiece quotePlusChar
  rw [if_pos h]
  simp [plusSubst, if_neg (isAlwaysSafe_ne_plus h)]

theorem quotedPiece_space : quotedPiece ' ' = [' '] := by decide

theorem quotedPiece_esc {c : Char} (h1 : isAlwaysSafe c = false) (h2 : ¬(c = ' ')) :
    quotedPiece c = escBytes (utf8Bytes c) := by
  unfold quotedPiece quotePlusChar escBytes
  rw [if_neg (by simp [h1]), if_neg h2]
  rw [List.map_flatten, List.map_map]
  congr 1
  apply List.map_congr_left
  intro b hb
  have hb256 : b < 256 := utf8Bytes_lt_256 c b hb
  simp only [Function.comp, List.map_cons, List.map_nil]
  have e1 : plusSubst '%' = '%' := by decide
  have e2 : plusSubst (digitChar (b / 16)) = digitChar (b / 16) := by
    unfold plusSubst
    rw [if_neg (digitChar_ne_plus (b / 16) (by omega))]
  have e3 : plusSubst (digitChar (b % 16)) = digitChar (b % 16) := by
    unfold plusSubst
    rw [if_neg (digitChar_ne_plus (b % 16) (by omega))]
  rw [e1, e2, e3]

theorem escBytes_length (bs : List Nat) : (escBytes bs).length = 3 * bs.length := by
  induction bs with
  | nil => simp [escBytes]
  | cons b bs ih =>
    simp only [escBytes, List.map_cons, List.flatten_cons, List.length_append] at ih ⊢
    simp [ih]
    omega

theorem quotedPiece_ne_nil_safe {c : Char} : quotedPiece c ≠ [] ∨ True := Or.inr trivial

theorem pct_roundtrip_aux : ∀ (cs : List Char) (ds : List Char) (acc : List Nat) (fuel : Nat),
    acc.reverse = ((ds.map utf8Bytes).flatten) →
    ((cs.map quotedPiece).flatten).length ≤ fuel →
    pctGroup acc (pctPass1F fuel ((cs.map quotedPiece).flatten)) = ds ++ cs
  | [], ds, acc, fuel, hacc, _ => by
    simp only [List.map_nil, List.flatten_nil, pctPass1F_nil]
    show utf8DecodeRepl acc.reverse = ds ++ []
    rw [hacc, utf8DecodeRepl_concat]
    simp
  | c :: cs, ds, acc, fuel, hacc, hfuel => by
    by_cases hsafe : isAlwaysSafe c = true ∨ c = ' '
    · have hpiece : quotedPiece c = [c] := by
        rcases hsafe with hs | hs
        · exact quotedPiece_safe hs
        · subst hs; exact quotedPiece_space
      have hnp : ¬(c = '%') := by
        rcases hsafe with hs | hs
        · exact isAlwaysSafe_ne_pct hs
        · subst hs; decide
      simp only [List.map_cons, List.flatten_cons, hpiece] at hfuel ⊢
      rcases fuel with _ | f
      · rw [List.singleton_append, List.length_cons] at hfuel
        omega
      · have hf2 : ((cs.map quotedPiece).flatten).length ≤ f := by
          rw [List.singleton_append, List.length_cons] at hfuel
          omega
        rw [List.singleton_append, pctPass1F_chr f c _ hnp]
        show utf8DecodeRepl acc.reverse ++ c :: pctGroup [] (pctPass1F f ((cs.map quotedPiece).flatten)) = ds ++ c :: cs
        rw [hacc, utf8DecodeRepl_concat]
        rw [pct_roundtrip_aux cs [] [] f (by simp) hf2]
        simp
    · push_neg at hsafe
      have hpiece : quotedPiece c = escBytes (utf8Bytes c) :=
        quotedPiece_esc (by simp [hsafe.1]) hsafe.2
      simp only [List.map_cons, List.flatten_cons, hpiece] at hfuel ⊢
      have hblen : 0 < (utf8Bytes c).length := utf8Bytes_length_pos c
      have hkey : ((cs.map quotedPiece).flatten).length ≤ fuel - (utf8Bytes c).length ∧
          (utf8Bytes c).length ≤ fuel := by
        rw [List.length_append, escBytes_length] at hfuel
        constructor <;> omega
      have hfe : fuel = (fuel - (utf8Bytes c).length) + (utf8Bytes c).length := by
        omega
      rw [hfe, pctPass1F_esc (utf8Bytes c) _ _ (utf8Bytes_lt_256 c)]
      rw [pctGroup_inr]
      have ih := pct_roundtrip_aux cs (ds ++ [c]) ((utf8Bytes c).reverse ++ acc)
        (fuel - (utf8Bytes c).length)
        (by
          simp only [List.reverse_append, List.reverse_reverse, List.map_append, List.map_cons,
            List.map_nil, List.flatten_append, List.flatten_cons, List.flatten_nil, hacc]
          simp)
        hkey.1
      rw [ih]
      simp

theorem unquote_quote (s : String) : unquote_plus (quote_plus s) = s := by
  unfold unquote_plus quote_plus
  have hdata : (⟨(s.data.map quotePlusChar).flatten⟩ : String).data =
      (s.data.map quotePlusChar).flatten := rfl
  rw [hdata]
  have hmap : ((s.data.map quotePlusChar).flatten).map plusSubst =
      (s.data.map quotedPiece).flatten := by
    rw [List.map_flatten, List.map_map]
    rfl
  rw [hmap]
  unfold pctPass1
  rw [pct_roundtrip_aux s.data [] [] _ (by simp) le_rfl]
  simp

/-! ## Lemmas: query string round trip -/

theorem string_append_data (a b : String) : (a ++ b).data = a.data ++ b.data := rfl

theorem string_eta (s : String) : (⟨s.data⟩ : String) = s := rfl

theorem quotePlusChar_class (c : Char) : ∀ x ∈ quotePlusChar c,
    x.toNat < 128 ∧ x.toNat ≠ 38 ∧ x.toNat ≠ 59 ∧ x.toNat ≠ 61 := by
  intro x hx
  unfold quotePlusChar at hx
  by_cases hs : isAlwaysSafe c = true
  · rw [if_pos hs] at hx
    simp only [List.mem_singleton] at hx
    subst hx
    simp only [isAlwaysSafe, Bool.or_eq_true, Bool.and_eq_true, decide_eq_true_eq] at hs
    rcases hs with ((((((h | h) | h) | h) | h) | h) | h)
    · omega
    · omega
    · omega
    · subst h; refine ⟨by decide, by decide, by decide, by decide⟩
    · subst h; refine ⟨by decide, by decide, by decide, by decide⟩
    · subst h; refine ⟨by decide, by decide, by decide, by decide⟩
    · subst h; refine ⟨by decide, by decide, by decide, by decide⟩
  · rw [if_neg hs] at hx
    by_cases hsp : c = ' '
    · rw [if_pos hsp] at hx
      simp only [List.mem_singleton] at hx
      subst hx
      refine ⟨by decide, by decide, by decide, by decide⟩
    · rw [if_neg hsp] at hx
      simp only [List.mem_flatten, List.mem_map] at hx
      obtain ⟨piece, ⟨b, hb, hpiece⟩, hxp⟩ := hx
      subst hpiece
      have hb256 : b < 256 := utf8Bytes_lt_256 c b hb
      simp only [List.mem_cons, List.not_mem_nil, or_false] at hxp
      rcases hxp with hxp | hxp | hxp
      · subst hxp; refine ⟨by decide, by decide, by decide, by decide⟩
      · subst hxp
        by_cases hv : b / 16 < 10
        · rw [digitChar_toNat_lt10 hv]; omega
        · rw [digitChar_toNat_hex (by omega) (by omega)]; omega
      · subst hxp
        by_cases hv : b % 16 < 10
        · rw [digitChar_toNat_lt10 hv]; omega
        · rw [digitChar_toNat_hex (by omega) (by omega)]; omega

theorem quote_plus_class (s : String) : ∀ x ∈ (quote_plus s).data,
    x.toNat < 128 ∧ x.toNat ≠ 38 ∧ x.toNat ≠ 59 ∧ x.toNat ≠ 61 := by
  intro x hx
  unfold quote_plus at hx
  simp only [List.mem_flatten, List.mem_map] at hx
  obtain ⟨piece, ⟨cc, _, hpiece⟩, hxp⟩ := hx
  subst hpiece
  exact quotePlusChar_class cc x hxp

theorem toNat_ne_char {x : Char} {c : Char} (h : x.toNat ≠ c.toNat) : ¬(x = c) := by
  intro he
  subst he
  exact h rfl

theorem quote_plus_no_seps (s : String) : ∀ x ∈ (quote_plus s).data,
    ¬(x = '&' ∨ x = ';') ∧ ¬(x = '=') := by
  intro x hx
  obtain ⟨_, h38, h59, h61⟩ := quote_plus_class s x hx
  refine ⟨?_, toNat_ne_char (by simpa using h61)⟩
  rintro (he | he)
  · exact toNat_ne_char (by simpa using h38) he
  · exact toNat_ne_char (by simpa using h59) he

theorem splitFields_no_sep : ∀ (A : List Char) (acc : List Char),
    (∀ c ∈ A, ¬(c = '&' ∨ c = ';')) → splitFields acc A = [acc.reverse ++ A]
  | [], acc, _ => by simp [splitFields]
  | c :: A, acc, h => by
    have hc := h c (by simp)
    show (if c = '&' ∨ c = ';' then _ else _) = _
    rw [if_neg hc]
    rw [splitFields_no_sep A (c :: acc) (fun x hx => h x (by simp [hx]))]
    simp

theorem splitFields_append : ∀ (A : List Char) (acc : List Char) (rest : List Char),
    (∀ c ∈ A, ¬(c = '&' ∨ c = ';')) →
    splitFields acc (A ++ '&' :: rest) = (acc.reverse ++ A) :: splitFields [] rest
  | [], acc, rest, _ => by
    show (if '&' = '&' ∨ '&' = ';' then _ else _) = _
    rw [if_pos (Or.inl rfl)]
    simp
  | c :: A, acc, rest, h => by
    have hc := h c (by simp)
    show (if c = '&' ∨ c = ';' then _ else _) = _
    rw [if_neg hc]
    simp only [List.append_eq]
    rw [splitFields_append A (c :: acc) rest (fun x hx => h x (by simp [hx]))]
    simp

theorem splitEq_append : ∀ (K : List Char) (V : List Char), (∀ c ∈ K, ¬(c = '=')) →
    splitEq (K ++ '=' :: V) = some (K, V)
  | [], V, _ => by
    show (if '=' = '=' then _ else _) = _
    rw [if_pos rfl]
  | c :: K, V, h => by
    have hc := h c (by simp)
    show (if c = '=' then _ else _) = _
    rw [if_neg hc]
    simp only [List.append_eq]
    rw [splitEq_append K V (fun x hx => h x (by simp [hx]))]
    rfl

theorem parse_urlencode : ∀ (l : List (String × String)),
    parse_qsl (urlencode l) =
      l.map (fun kv => (unquote_plus (quote_plus kv.1), unquote_plus (quote_plus kv.2)))
  | [] => by
    show parse_qsl "" = []
    unfold parse_qsl
    show (splitFields [] []).filterMap _ = []
    simp [splitFields]
  | kv :: rest => by
    have hknosep := quote_plus_no_seps kv.1
    have hvnosep := quote_plus_no_seps kv.2
    have hfield : ∀ c ∈ (quote_plus kv.1).data ++ '=' :: (quote_plus kv.2).data,
        ¬(c = '&' ∨ c = ';') := by
      intro c hc
      simp only [List.mem_append, List.mem_cons] at hc
      rcases hc with hc | hc | hc
      · exact (hknosep c hc).1
      · subst hc; decide
      · exact (hvnosep c hc).1
    have hkeq : ∀ c ∈ (quote_plus kv.1).data, ¬(c = '=') := fun c hc => (hknosep c hc).2
    have hsplitEq : splitEq ((quote_plus kv.1).data ++ '=' :: (quote_plus kv.2).data) =
        some ((quote_plus kv.1).data, (quote_plus kv.2).data) := splitEq_append _ _ hkeq
    have hfne : ((quote_plus kv.1).data ++ '=' :: (quote_plus kv.2).data) ≠ [] := by
      simp
    by_cases hr : rest.isEmpty
    · have hre : rest = [] := by
        cases rest
        · rfl
        · simp [List.isEmpty] at hr
      subst hre
      show parse_qsl (quote_plus kv.1 ++ "=" ++ quote_plus kv.2 ++
        (if ([] : List (String × String)).isEmpty then "" else "&" ++ urlencode [])) = _
      rw [show (if ([] : List (String × String)).isEmpty then ("" : String)
        else "&" ++ urlencode []) = "" from rfl]
      unfold parse_qsl
      have hdata : (quote_plus kv.1 ++ "=" ++ quote_plus kv.2 ++ "").data =
          (quote_plus kv.1).data ++ '=' :: (quote_plus kv.2).data := by
        simp only [string_append_data]
        simp
      rw [hdata]
      rw [splitFields_no_sep _ [] hfield]
      simp only [List.reverse_nil, List.nil_append, List.filterMap]
      rw [if_neg hfne, hsplitEq]
      simp [string_eta]
    · have hre : ¬(rest = []) := by
        cases rest
        · simp [List.isEmpty] at hr
        · simp
      show parse_qsl (quote_plus kv.1 ++ "=" ++ quote_plus kv.2 ++
        (if rest.isEmpty then "" else "&" ++ urlencode rest)) = _
      rw [if_neg hr]
      unfold parse_qsl
      have hdata : (quote_plus kv.1 ++ "=" ++ quote_plus kv.2 ++ ("&" ++ urlencode rest)).data =
          ((quote_plus kv.1).data ++ '=' :: (quote_plus kv.2).data) ++
            '&' :: (urlencode rest).data := by
        simp only [string_append_data]
        simp
      rw [hdata]
      rw [splitFields_append _ [] _ hfield]
      simp only [List.reverse_nil, List.nil_append, List.filterMap]
      rw [if_neg hfne, hsplitEq]
      have ih := parse_urlencode rest
      unfold parse_qsl at ih
      simp only [List.map_cons]
      rw [← ih]

theorem parse_urlencode_id (l : List (String × String)) : parse_qsl (urlencode l) = l := by
  rw [parse_urlencode l]
  have : ∀ kv : String × String,
      (unquote_plus (quote_plus kv.1), unquote_plus (quote_plus kv.2)) = kv := by
    intro kv
    rw [unquote_quote, unquote_quote]
  simp only [this, List.map_id]
  exact List.map_id l

/-! ## Lemmas: cursor encode/decode round trip -/

theorem urlencode_ascii : ∀ (l : List (String × String)), ∀ x ∈ (urlencode l).data, x.toNat < 128
  | [] => by
    intro x hx
    simp [urlencode] at hx
  | kv :: rest => by
    intro x hx
    have hx2 : x ∈ (quote_plus kv.1 ++ "=" ++ quote_plus kv.2 ++
        (if rest.isEmpty then "" else "&" ++ urlencode rest)).data := hx
    clear hx
    rename' hx2 => hx
    simp only [string_append_data, List.mem_append] at hx
    rcases hx with ((hx | hx) | hx) | hx
    · exact (quote_plus_class kv.1 x hx).1
    · have : x = '=' := by simpa using hx
      subst this
      decide
    · exact (quote_plus_class kv.2 x hx).1
    · by_cases hr : rest.isEmpty
      · rw [if_pos hr] at hx
        simp at hx
      · rw [if_neg hr] at hx
        have h3 : ("&" ++ urlencode rest).data = '&' :: (urlencode rest).data := by
          simp [string_append_data]
        rw [h3] at hx
        simp only [List.mem_cons] at hx
        rcases hx with hx | hx
        · subst hx; decide
        · exact urlencode_ascii rest x hx

theorem map_toNat_ofNat {bs : List Nat} (h : ∀ b ∈ bs, b < 128) :
    (bs.map Char.ofNat).map Char.toNat = bs := by
  rw [List.map_map]
  have : ∀ b ∈ bs, (Char.toNat ∘ Char.ofNat) b = id b := by
    intro b hb
    simp only [Function.comp, id]
    exact toNat_ofNat_valid (by have := h b hb; omega)
  rw [List.map_congr_left this, List.map_id]

theorem map_ofNat_toNat (cs : List Char) : (cs.map Char.toNat).map Char.ofNat = cs := by
  rw [List.map_map]
  have : ∀ c ∈ cs, (Char.ofNat ∘ Char.toNat) c = id c := by
    intro c _
    simp only [Function.comp, id]
    exact Char.ofNat_toNat c
  rw [List.map_congr_left this, List.map_id]

theorem strToAscii_of_ascii (cs : List Char) (h : ∀ x ∈ cs, x.toNat < 128) :
    strToAscii ⟨cs⟩ = .ok (cs.map Char.toNat) := by
  unfold strToAscii
  rw [if_pos]
  rw [List.all_eq_true]
  intro x hx
  simpa using h x hx

theorem bytesToAscii_of_ascii (bs : List Nat) (h : ∀ b ∈ bs, b < 128) :
    bytesToAscii bs = .ok ⟨bs.map Char.ofNat⟩ := by
  unfold bytesToAscii
  rw [if_pos]
  rw [List.all_eq_true]
  intro x hx
  simpa using h x hx

theorem decodeRaw_pipeline (qs : String) (h : ∀ x ∈ qs.data, x.toNat < 128) :
    decodeCursorRaw ⟨(b64encodeBytes (qs.data.map Char.toNat)).map Char.ofNat⟩ =
      (do
        let tokens := parse_qsl qs
        let o := (qsGetFirst tokens "o").getD "0"
        let offset ← positive_int o false (some offset_cutoff)
        let r := (qsGetFirst tokens "r").getD "0"
        let ri ← pyInt r
        let position := qsGetFirst tokens "p"
        .ok ⟨offset, decide (ri ≠ 0), position⟩) := by
  have hbytes : ∀ b ∈ qs.data.map Char.toNat, b < 256 := by
    intro b hb
    simp only [List.mem_map] at hb
    obtain ⟨x, hx, hbx⟩ := hb
    subst hbx
    have := h x hx
    omega
  have hencA : ∀ x ∈ b64encodeBytes (qs.data.map Char.toNat), x < 128 :=
    b64encode_lt_128 _ hbytes
  have h1 : strToAscii ⟨(b64encodeBytes (qs.data.map Char.toNat)).map Char.ofNat⟩ =
      .ok (b64encodeBytes (qs.data.map Char.toNat)) := by
    rw [strToAscii_of_ascii]
    · rw [map_toNat_ofNat hencA]
    · intro x hx
      simp only [List.mem_map] at hx
      obtain ⟨b, hb, hbx⟩ := hx
      subst hbx
      rw [toNat_ofNat_valid (by have := hencA b hb; omega)]
      exact hencA b hb
  have h2 : b64decodeBytes (b64encodeBytes (qs.data.map Char.toNat)) =
      .ok (qs.data.map Char.toNat) := b64decode_encode _ hbytes
  have h3 : bytesToAscii (qs.data.map Char.toNat) = .ok qs := by
    rw [bytesToAscii_of_ascii]
    · rw [map_ofNat_toNat, string_eta]
    · intro b hb
      simp only [List.mem_map] at hb
      obtain ⟨x, hx, hbx⟩ := hb
      subst hbx
      exact h x hx
  unfold decodeCursorRaw
  rw [h1]
  show (do
    let qsBytes ← b64decodeBytes (b64encodeBytes (qs.data.map Char.toNat))
    let qs2 ← bytesToAscii qsBytes
    let tokens := parse_qsl qs2
    let o := (qsGetFirst tokens "o").getD "0"
    let offset ← positive_int o false (some offset_cutoff)
    let r := (qsGetFirst tokens "r").getD "0"
    let ri ← pyInt r
    let position := qsGetFirst tokens "p"
    (.ok ⟨offset, decide (ri ≠ 0), position⟩ : Except PyExc Cursor)) = _
  rw [h2]
  show (do
    let qs2 ← bytesToAscii (qs.data.map Char.toNat)
    let tokens := parse_qsl qs2
    let o := (qsGetFirst tokens "o").getD "0"
    let offset ← positive_int o false (some offset_cutoff)
    let r := (qsGetFirst tokens "r").getD "0"
    let ri ← pyInt r
    let position := qsGetFirst tokens "p"
    (.ok ⟨offset, decide (ri ≠ 0), position⟩ : Except PyExc Cursor)) = _
  rw [h3]
  rfl

theorem qsGetFirst_cursorTokens_o (c : Cursor) :
    qsGetFirst (cursorTokens c) "o" = if c.offset ≠ 0 then some (decRepr c.offset) else none := by
  unfold cursorTokens qsGetFirst
  by_cases ho : c.offset ≠ 0 <;> by_cases hr : c.reverse <;> rcases hp : c.position with _ | p <;>
    simp [ho, hr, List.find?]

theorem qsGetFirst_cursorTokens_r (c : Cursor) :
    qsGetFirst (cursorTokens c) "r" = if c.reverse then some "1" else none := by
  unfold cursorTokens qsGetFirst
  by_cases ho : c.offset ≠ 0 <;> by_cases hr : c.reverse <;> rcases hp : c.position with _ | p <;>
    simp [ho, hr, List.find?]

theorem qsGetFirst_cursorTokens_p (c : Cursor) :
    qsGetFirst (cursorTokens c) "p" = c.position := by
  unfold cursorTokens qsGetFirst
  by_cases ho : c.offset ≠ 0 <;> by_cases hr : c.reverse <;> rcases hp : c.position with _ | p <;>
    simp [ho, hr, hp, List.find?]

theorem positive_int_decRepr (n : Nat) :
    positive_int (decRepr n) false (some offset_cutoff) = .ok (min n offset_cutoff) := by
  simp only [positive_int, pyInt_decRepr]
  have hneg : ¬((n : Int) < 0 ∨ ((n : Int) = 0 ∧ (false = true))) := by
    rintro (hlt | ⟨_, hff⟩)
    · omega
    · exact absurd hff (by decide)
  rw [if_neg hneg, if_pos (by decide : offset_cutoff ≠ 0)]
  simp

theorem positive_int_zero :
    positive_int "0" false (some offset_cutoff) = .ok 0 := by decide

theorem pyInt_one : pyInt "1" = .ok 1 := by decide

theorem pyInt_zero : pyInt "0" = .ok 0 := by decide

theorem b64encodeBytes_ne_nil : ∀ (bs : List Nat), bs ≠ [] → b64encodeBytes bs ≠ []
  | [], h => absurd rfl h
  | [_], _ => by simp [b64encodeBytes]
  | [_, _], _ => by simp [b64encodeBytes]
  | _ :: _ :: _ :: _, _ => by simp [b64encodeBytes]

theorem urlencode_ne_nil (kv : String × String) (rest : List (String × String)) :
    (urlencode (kv :: rest)).data ≠ [] := by
  show (quote_plus kv.1 ++ "=" ++ quote_plus kv.2 ++
    (if rest.isEmpty then "" else "&" ++ urlencode rest)).data ≠ []
  simp only [string_append_data]
  intro hcon
  have hlen := congrArg List.length hcon
  simp at hlen

theorem cursorTokens_eq_nil_iff (c : Cursor) :
    cursorTokens c = [] ↔ (c.offset = 0 ∧ c.reverse = false ∧ c.position = none) := by
  unfold cursorTokens
  by_cases ho : c.offset ≠ 0 <;> by_cases hr : c.reverse <;>
    rcases hp : c.position with _ | pv <;> simp [ho, hr, hp] <;> omega

theorem encode_cursor_ne_empty (c : Cursor) (hc : ¬(c = ⟨0, false, none⟩)) :
    ¬(encode_cursor c = "") := by
  have htok : cursorTokens c ≠ [] := by
    intro hcon
    apply hc
    obtain ⟨h1, h2, h3⟩ := (cursorTokens_eq_nil_iff c).mp hcon
    rcases c with ⟨o, r, p⟩
    simp only at h1 h2 h3
    subst h1
    subst h2
    subst h3
    rfl
  rcases htokl : cursorTokens c with _ | ⟨kv, rest⟩
  · exact absurd htokl htok
  · intro hcon
    unfold encode_cursor at hcon
    rw [htokl] at hcon
    have hdne := urlencode_ne_nil kv rest
    have hbne : b64encodeBytes ((urlencode (kv :: rest)).data.map Char.toNat) ≠ [] := by
      apply b64encodeBytes_ne_nil
      intro hmap
      exact hdne (List.map_eq_nil_iff.mp hmap)
    have hmap2 : ((b64encodeBytes ((urlencode (kv :: rest)).data.map Char.toNat)).map
        Char.ofNat) = [] := congrArg String.data hcon
    exact hbne (List.map_eq_nil_iff.mp hmap2)

theorem decodeRaw_encode (c : Cursor) (hoff : c.offset ≤ offset_cutoff) :
    decodeCursorRaw (encode_cursor c) = .ok c := by
  have hqs := urlencode_ascii (cursorTokens c)
  have hpipe := decodeRaw_pipeline (urlencode (cursorTokens c)) hqs
  show decodeCursorRaw
    ⟨(b64encodeBytes ((urlencode (cursorTokens c)).data.map Char.toNat)).map Char.ofNat⟩ = .ok c
  rw [hpipe]
  simp only [parse_urlencode_id, qsGetFirst_cursorTokens_o, qsGetFirst_cursorTokens_r,
    qsGetFirst_cursorTokens_p]
  by_cases ho : c.offset ≠ 0 <;> by_cases hr : c.reverse = true
  · rw [if_pos ho, if_pos hr]
    simp only [Option.getD_some]
    show (do
      let offset ← positive_int (decRepr c.offset) false (some offset_cutoff)
      let ri ← pyInt "1"
      (.ok ⟨offset, decide (ri ≠ 0), c.position⟩ : Except PyExc Cursor)) = .ok c
    rw [positive_int_decRepr, pyInt_one]
    show Except.ok (⟨min c.offset offset_cutoff, decide ((1 : Int) ≠ 0), c.position⟩ : Cursor) = .ok c
    rw [min_eq_left hoff]
    rcases c with ⟨o, r, p⟩
    simp only at hr
    rw [hr]
    rfl
  · rw [if_pos ho, if_neg hr]
    simp only [Option.getD_some, Option.getD_none]
    show (do
      let offset ← positive_int (decRepr c.offset) false (some offset_cutoff)
      let ri ← pyInt "0"
      (.ok ⟨offset, decide (ri ≠ 0), c.position⟩ : Except PyExc Cursor)) = .ok c
    rw [positive_int_decRepr, pyInt_zero]
    show Except.ok (⟨min c.offset offset_cutoff, decide ((0 : Int) ≠ 0), c.position⟩ : Cursor) = .ok c
    rw [min_eq_left hoff]
    rcases c with ⟨o, r, p⟩
    simp only at hr
    have : r = false := by
      cases r
      · rfl
      · exact absurd rfl hr
    rw [this]
    rfl
  · rw [if_neg ho, if_pos hr]
    simp only [Option.getD_some, Option.getD_none]
    show (do
      let offset ← positive_int "0" false (some offset_cutoff)
      let ri ← pyInt "1"
      (.ok ⟨offset, decide (ri ≠ 0), c.position⟩ : Except PyExc Cursor)) = .ok c
    rw [positive_int_zero, pyInt_one]
    show Except.ok (⟨0, decide ((1 : Int) ≠ 0), c.position⟩ : Cursor) = .ok c
    rcases c with ⟨o, r, p⟩
    simp only at ho hr
    have ho0 : o = 0 := by omega
    rw [ho0, hr]
    rfl
  · rw [if_neg ho, if_neg hr]
    simp only [Option.getD_none]
    show (do
      let offset ← positive_int "0" false (some offset_cutoff)
      let ri ← pyInt "0"
      (.ok ⟨offset, decide (ri ≠ 0), c.position⟩ : Except PyExc Cursor)) = .ok c
    rw [positive_int_zero, pyInt_zero]
    show Except.ok (⟨0, decide ((0 : Int) ≠ 0), c.position⟩ : Cursor) = .ok c
    rcases c with ⟨o, r, p⟩
    simp only at ho hr
    have ho0 : o = 0 := by omega
    have hrf : r = false := by
      cases r
      · rfl
      · exact absurd rfl hr
    rw [ho0, hrf]
    rfl

theorem decode_encode_cursor (c : Cursor) (hoff : c.offset ≤ offset_cutoff)
    (hc : ¬(c = ⟨0, false, none⟩)) :
    decode_cursor (some (encode_cursor c)) = .ok (some c) := by
  show (if encode_cursor c = "" then Except.ok none
    else
      match decodeCursorRaw (encode_cursor c) with
      | Except.ok c => Except.ok (some c)
      | Except.error PyExc.valueError => Except.error (PyExc.notFound (some invalid_cursor_message))
      | Except.error PyExc.typeError => Except.error (PyExc.notFound (some invalid_cursor_message))
      | Except.error e => Except.error e) = Except.ok (some c)
  rw [if_neg (encode_cursor_ne_empty c hc), decodeRaw_encode c hoff]

/-! ## Lemmas: string order and row comparison -/

theorem charListLt_irrefl : ∀ (l : List Char), charListLt l l = false
  | [] => rfl
  | c :: t => by
    show (if c.toNat < c.toNat then true else if c.toNat < c.toNat then false
      else charListLt t t) = false
    rw [if_neg (by omega), if_neg (by omega)]
    exact charListLt_irrefl t

theorem charListLt_asymm : ∀ (a b : List Char),
    charListLt a b = true → charListLt b a = false
  | [], [], h => by simp [charListLt] at h ⊢
  | [], _ :: _, _ => rfl
  | _ :: _, [], h => by simp [charListLt] at h
  | x :: xs, y :: ys, h => by
    show (if y.toNat < x.toNat then true else if x.toNat < y.toNat then false
      else charListLt ys xs) = false
    by_cases hxy : x.toNat < y.toNat
    · rw [if_neg (by omega), if_pos hxy]
    · by_cases hyx : y.toNat < x.toNat
      · exfalso
        have : charListLt (x :: xs) (y :: ys) = false := by
          show (if x.toNat < y.toNat then true else if y.toNat < x.toNat then false
            else charListLt xs ys) = false
          rw [if_neg hxy, if_pos hyx]
        rw [this] at h
        exact Bool.false_ne_true h
      · rw [if_neg hyx, if_neg hxy]
        apply charListLt_asymm
        have h2 : charListLt (x :: xs) (y :: ys) = charListLt xs ys := by
          show (if x.toNat < y.toNat then true else if y.toNat < x.toNat then false
            else charListLt xs ys) = charListLt xs ys
          rw [if_neg hxy, if_neg hyx]
        rw [← h2]
        exact h

theorem charListLt_trans : ∀ (a b c : List Char),
    charListLt a b = true → charListLt b c = true → charListLt a c = true
  | [], [], _, h1, _ => by simp [charListLt] at h1
  | [], _ :: _, [], _, h2 => by simp [charListLt] at h2
  | [], _ :: _, _ :: _, _, _ => rfl
  | _ :: _, [], _, h1, _ => by simp [charListLt] at h1
  | _ :: _, _ :: _, [], _, h2 => by simp [charListLt] at h2
  | x :: xs, y :: ys, z :: zs, h1, h2 => by
    have hxy : x.toNat < y.toNat ∨ (x.toNat = y.toNat ∧ charListLt xs ys = true) := by
      by_cases h : x.toNat < y.toNat
      · exact Or.inl h
      · right
        by_cases h3 : y.toNat < x.toNat
        · exfalso
          have : charListLt (x :: xs) (y :: ys) = false := by
            show (if x.toNat < y.toNat then true else if y.toNat < x.toNat then false
              else charListLt xs ys) = false
            rw [if_neg h, if_pos h3]
          rw [this] at h1
          exact Bool.false_ne_true h1
        · refine ⟨by omega, ?_⟩
          have heq : charListLt (x :: xs) (y :: ys) = charListLt xs ys := by
            show (if x.toNat < y.toNat then true else if y.toNat < x.toNat then false
              else charListLt xs ys) = charListLt xs ys
            rw [if_neg h, if_neg h3]
          rw [← heq]
          exact h1
    have hyz : y.toNat < z.toNat ∨ (y.toNat = z.toNat ∧ charListLt ys zs = true) := by
      by_cases h : y.toNat < z.toNat
      · exact Or.inl h
      · right
        by_cases h3 : z.toNat < y.toNat
        · exfalso
          have : charListLt (y :: ys) (z :: zs) = false := by
            show (if y.toNat < z.toNat then true else if z.toNat < y.toNat then false
              else charListLt ys zs) = false
            rw [if_neg h, if_pos h3]
          rw [this] at h2
          exact Bool.false_ne_true h2
        · refine ⟨by omega, ?_⟩
          have heq : charListLt (y :: ys) (z :: zs) = charListLt ys zs := by
            show (if y.toNat < z.toNat then true else if z.toNat < y.toNat then false
              else charListLt ys zs) = charListLt ys zs
            rw [if_neg h, if_neg h3]
          rw [← heq]
          exact h2
    show (if x.toNat < z.toNat then true else if z.toNat < x.toNat then false
      else charListLt xs zs) = true
    rcases hxy with hxy | ⟨hxy, hxs⟩
    · rcases hyz with hyz | ⟨hyz, _⟩
      · rw [if_pos (by omega)]
      · rw [if_pos (by omega)]
    · rcases hyz with hyz | ⟨hyz, hys⟩
      · rw [if_pos (by omega)]
      · rw [if_neg (by omega), if_neg (by omega)]
        exact charListLt_trans xs ys zs hxs hys

theorem charListLt_connex : ∀ (a b : List Char),
    charListLt a b = false → charListLt b a = false → a = b
  | [], [], _, _ => rfl
  | [], _ :: _, h1, _ => by simp [charListLt] at h1
  | _ :: _, [], _, h2 => by simp [charListLt] at h2
  | x :: xs, y :: ys, h1, h2 => by
    by_cases hxy : x.toNat < y.toNat
    · exfalso
      have : charListLt (x :: xs) (y :: ys) = true := by
        show (if x.toNat < y.toNat then true else _) = true
        rw [if_pos hxy]
      rw [this] at h1
      simp at h1
    · by_cases hyx : y.toNat < x.toNat
      · exfalso
        have : charListLt (y :: ys) (x :: xs) = true := by
          show (if y.toNat < x.toNat then true else _) = true
          rw [if_pos hyx]
        rw [this] at h2
        simp at h2
      · have hxe : x = y := char_eq_of_toNat (by omega)
        have he1 : charListLt (x :: xs) (y :: ys) = charListLt xs ys := by
          show (if x.toNat < y.toNat then true else if y.toNat < x.toNat then false
            else charListLt xs ys) = charListLt xs ys
          rw [if_neg hxy, if_neg hyx]
        have he2 : charListLt (y :: ys) (x :: xs) = charListLt ys xs := by
          show (if y.toNat < x.toNat then true else if x.toNat < y.toNat then false
            else charListLt ys xs) = charListLt ys xs
          rw [if_neg hyx, if_neg hxy]
        rw [he1] at h1
        rw [he2] at h2
        rw [hxe, charListLt_connex xs ys h1 h2]

theorem strLt_trans {a b c : String} (h1 : strLt a b = true) (h2 : strLt b c = true) :
    strLt a c = true :=
  charListLt_trans a.data b.data c.data h1 h2

theorem strLt_asymm {a b : String} (h : strLt a b = true) : strLt b a = false :=
  charListLt_asymm a.data b.data h

theorem strLt_connex {a b : String} (h1 : strLt a b = false) (h2 : strLt b a = false) : a = b := by
  rcases a with ⟨da⟩
  rcases b with ⟨db⟩
  have := charListLt_connex da db h1 h2
  rw [this]

theorem strLt_irrefl (a : String) : strLt a a = false := charListLt_irrefl a.data

theorem strLt_total_of_ne {x y : String} (h : ¬(x = y)) :
    strLt x y = true ∨ strLt y x = true := by
  by_cases h1 : strLt x y = true
  · exact Or.inl h1
  · by_cases h2 : strLt y x = true
    · exact Or.inr h2
    · exact absurd (strLt_connex (Bool.not_eq_true _ ▸ h1) (Bool.not_eq_true _ ▸ h2)) h

theorem rowBle_cons_eq (f : String → R → String) (e : OrderEntry) (rest : List OrderEntry)
    (a b : R) (h : f e.field a = f e.field b) :
    rowBle f (e :: rest) a b = rowBle f rest a b := by
  simp only [rowBle]
  rw [if_pos h]

theorem rowBle_cons_ne (f : String → R → String) (e : OrderEntry) (rest : List OrderEntry)
    (a b : R) (h : ¬(f e.field a = f e.field b)) :
    rowBle f (e :: rest) a b =
      (if e.ascending then strLt (f e.field a) (f e.field b)
       else strLt (f e.field b) (f e.field a)) := by
  simp only [rowBle]
  rw [if_neg h]

theorem rowBle_total (f : String → R → String) :
    ∀ (ord : List OrderEntry) (a b : R), rowBle f ord a b = true ∨ rowBle f ord b a = true
  | [], _, _ => Or.inl rfl
  | e :: rest, a, b => by
    by_cases heq : f e.field a = f e.field b
    · rw [rowBle_cons_eq f e rest a b heq, rowBle_cons_eq f e rest b a heq.symm]
      exact rowBle_total f rest a b
    · have hne : ¬(f e.field b = f e.field a) := fun h => heq h.symm
      rw [rowBle_cons_ne f e rest a b heq, rowBle_cons_ne f e rest b a hne]
      rcases strLt_total_of_ne heq with h | h
      · cases hasc : e.ascending
        · right
          rw [if_neg (by simp)]
          exact h
        · left
          rw [if_pos rfl]
          exact h
      · cases hasc : e.ascending
        · left
          rw [if_neg (by simp)]
          exact h
        · right
          rw [if_pos rfl]
          exact h

theorem rowBle_trans (f : String → R → String) :
    ∀ (ord : List OrderEntry) (a b c : R), rowBle f ord a b = true → rowBle f ord b c = true →
      rowBle f ord a c = true
  | [], _, _, _, _, _ => rfl
  | e :: rest, a, b, c, h1, h2 => by
    by_cases hab : f e.field a = f e.field b
    · rw [rowBle_cons_eq f e rest a b hab] at h1
      by_cases hbc : f e.field b = f e.field c
      · rw [rowBle_cons_eq f e rest b c hbc] at h2
        rw [rowBle_cons_eq f e rest a c (hab.trans hbc)]
        exact rowBle_trans f rest a b c h1 h2
      · have hac : ¬(f e.field a = f e.field c) := fun h => hbc (hab.symm.trans h)
        rw [rowBle_cons_ne f e rest b c hbc] at h2
        rw [rowBle_cons_ne f e rest a c hac, hab]
        exact h2
    · by_cases hbc : f e.field b = f e.field c
      · have hac : ¬(f e.field a = f e.field c) := fun h => hab (h.trans hbc.symm)
        rw [rowBle_cons_ne f e rest a b hab] at h1
        rw [rowBle_cons_ne f e rest a c hac, ← hbc]
        exact h1
      · rw [rowBle_cons_ne f e rest a b hab] at h1
        rw [rowBle_cons_ne f e rest b c hbc] at h2
        by_cases hac : f e.field a = f e.field c
        · exfalso
          cases hasc : e.ascending
          · rw [hasc] at h1 h2
            rw [if_neg (by simp)] at h1 h2
            have h3 := strLt_trans h2 h1
            rw [← hac] at h3
            rw [strLt_irrefl] at h3
            exact Bool.false_ne_true h3
          · rw [hasc] at h1 h2
            rw [if_pos rfl] at h1 h2
            have h3 := strLt_trans h1 h2
            rw [← hac] at h3
            rw [strLt_irrefl] at h3
            exact Bool.false_ne_true h3
        · rw [rowBle_cons_ne f e rest a c hac]
          cases hasc : e.ascending
          · rw [hasc] at h1 h2
            rw [if_neg (by simp)] at h1 h2
            rw [if_neg (by simp)]
            exact strLt_trans h2 h1
          · rw [hasc] at h1 h2
            rw [if_pos rfl] at h1 h2
            rw [if_pos rfl]
            exact strLt_trans h1 h2

theorem order_by_perm (f : String → R → String) (ord : List OrderEntry) (l : List R) :
    (order_by f ord l).Perm l :=
  List.perm_insertionSort _ l

theorem order_by_sorted (f : String → R → String) (ord : List OrderEntry) (l : List R) :
    (order_by f ord l).Pairwise (fun a b => rowBle f ord a b = true) := by
  letI : IsTotal R (fun a b => rowBle f ord a b = true) := ⟨fun a b => rowBle_total f ord a b⟩
  letI : IsTrans R (fun a b => rowBle f ord a b = true) :=
    ⟨fun a b c => rowBle_trans f ord a b c⟩
  exact List.sorted_insertionSort _ l

theorem order_by_length (f : String → R → String) (ord : List OrderEntry) (l : List R) :
    (order_by f ord l).length = l.length :=
  (order_by_perm f ord l).length_eq

/-! ## Lemmas: positional filtering on a sorted snapshot -/

theorem filter_eq_drop : ∀ (L : List R) (P : R → Bool) (m : Nat), m ≤ L.length →
    (∀ i (hi : i < L.length), i < m → P (L.get ⟨i, hi⟩) = false) →
    (∀ i (hi : i < L.length), m ≤ i → P (L.get ⟨i, hi⟩) = true) →
    L.filter P = L.drop m
  | [], P, m, hm, _, _ => by
    simp at hm
    simp [hm]
  | x :: t, P, m, hm, hrej, hkeep => by
    cases m with
    | zero =>
      rw [List.drop_zero]
      apply List.filter_eq_self.mpr
      intro a ha
      obtain ⟨⟨i, hi⟩, hget⟩ := List.mem_iff_get.mp ha
      rw [← hget]
      exact hkeep i hi (by omega)
    | succ m2 =>
      have hx : P x = false := hrej 0 (by simp) (by omega)
      rw [List.filter_cons, if_neg (by simp [hx]), List.drop_succ_cons]
      apply filter_eq_drop t P m2 (by simp at hm; omega)
      · intro i hi him
        have := hrej (i + 1) (by simp; omega) (by omega)
        simpa using this
      · intro i hi him
        have := hkeep (i + 1) (by simp; omega) (by omega)
        simpa using this

theorem position_of_eq (f : String → R → String) (ord : List OrderEntry) (r : R) :
    position_of f ord r = f (ord.headD ⟨"", true⟩).field r := rfl

theorem filtered_forward_none (pg : Paginator) (f : String → R → String) (l : List R) :
    filteredOf pg f l none = .ok (order_by f pg.ordering l) := rfl

theorem filtered_forward_nopos (pg : Paginator) (f : String → R → String) (l : List R) (k : Nat) :
    filteredOf pg f l (some ⟨k, false, none⟩) = .ok (order_by f pg.ordering l) := rfl

theorem filtered_forward_anchor (pg : Paginator) (f : String → R → String) (l : List R)
    (k : Nat) (p : String)
    (hattr : pg.attrs.contains (pg.ordering.headD ⟨"", true⟩).field = true) :
    filteredOf pg f l (some ⟨k, false, some p⟩) =
      .ok ((order_by f pg.ordering l).filter
        (fun r => pKeep (pg.ordering.headD ⟨"", true⟩).ascending p
          (f (pg.ordering.headD ⟨"", true⟩).field r))) := by
  unfold filteredOf
  simp only [cursorTriple]
  have hne : ¬(pg.attrs.contains (pg.ordering.headD ⟨"", true⟩).field = false) := by
    rw [hattr]
    simp
  rw [if_neg hne]
  cases hasc : (pg.ordering.headD ⟨"", true⟩).ascending
  · rw [if_pos (by simp)]
    congr 1
  · rw [if_neg (by simp)]
    congr 1

theorem results_forward (pg : Paginator) (f : String → R → String) (l : List R)
    (hattr : pg.attrs.contains (pg.ordering.headD ⟨"", true⟩).field = true)
    (c? : Option Cursor) (s : Nat)
    (hinv : GoodCur (pg.ordering.headD ⟨"", true⟩).ascending (position_of f pg.ordering)
      (order_by f pg.ordering l) c? s) :
    resultsOf pg f l c? =
      .ok (((order_by f pg.ordering l).drop s).take (pg.page_size + 1)) := by
  rcases c? with _ | ⟨k, rev, pos⟩
  · have hs : s = 0 := hinv
    subst hs
    rfl
  · have hrev : rev = false := hinv.1
    subst hrev
    rcases pos with _ | p
    · have hk : k = s := hinv.2
      subst hk
      rfl
    · obtain ⟨m, hanch, hms⟩ := hinv.2
      obtain ⟨hmle, hrej, hkeep⟩ := hanch
      have hfil : filteredOf pg f l (some ⟨k, false, some p⟩) =
          .ok ((order_by f pg.ordering l).drop m) := by
        rw [filtered_forward_anchor pg f l k p hattr]
        congr 1
        exact filter_eq_drop (order_by f pg.ordering l) _ m hmle hrej hkeep
      unfold resultsOf
      simp only [cursorTriple]
      rw [hfil]
      show Except.ok ((((order_by f pg.ordering l).drop m).drop k).take (pg.page_size + 1)) = _
      rw [List.drop_drop, hms]

theorem take_take_page (L : List R) (s ps : Nat) :
    ((L.drop s).take (ps + 1)).take ps = (L.drop s).take ps := by
  rw [List.take_take, min_eq_left (by omega)]

theorem page_len_iff (L : List R) (s ps : Nat) :
    ((((L.drop s).take (ps + 1)).take ps).length < ((L.drop s).take (ps + 1)).length) ↔
      s + ps < L.length := by
  simp only [List.length_take, List.length_drop]
  omega

theorem getLast_slice (L : List R) (s ps : Nat) (h : s + ps < L.length) :
    ((L.drop s).take (ps + 1)).getLast? = (L.drop (s + ps)).head? := by
  rw [List.getLast?_eq_getElem?, List.head?_eq_getElem?]
  have hlen : ((L.drop s).take (ps + 1)).length = ps + 1 := by
    simp only [List.length_take, List.length_drop]
    omega
  rw [hlen]
  have hsub : ps + 1 - 1 = ps := by omega
  rw [hsub, List.getElem?_take, if_pos (by omega), List.getElem?_drop, List.getElem?_drop]
  norm_num

theorem paginate_forward {R : Type} (pg : Paginator) (f : String → R → String) (l : List R)
    (hattr : pg.attrs.contains (pg.ordering.headD ⟨"", true⟩).field = true)
    (c? : Option Cursor) (s : Nat)
    (hinv : GoodCur (pg.ordering.headD ⟨"", true⟩).ascending (position_of f pg.ordering)
      (order_by f pg.ordering l) c? s) :
    paginateCursor pg f l c? = .ok
      ⟨c?,
       ((order_by f pg.ordering l).drop s).take pg.page_size,
       decide (s + pg.page_size < (order_by f pg.ordering l).length),
       (match c? with
        | none => false
        | some c => decide (¬(c.position = none) ∨ 0 < c.offset)),
       (if s + pg.page_size < (order_by f pg.ordering l).length then
          (((order_by f pg.ordering l).drop (s + pg.page_size)).head?).map
            (position_of f pg.ordering)
        else none),
       (if (match c? with
            | none => false
            | some c => decide (¬(c.position = none) ∨ 0 < c.offset)) = true then
          (match c? with
           | none => none
           | some c => c.position)
        else none)⟩ := by
  have hlen2 : decide ((((order_by f pg.ordering l).drop s).take pg.page_size).length <
      (((order_by f pg.ordering l).drop s).take (pg.page_size + 1)).length) =
      decide (s + pg.page_size < (order_by f pg.ordering l).length) := by
    apply decide_eq_decide.mpr
    simp only [List.length_take, List.length_drop]
    omega
  rcases c? with _ | ⟨k, rev, pos⟩
  · have hres := results_forward pg f l hattr none s hinv
    simp only [paginateCursor, cursorTriple, hres]
    rw [take_take_page, hlen2]
    by_cases hn : s + pg.page_size < (order_by f pg.ordering l).length
    · simp [hn, getLast_slice _ s pg.page_size hn]
    · simp [hn]
  · have hrev : rev = false := hinv.1
    subst hrev
    have hres := results_forward pg f l hattr (some ⟨k, false, pos⟩) s hinv
    simp only [paginateCursor, cursorTriple, hres]
    rw [take_take_page, hlen2]
    by_cases hn : s + pg.page_size < (order_by f pg.ordering l).length
    · simp [hn, getLast_slice _ s pg.page_size hn]
    · simp [hn]

/-! ## Lemmas: the tie-run scan -/

theorem tieScan_none_iff {R : Type} (pos1 : R → String) :
    ∀ (items : List R) (cmp : Option String),
      tieScan pos1 items cmp = none ↔ ∀ x ∈ items, some (pos1 x) = cmp
  | [], cmp => by simp [tieScan]
  | it :: rest, cmp => by
    unfold tieScan
    by_cases heq : (some (pos1 it) = cmp)
    · rw [if_pos heq]
      constructor
      · intro h x hx
        rcases List.mem_cons.mp hx with hx | hx
        · subst hx; exact heq
        · have hrec : tieScan pos1 rest (some (pos1 it)) = none := by
            rcases hscan : tieScan pos1 rest (some (pos1 it)) with _ | pr
            · rfl
            · rw [hscan] at h; simp at h
          have := (tieScan_none_iff pos1 rest (some (pos1 it))).mp hrec x hx
          rw [this]
          exact heq
      · intro h
        have hrec : ∀ x ∈ rest, some (pos1 x) = some (pos1 it) := by
          intro x hx
          rw [h x (by simp [hx]), ← heq]
        rw [(tieScan_none_iff pos1 rest (some (pos1 it))).mpr hrec]
        rfl
    · rw [if_neg heq]
      constructor
      · intro h
        exact absurd h (Option.some_ne_none _)
      · intro h
        exact absurd (h it (by simp)) heq

theorem tieScan_some_spec {R : Type} (pos1 : R → String) :
    ∀ (items : List R) (cmp : Option String) (off : Nat) (p : String),
      tieScan pos1 items cmp = some (off, p) →
      ∃ hlt : off < items.length,
        p = pos1 (items.get ⟨off, hlt⟩) ∧ ¬(some p = cmp) ∧
          (∀ i (hi : i < items.length), i < off → some (pos1 (items.get ⟨i, hi⟩)) = cmp)
  | [], cmp, off, p, h => by simp [tieScan] at h
  | it :: rest, cmp, off, p, h => by
    unfold tieScan at h
    by_cases heq : (some (pos1 it) = cmp)
    · rw [if_pos heq] at h
      rcases hscan : tieScan pos1 rest (some (pos1 it)) with _ | ⟨off2, p2⟩
      · rw [hscan] at h; simp at h
      · rw [hscan] at h
        simp only [Option.map_some'] at h
        have hoff : off = off2 + 1 := (congrArg Prod.fst (Option.some.inj h)).symm
        have hp : p = p2 := (congrArg Prod.snd (Option.some.inj h)).symm
        subst hoff
        subst hp
        obtain ⟨hlt2, hp2, hne2, hall2⟩ := tieScan_some_spec pos1 rest (some (pos1 it)) off2 p hscan
        refine ⟨by simp; omega, ?_, ?_, ?_⟩
        · simpa using hp2
        · intro hcon
          rw [← heq] at hcon
          exact hne2 hcon
        · intro i hi hio
          cases i with
          | zero => exact heq
          | succ i2 =>
            have hi2 : i2 < rest.length := by simp at hi; omega
            have hg : (it :: rest).get ⟨i2 + 1, hi⟩ = rest.get ⟨i2, hi2⟩ := rfl
            rw [hg, hall2 i2 hi2 (by omega)]
            exact heq
    · rw [if_neg heq] at h
      have hoff : off = 0 := (congrArg Prod.fst (Option.some.inj h)).symm
      have hp : p = pos1 it := (congrArg Prod.snd (Option.some.inj h)).symm
      subst hoff
      subst hp
      refine ⟨by simp, by simp, heq, ?_⟩
      intro i hi hio
      omega

/-! ## Lemmas: the primary position along the sorted snapshot -/

theorem pKeep_irrefl (asc : Bool) (p : String) : pKeep asc p p = false := by
  cases asc <;> simp [pKeep, strLt_irrefl]

theorem pKeep_asymm (asc : Bool) (p x : String) (h : pKeep asc x p = true) :
    pKeep asc p x = false := by
  cases asc <;> simp only [pKeep] at h ⊢ <;>
    exact (Bool.eq_false_iff.mpr (fun hc => by rw [strLt_asymm h] at hc; exact absurd hc (by simp)))

theorem pKeep_trans (asc : Bool) (p w x : String) (h1 : pKeep asc p w = true)
    (h2 : pKeep asc w x = true) : pKeep asc p x = true := by
  cases asc <;> simp only [pKeep] at h1 h2 ⊢
  · exact strLt_trans h2 h1
  · exact strLt_trans h1 h2

theorem primary_mono {R : Type} (f : String → R → String) (ord : List OrderEntry) (l : List R)
    (hord : ord ≠ []) (i j : Nat)
    (hi : i < (order_by f ord l).length) (hj : j < (order_by f ord l).length) (hij : i < j) :
    position_of f ord ((order_by f ord l).get ⟨i, hi⟩) =
      position_of f ord ((order_by f ord l).get ⟨j, hj⟩) ∨
    pKeep (ord.headD ⟨"", true⟩).ascending
      (position_of f ord ((order_by f ord l).get ⟨i, hi⟩))
      (position_of f ord ((order_by f ord l).get ⟨j, hj⟩)) = true := by
  cases ord with
  | nil => exact absurd rfl hord
  | cons e0 rest =>
    have hpw := List.pairwise_iff_get.mp (order_by_sorted f (e0 :: rest) l) ⟨i, hi⟩ ⟨j, hj⟩ hij
    set a := (order_by f (e0 :: rest) l).get ⟨i, hi⟩ with ha
    set b := (order_by f (e0 :: rest) l).get ⟨j, hj⟩ with hb
    by_cases heq : f e0.field a = f e0.field b
    · exact Or.inl heq
    · right
      rw [rowBle_cons_ne f e0 rest a b heq] at hpw
      show pKeep e0.ascending (f e0.field a) (f e0.field b) = true
      cases hasc : e0.ascending <;> rw [hasc] at hpw <;> simpa [pKeep] using hpw

theorem get_congr {A : Type} (L : List A) (a b : Nat) (ha : a < L.length)
    (hb : b < L.length) (h : a = b) : L.get ⟨a, ha⟩ = L.get ⟨b, hb⟩ := by
  subst h
  rfl

/-- Building an anchor from a tie run: if the rows from `m` up to `t` all
carry the primary position `w`, the row at `m - 1` carries `p ≠ w`, then
`p` is an anchor with boundary `m`. -/
theorem anchor_of_run {R : Type} (f : String → R → String) (ord : List OrderEntry) (l : List R)
    (hord : ord ≠ []) (m t : Nat) (p w : String)
    (ht : t < (order_by f ord l).length) (hmt : m ≤ t) (hm1 : 1 ≤ m)
    (hm2 : m - 1 < (order_by f ord l).length)
    (hp : position_of f ord ((order_by f ord l).get ⟨m - 1, hm2⟩) = p)
    (hw : position_of f ord ((order_by f ord l).get ⟨t, ht⟩) = w)
    (hpw : ¬(p = w))
    (hrun : ∀ i (hi : i < (order_by f ord l).length), m ≤ i → i < t →
      position_of f ord ((order_by f ord l).get ⟨i, hi⟩) = w) :
    GoodAnchor (ord.headD ⟨"", true⟩).ascending (position_of f ord) (order_by f ord l) p m := by
  have hbase : pKeep (ord.headD ⟨"", true⟩).ascending p w = true := by
    rcases primary_mono f ord l hord (m - 1) t hm2 ht (by omega) with h | h
    · rw [hp, hw] at h; exact absurd h hpw
    · rw [hp, hw] at h; exact h
  refine ⟨by omega, ?_, ?_⟩
  · intro i hi him
    by_cases hieq : i = m - 1
    · subst hieq
      rw [hp, pKeep_irrefl]
    · rcases primary_mono f ord l hord i (m - 1) hi hm2 (by omega) with h | h
      · rw [hp] at h
        rw [h, pKeep_irrefl]
      · rw [hp] at h
        exact pKeep_asymm _ _ _ h
  · intro i hi him
    rcases Nat.lt_trichotomy i t with hit | hit | hit
    · rw [hrun i hi him hit]
      exact hbase
    · subst hit
      rw [hw]
      exact hbase
    · rcases primary_mono f ord l hord t i ht hi hit with h | h
      · rw [hw] at h
        rw [← h]
        exact hbase
      · rw [hw] at h
        exact pKeep_trans _ _ _ _ hbase h

/-- One forward step of the token chain: on a page state produced for a
resume index `s` with a following page, `get_next_token` builds a forward
cursor that resumes the sorted snapshot exactly at `s + page_size`. -/
theorem getNextCursor_step {R : Type} (pg : Paginator) (f : String → R → String) (l : List R)
    (hord : pg.ordering ≠ []) (hps : 1 ≤ pg.page_size)
    (c? : Option Cursor) (s : Nat)
    (hinv : GoodCur (pg.ordering.headD ⟨"", true⟩).ascending (position_of f pg.ordering)
      (order_by f pg.ordering l) c? s)
    (st : PageState R)
    (hnext : s + pg.page_size < (order_by f pg.ordering l).length)
    (hcur : st.cursor = c?)
    (hpage : st.page = ((order_by f pg.ordering l).drop s).take pg.page_size)
    (hhn : st.has_next = true)
    (hnp : st.next_position =
      some (position_of f pg.ordering ((order_by f pg.ordering l).get ⟨s + pg.page_size, hnext⟩)))
    (hhp : st.has_previous = false → s = 0)
    (hpp : st.has_previous = true → ∃ c, c? = some c ∧ st.previous_position = c.position) :
    ∃ c2 : Cursor, getNextCursor pg f st = .ok (some c2) ∧ c2.reverse = false ∧
      c2.offset ≤ s + pg.page_size ∧ ¬(c2 = ⟨0, false, none⟩) ∧
      GoodCur (pg.ordering.headD ⟨"", true⟩).ascending (position_of f pg.ordering)
        (order_by f pg.ordering l) (some c2) (s + pg.page_size) := by
  have horder : (order_by f pg.ordering l).length = l.length := order_by_length f pg.ordering l
  have hcmp : nextCompare pg f st = .ok st.next_position := by
    rw [nextCompare, hcur]
    cases c? with
    | none => rfl
    | some c =>
      have hrev : c.reverse = false := hinv.1
      simp [hrev]
  have hlenpage : st.page.length = pg.page_size := by
    rw [hpage]
    simp only [List.length_take, List.length_drop]
    omega
  have egnc : getNextCursor pg f st =
      (match tieScan (position_of f pg.ordering) st.page.reverse st.next_position with
       | some (offset, position) => .ok (some ⟨offset, false, some position⟩)
       | none =>
         if st.has_previous = false then .ok (some ⟨pg.page_size, false, none⟩)
         else
           match st.cursor with
           | none => .error .attributeError
           | some c =>
             if c.reverse then .ok (some ⟨0, false, st.previous_position⟩)
             else .ok (some ⟨c.offset + pg.page_size, false, st.previous_position⟩)) := by
    rw [getNextCursor, if_neg (by rw [hhn]; simp), hcmp]
  rcases htS : tieScan (position_of f pg.ordering) st.page.reverse st.next_position
    with _ | ⟨off, p⟩
  · rw [htS] at egnc
    by_cases hprev : st.has_previous = false
    · have hs0 : s = 0 := hhp hprev
      subst hs0
      rw [if_pos hprev] at egnc
      refine ⟨⟨pg.page_size, false, none⟩, egnc, rfl, ?_, ?_, ?_⟩
      · show pg.page_size ≤ 0 + pg.page_size
        omega
      · intro hcon
        have := congrArg Cursor.offset hcon
        simp at this
        omega
      · exact ⟨rfl, by show pg.page_size = 0 + pg.page_size; omega⟩
    · rw [if_neg hprev] at egnc
      have hpt : st.has_previous = true := by
        revert hprev; cases st.has_previous <;> simp
      obtain ⟨c, hc, hppv⟩ := hpp hpt
      rw [hcur, hc, hppv] at egnc
      rw [hc] at hinv
      have hrev : c.reverse = false := hinv.1
      simp only [hrev, Bool.false_eq_true, if_false] at egnc
      have hmatch : (match c.position with
          | none => c.offset = s
          | some p => ∃ m, GoodAnchor (pg.ordering.headD ⟨"", true⟩).ascending
              (position_of f pg.ordering) (order_by f pg.ordering l) p m ∧
                m + c.offset = s) := hinv.2
      have hcs : c.offset ≤ s := by
        rcases hcpos : c.position with _ | p0
        · rw [hcpos] at hmatch
          omega
        · rw [hcpos] at hmatch
          obtain ⟨m, _, hm⟩ := hmatch
          omega
      refine ⟨⟨c.offset + pg.page_size, false, c.position⟩, egnc, rfl, ?_, ?_, ?_⟩
      · show c.offset + pg.page_size ≤ s + pg.page_size
        omega
      · intro hcon
        have := congrArg Cursor.offset hcon
        simp at this
        omega
      · refine ⟨rfl, ?_⟩
        show (match c.position with
          | none => c.offset + pg.page_size = s + pg.page_size
          | some p => ∃ m, GoodAnchor (pg.ordering.headD ⟨"", true⟩).ascending
              (position_of f pg.ordering) (order_by f pg.ordering l) p m ∧
                m + (c.offset + pg.page_size) = s + pg.page_size)
        rcases hcpos : c.position with _ | p0
        · rw [hcpos] at hmatch
          omega
        · rw [hcpos] at hmatch
          obtain ⟨m, hgm, hm⟩ := hmatch
          exact ⟨m, hgm, by omega⟩
  · rw [htS] at egnc
    obtain ⟨hlt, hpval, hpne, hall⟩ := tieScan_some_spec _ _ _ _ _ htS
    have hrevlen : st.page.reverse.length = pg.page_size := by
      rw [List.length_reverse, hlenpage]
    have hltps : off < pg.page_size := by rw [hrevlen] at hlt; exact hlt
    have hgetconv : ∀ (i2 : Nat) (hi2 : i2 < pg.page_size),
        st.page.reverse.get ⟨i2, by rw [hrevlen]; exact hi2⟩ =
          (order_by f pg.ordering l).get ⟨s + pg.page_size - 1 - i2, by omega⟩ := by
      intro i2 hi2
      rw [List.get_eq_getElem, List.get_eq_getElem, List.getElem_reverse]
      simp only [hpage, List.getElem_take, List.getElem_drop,
        List.length_take, List.length_drop]
      congr 1
      omega
    rw [hnp] at hpne
    have hpw : ¬(p = position_of f pg.ordering
        ((order_by f pg.ordering l).get ⟨s + pg.page_size, hnext⟩)) := by
      intro h
      exact hpne (by rw [h])
    have hpm : position_of f pg.ordering
        ((order_by f pg.ordering l).get ⟨s + pg.page_size - off - 1, by omega⟩) = p := by
      rw [get_congr (order_by f pg.ordering l) (s + pg.page_size - off - 1)
        (s + pg.page_size - 1 - off) (by omega) (by omega) (by omega)]
      rw [← hgetconv off hltps]
      exact hpval.symm
    have hrun : ∀ i (hi : i < (order_by f pg.ordering l).length),
        s + pg.page_size - off ≤ i → i < s + pg.page_size →
        position_of f pg.ordering ((order_by f pg.ordering l).get ⟨i, hi⟩) =
          position_of f pg.ordering
            ((order_by f pg.ordering l).get ⟨s + pg.page_size, hnext⟩) := by
      intro i hi h1 h2
      have hi2ps : s + pg.page_size - 1 - i < pg.page_size := by omega
      have h3 := hall (s + pg.page_size - 1 - i) (by rw [hrevlen]; exact hi2ps) (by omega)
      rw [hgetconv _ hi2ps] at h3
      rw [get_congr (order_by f pg.ordering l)
        (s + pg.page_size - 1 - (s + pg.page_size - 1 - i)) i (by omega) hi (by omega)] at h3
      rw [hnp] at h3
      exact Option.some.inj h3
    have hanchor := anchor_of_run f pg.ordering l hord (s + pg.page_size - off)
      (s + pg.page_size) p
      (position_of f pg.ordering ((order_by f pg.ordering l).get ⟨s + pg.page_size, hnext⟩))
      hnext (by omega) (by omega) (by omega) hpm rfl hpw hrun
    refine ⟨⟨off, false, some p⟩, egnc, rfl, ?_, ?_, ?_⟩
    · show off ≤ s + pg.page_size
      omega
    · intro hcon
      have := congrArg Cursor.position hcon
      simp at this
    · exact ⟨rfl, ⟨s + pg.page_size - off, hanchor,
        by show s + pg.page_size - off + off = s + pg.page_size; omega⟩⟩

/-- The fields of the page state produced for a good forward cursor, in the
form consumed by the token-derivation lemmas. -/
theorem paginate_forward_fields {R : Type} (pg : Paginator) (f : String → R → String)
    (l : List R)
    (hattr : pg.attrs.contains (pg.ordering.headD ⟨"", true⟩).field = true)
    (c? : Option Cursor) (s : Nat)
    (hinv : GoodCur (pg.ordering.headD ⟨"", true⟩).ascending (position_of f pg.ordering)
      (order_by f pg.ordering l) c? s) :
    ∃ st : PageState R, paginateCursor pg f l c? = .ok st ∧
      st.cursor = c? ∧
      st.page = ((order_by f pg.ordering l).drop s).take pg.page_size ∧
      st.has_next = decide (s + pg.page_size < (order_by f pg.ordering l).length) ∧
      (st.has_previous = false → s = 0) ∧
      (st.has_previous = true → ∃ c, c? = some c ∧ st.previous_position = c.position) ∧
      (∀ h : s + pg.page_size < (order_by f pg.ordering l).length,
        st.next_position = some (position_of f pg.ordering
          ((order_by f pg.ordering l).get ⟨s + pg.page_size, h⟩))) := by
  refine ⟨_, paginate_forward pg f l hattr c? s hinv, rfl, rfl, rfl, ?_, ?_, ?_⟩
  · intro h
    cases c? with
    | none => exact hinv
    | some c =>
      have h2 : decide (¬(c.position = none) ∨ 0 < c.offset) = false := h
      simp at h2
      have hm : (match c.position with
          | none => c.offset = s
          | some p => ∃ m, GoodAnchor (pg.ordering.headD ⟨"", true⟩).ascending
              (position_of f pg.ordering) (order_by f pg.ordering l) p m ∧
                m + c.offset = s) := hinv.2
      rw [h2.1] at hm
      omega
  · intro h
    cases c? with
    | none =>
      have h2 : (false : Bool) = true := h
      simp at h2
    | some c =>
      refine ⟨c, rfl, ?_⟩
      have h2 : decide (¬(c.position = none) ∨ 0 < c.offset) = true := h
      show (if (decide (¬(c.position = none) ∨ 0 < c.offset)) = true
        then c.position else none) = c.position
      rw [if_pos h2]
  · intro h
    show (if s + pg.page_size < (order_by f pg.ordering l).length then
        (((order_by f pg.ordering l).drop (s + pg.page_size)).head?).map
          (position_of f pg.ordering)
      else none) = some (position_of f pg.ordering
        ((order_by f pg.ordering l).get ⟨s + pg.page_size, h⟩))
    rw [if_pos h, List.head?_drop, List.getElem?_eq_getElem h]
    rfl

theorem getNextCursor_last {R : Type} (pg : Paginator) (f : String → R → String)
    (st : PageState R) (hn : st.has_next = false) : getNextCursor pg f st = .ok none := by
  rw [getNextCursor, if_pos hn]

theorem walk_succ {R : Type} (pg : Paginator) (f : String → R → String) (query : List R)
    (n : Nat) (tok : Option String) :
    walk pg f query (n + 1) tok =
      (match walkStep pg f query tok with
       | .error e => .error e
       | .ok (st, none) => .ok ([st.page], true)
       | .ok (st, some t) =>
         (walk pg f query n (some t)).map (fun pr => (st.page :: pr.1, pr.2))) := rfl

/-- On the final page (no following row), one round of the walk returns the
remaining tail of the sorted snapshot and a null next token. -/
theorem walk_last {R : Type} (pg : Paginator) (f : String → R → String) (l : List R)
    (hattr : pg.attrs.contains (pg.ordering.headD ⟨"", true⟩).field = true)
    (s : Nat) (tok : Option String) (c? : Option Cursor)
    (hn2 : ¬(s + pg.page_size < (order_by f pg.ordering l).length))
    (hdec : decode_cursor tok = .ok c?)
    (hinv : GoodCur (pg.ordering.headD ⟨"", true⟩).ascending (position_of f pg.ordering)
      (order_by f pg.ordering l) c? s) :
    walk pg f l 1 tok = .ok ([(order_by f pg.ordering l).drop s], true) := by
  obtain ⟨st, hpc, hcur, hpage, hhn, hhp, hpp, hnp⟩ :=
    paginate_forward_fields pg f l hattr c? s hinv
  have hpq : paginate_query pg f l tok = .ok st := by
    rw [paginate_query, hdec]
    exact hpc
  have hgnc : getNextCursor pg f st = .ok none :=
    getNextCursor_last pg f st (by rw [hhn]; exact decide_eq_false hn2)
  have hgt : get_next_token pg f st = .ok none := by
    rw [get_next_token, hgnc]
    rfl
  have hstep : walkStep pg f l tok = .ok (st, none) := by
    rw [walkStep, hpq]
    show (match get_next_token pg f st with
      | Except.error e => Except.error e
      | Except.ok nt => Except.ok (st, nt)) = Except.ok (st, none)
    rw [hgt]
  rw [walk_succ, hstep]
  show Except.ok ([st.page], true) = .ok ([(order_by f pg.ordering l).drop s], true)
  rw [hpage, List.take_of_length_le (by rw [List.length_drop]; omega)]

/-- Fuel-indexed induction for the forward walk: from any good resume index
the walk terminates and returns the remaining tail of the sorted snapshot,
one consecutive block per page. -/
theorem walk_correct {R : Type} (pg : Paginator) (f : String → R → String) (l : List R)
    (hord : pg.ordering ≠ [])
    (hattr : pg.attrs.contains (pg.ordering.headD ⟨"", true⟩).field = true)
    (hps : 1 ≤ pg.page_size) (hcut : l.length ≤ offset_cutoff) (d : Nat) :
    ∀ (s : Nat) (tok : Option String) (c? : Option Cursor),
      (order_by f pg.ordering l).length - s ≤ d →
      decode_cursor tok = .ok c? →
      GoodCur (pg.ordering.headD ⟨"", true⟩).ascending (position_of f pg.ordering)
        (order_by f pg.ordering l) c? s →
      ∃ N pages, walk pg f l N tok = .ok (pages, true) ∧
        pages.flatten = (order_by f pg.ordering l).drop s := by
  induction d with
  | zero =>
    intro s tok c? hd hdec hinv
    refine ⟨1, [(order_by f pg.ordering l).drop s], ?_, by simp⟩
    exact walk_last pg f l hattr s tok c? (by omega) hdec hinv
  | succ d ih =>
    intro s tok c? hd hdec hinv
    by_cases hn : s + pg.page_size < (order_by f pg.ordering l).length
    · obtain ⟨st, hpc, hcur, hpage, hhn, hhp, hpp, hnp⟩ :=
        paginate_forward_fields pg f l hattr c? s hinv
      obtain ⟨c2, hgnc, hr2, ho2, hne2, hinv2⟩ :=
        getNextCursor_step pg f l hord hps c? s hinv st hn hcur hpage
          (by rw [hhn]; exact decide_eq_true hn) (hnp hn) hhp hpp
      have hpq : paginate_query pg f l tok = .ok st := by
        rw [paginate_query, hdec]
        exact hpc
      have hgt : get_next_token pg f st = .ok (some (encode_cursor c2)) := by
        rw [get_next_token, hgnc]
        rfl
      have hstep : walkStep pg f l tok = .ok (st, some (encode_cursor c2)) := by
        rw [walkStep, hpq]
        show (match get_next_token pg f st with
          | Except.error e => Except.error e
          | Except.ok nt => Except.ok (st, nt)) =
            Except.ok (st, some (encode_cursor c2))
        rw [hgt]
      have hoc2 : c2.offset ≤ offset_cutoff := by
        have horder2 : (order_by f pg.ordering l).length = l.length :=
          order_by_length f pg.ordering l
        omega
      have hdec2 : decode_cursor (some (encode_cursor c2)) = .ok (some c2) :=
        decode_encode_cursor c2 hoc2 hne2
      obtain ⟨N, pages, hwalk, hflat⟩ :=
        ih (s + pg.page_size) (some (encode_cursor c2)) (some c2) (by omega) hdec2 hinv2
      refine ⟨N + 1, st.page :: pages, ?_, ?_⟩
      · rw [walk_succ, hstep]
        show Except.map (fun pr => (st.page :: pr.1, pr.2))
            (walk pg f l N (some (encode_cursor c2))) =
          Except.ok (st.page :: pages, true)
        rw [hwalk]
        rfl
      · show st.page ++ pages.flatten = (order_by f pg.ordering l).drop s
        rw [hflat, hpage]
        rw [show (order_by f pg.ordering l).drop (s + pg.page_size) =
          ((order_by f pg.ordering l).drop s).drop pg.page_size by
            rw [List.drop_drop, Nat.add_comm]]
        exact List.take_append_drop _ _
    · refine ⟨1, [(order_by f pg.ordering l).drop s], ?_, by simp⟩
      exact walk_last pg f l hattr s tok c? hn hdec hinv

/-! ## Lemmas: construction well-formedness -/

theorem filterOrdering_mem (attrs : List String) (l : List RawOrderEntry) (e : OrderEntry)
    (h : e ∈ filterOrdering attrs l) : attrs.contains e.field = true := by
  rw [filterOrdering] at h
  obtain ⟨d, hd, hfd⟩ := List.mem_filterMap.mp h
  by_cases hc : attrs.contains d.field = true
  · rw [if_pos hc] at hfd
    cases ha : d.ascending with
    | none => rw [ha] at hfd; exact Option.noConfusion hfd
    | some a =>
      rw [ha] at hfd
      have he := Option.some.inj hfd
      rw [← he]
      exact hc
  · rw [if_neg hc] at hfd
    exact Option.noConfusion hfd

/-- A paginator accepted by `__init__` has a non-empty ordering whose head
names an attribute of the model, and keeps the given model and page size. -/
theorem init_wf (attrs : List String) (ps : Nat) (arg : OrderingArg) (pg : Paginator)
    (h : cursorPaginationInit attrs ps arg = .ok pg) :
    pg.attrs = attrs ∧ pg.page_size = ps ∧ pg.ordering ≠ [] ∧
      pg.attrs.contains (pg.ordering.headD ⟨"", true⟩).field = true := by
  cases arg with
  | pyNone => exact Except.noConfusion h
  | pyStr s => exact Except.noConfusion h
  | single d =>
    have h2 : (if filterOrdering attrs [d] = [] then Except.error PyExc.assertionError
        else Except.ok (⟨attrs, ps, filterOrdering attrs [d]⟩ : Paginator)) = Except.ok pg := h
    by_cases hf : filterOrdering attrs [d] = []
    · rw [if_pos hf] at h2
      exact Except.noConfusion h2
    · rw [if_neg hf] at h2
      have h3 := Except.ok.inj h2
      subst h3
      refine ⟨rfl, rfl, hf, ?_⟩
      cases hlist : filterOrdering attrs [d] with
      | nil => exact absurd hlist hf
      | cons e rest =>
        show attrs.contains ((e :: rest).headD ⟨"", true⟩).field = true
        exact filterOrdering_mem attrs [d] e (hlist ▸ List.mem_cons_self e rest)
  | many l =>
    have h2 : (if filterOrdering attrs l = [] then Except.error PyExc.assertionError
        else Except.ok (⟨attrs, ps, filterOrdering attrs l⟩ : Paginator)) = Except.ok pg := h
    by_cases hf : filterOrdering attrs l = []
    · rw [if_pos hf] at h2
      exact Except.noConfusion h2
    · rw [if_neg hf] at h2
      have h3 := Except.ok.inj h2
      subst h3
      refine ⟨rfl, rfl, hf, ?_⟩
      cases hlist : filterOrdering attrs l with
      | nil => exact absurd hlist hf
      | cons e rest =>
        show attrs.contains ((e :: rest).headD ⟨"", true⟩).field = true
        exact filterOrdering_mem attrs l e (hlist ▸ List.mem_cons_self e rest)

/-- C1 (amended): for a paginator accepted by construction, with a positive
page size and a snapshot of at most `offset_cutoff` rows, walking forward
from the null token by repeated `paginate_query` / `get_next_token` calls
terminates, and the concatenation of the returned pages is exactly the
snapshot sorted by the ordering — every row exactly once, including when
rows tie on the primary ordering value.  (Unamended, the claim fails: a
snapshot larger than `offset_cutoff` can duplicate rows because the decoder
clamps the offset, and a zero page size never terminates.) -/
theorem C1_walk_no_loss_amended {R : Type} (attrs : List String) (ps : Nat)
    (arg : OrderingArg) (pg : Paginator) (f : String → R → String) (l : List R)
    (hinit : cursorPaginationInit attrs ps arg = .ok pg)
    (hps : 1 ≤ pg.page_size) (hcut : l.length ≤ offset_cutoff) :
    ∃ N pages, walk pg f l N none = .ok (pages, true) ∧
      pages.flatten = order_by f pg.ordering l ∧ pages.flatten.Perm l := by
  obtain ⟨-, -, hord, hattr⟩ := init_wf attrs ps arg pg hinit
  obtain ⟨N, pages, hwalk, hflat⟩ := walk_correct pg f l hord hattr hps hcut
    (order_by f pg.ordering l).length 0 none none (by omega) rfl rfl
  refine ⟨N, pages, hwalk, ?_, ?_⟩
  · rw [hflat, List.drop_zero]
  · rw [hflat, List.drop_zero]
    exact order_by_perm f pg.ordering l

/-- C1 witness: the amended walk law at a concrete instance (two rows named
by their decimal representations, page size one). -/
theorem C1_walk_no_loss_amended_witness :
    cursorPaginationInit ["name"] 1 (.many [⟨"name", some true⟩]) =
      .ok (⟨["name"], 1, [⟨"name", true⟩]⟩ : Paginator) ∧
    1 ≤ (⟨["name"], 1, [⟨"name", true⟩]⟩ : Paginator).page_size ∧
    ([5, 3] : List Nat).length ≤ offset_cutoff ∧
    (∃ N pages, walk (⟨["name"], 1, [⟨"name", true⟩]⟩ : Paginator)
        (fun _ n => decRepr n) ([5, 3] : List Nat) N none = .ok (pages, true) ∧
      pages.flatten = order_by (fun _ n => decRepr n)
        (⟨["name"], 1, [⟨"name", true⟩]⟩ : Paginator).ordering ([5, 3] : List Nat) ∧
      pages.flatten.Perm ([5, 3] : List Nat)) :=
  ⟨rfl, by decide, by decide,
   C1_walk_no_loss_amended ["name"] 1 (.many [⟨"name", some true⟩]) _ _ _
     rfl (by decide) (by decide)⟩

/-! ## Lemmas: distinct primary positions -/

theorem position_of_reverse {R : Type} (f : String → R → String) (ord : List OrderEntry)
    (row : R) : position_of f (reverse_ordering ord) row = position_of f ord row := by
  cases ord <;> rfl

theorem filter_eq_take : ∀ (L : List R) (P : R → Bool) (m : Nat), m ≤ L.length →
    (∀ i (hi : i < L.length), i < m → P (L.get ⟨i, hi⟩) = true) →
    (∀ i (hi : i < L.length), m ≤ i → P (L.get ⟨i, hi⟩) = false) →
    L.filter P = L.take m
  | [], P, m, hm, _, _ => by simp
  | x :: t, P, m, hm, hkeep, hrej => by
    cases m with
    | zero =>
      rw [List.take_zero]
      have hx : P x = false := hrej 0 (by simp) (by omega)
      rw [List.filter_cons_of_neg (by simp [hx])]
      exact filter_eq_take t P 0 (by omega)
        (fun i hi h0 => by omega)
        (fun i hi h0 => hrej (i + 1) (by simp; omega) (by omega))
    | succ m2 =>
      have hx : P x = true := hkeep 0 (by simp) (by omega)
      rw [List.filter_cons_of_pos (by simp [hx]), List.take_succ_cons]
      congr 1
      exact filter_eq_take t P m2 (by simp at hm; omega)
        (fun i hi h0 => hkeep (i + 1) (by simp; omega) (by omega))
        (fun i hi h0 => hrej (i + 1) (by simp; omega) (by omega))

/-- Two sorted lists that are permutations of each other are equal, given
antisymmetry of the (boolean, possibly non-strict) sort relation on the
members of the first. -/
theorem sorted_perm_eq {A : Type} (r : A → A → Bool) :
    ∀ (xs ys : List A), xs.Perm ys →
      xs.Pairwise (fun a b => r a b = true) → ys.Pairwise (fun a b => r a b = true) →
      (∀ a b, a ∈ xs → b ∈ xs → r a b = true → r b a = true → a = b) →
      xs = ys
  | [], ys, hp, _, _, _ => List.Perm.nil_eq hp
  | x :: xs2, ys, hp, hsx, hsy, hanti => by
    cases ys with
    | nil => exact absurd hp.symm (by simp)
    | cons y ys2 =>
      have hxy : x = y := by
        by_cases hxy : x = y
        · exact hxy
        · have hyx : y ∈ x :: xs2 := hp.symm.mem_iff.mp (by simp)
          have hy2 : y ∈ xs2 := by
            rcases List.mem_cons.mp hyx with h | h
            · exact absurd h.symm hxy
            · exact h
          have hxy2 : x ∈ ys2 := by
            have := hp.mem_iff.mp (List.mem_cons_self x xs2)
            rcases List.mem_cons.mp this with h | h
            · exact absurd h hxy
            · exact h
          have hrxy : r x y = true := (List.pairwise_cons.mp hsx).1 y hy2
          have hryx : r y x = true := (List.pairwise_cons.mp hsy).1 x hxy2
          exact absurd (hanti x y (by simp) (by simp [hy2]) hrxy hryx) hxy
      subst hxy
      have hp2 : xs2.Perm ys2 := (List.perm_cons x).mp hp
      have := sorted_perm_eq r xs2 ys2 hp2 (List.pairwise_cons.mp hsx).2
        (List.pairwise_cons.mp hsy).2
        (fun a b ha hb => hanti a b (by simp [ha]) (by simp [hb]))
      rw [this]

/-- The tie scan stops immediately when the head of the list already
differs from the initial compare value. -/
theorem tieScan_head_ne {R : Type} (pos1 : R → String) (items : List R) (it : R)
    (cmp : Option String) (hh : items.head? = some it)
    (hne : ¬(some (pos1 it) = cmp)) :
    tieScan pos1 items cmp = some (0, pos1 it) := by
  cases items with
  | nil => exact Option.noConfusion hh
  | cons a rest =>
    have ha : a = it := Option.some.inj hh
    subst ha
    unfold tieScan
    rw [if_neg hne]

/-- With pairwise-distinct primary positions the snapshot order is strict:
any earlier row keeps strictly before any later row. -/
theorem strict_of_distinct {R : Type} (f : String → R → String) (ord : List OrderEntry)
    (l : List R) (hord : ord ≠ [])
    (hdist : l.Pairwise (fun a b => position_of f ord a ≠ position_of f ord b)) :
    ∀ i j (hi : i < (order_by f ord l).length) (hj : j < (order_by f ord l).length), i < j →
      pKeep (ord.headD ⟨"", true⟩).ascending
        (position_of f ord ((order_by f ord l).get ⟨i, hi⟩))
        (position_of f ord ((order_by f ord l).get ⟨j, hj⟩)) = true := by
  have hdL : (order_by f ord l).Pairwise
      (fun a b => position_of f ord a ≠ position_of f ord b) :=
    ((order_by_perm f ord l).pairwise_iff (fun hab => fun hc => hab hc.symm)).mpr hdist
  intro i j hi hj hij
  rcases primary_mono f ord l hord i j hi hj hij with heq | h
  · exact absurd heq (List.pairwise_iff_get.mp hdL ⟨i, hi⟩ ⟨j, hj⟩ hij)
  · exact h

/-- With pairwise-distinct primary positions, ordering by the inverted
clause list produces exactly the reverse of the base ordering. -/
theorem ordered_reverse_eq {R : Type} (f : String → R → String) (ord : List OrderEntry)
    (l : List R) (hord : ord ≠ [])
    (hdist : l.Pairwise (fun a b => position_of f ord a ≠ position_of f ord b)) :
    order_by f (reverse_ordering ord) l = (order_by f ord l).reverse := by
  cases ord with
  | nil => exact absurd rfl hord
  | cons e0 rest =>
    have hdL : (order_by f (e0 :: rest) l).Pairwise
        (fun a b => position_of f (e0 :: rest) a ≠ position_of f (e0 :: rest) b) :=
      ((order_by_perm f (e0 :: rest) l).pairwise_iff
        (fun hab => fun hc => hab hc.symm)).mpr hdist
    apply sorted_perm_eq (rowBle f (reverse_ordering (e0 :: rest)))
    · exact (order_by_perm f (reverse_ordering (e0 :: rest)) l).trans
        (((List.reverse_perm (order_by f (e0 :: rest) l)).trans
          (order_by_perm f (e0 :: rest) l)).symm)
    · exact order_by_sorted f (reverse_ordering (e0 :: rest)) l
    · rw [List.pairwise_reverse]
      refine ((order_by_sorted f (e0 :: rest) l).and hdL).imp ?_
      rintro a b ⟨hab, hne⟩
      have hxy : ¬(f e0.field a = f e0.field b) := hne
      have hyx : ¬(f e0.field b = f e0.field a) := fun h => hne h.symm
      rw [rowBle_cons_ne f e0 rest a b hxy] at hab
      show rowBle f (⟨e0.field, !e0.ascending⟩ :: reverse_ordering rest) b a = true
      rw [rowBle_cons_ne f ⟨e0.field, !e0.ascending⟩ (reverse_ordering rest) b a hyx]
      cases hasc : e0.ascending <;> rw [hasc] at hab <;> simpa using hab
    · intro a b ha hb hab hba
      by_cases heq : a = b
      · exact heq
      · have hal : a ∈ l :=
          (order_by_perm f (reverse_ordering (e0 :: rest)) l).mem_iff.mp ha
        have hbl : b ∈ l :=
          (order_by_perm f (reverse_ordering (e0 :: rest)) l).mem_iff.mp hb
        have hsymm : Symmetric (fun x y : R =>
            position_of f (e0 :: rest) x ≠ position_of f (e0 :: rest) y) := by
          intro x y h hc
          exact h hc.symm
        have hne : position_of f (e0 :: rest) a ≠ position_of f (e0 :: rest) b :=
          hdist.forall hsymm hal hbl heq
        have hxy : ¬(f e0.field a = f e0.field b) := hne
        have hyx : ¬(f e0.field b = f e0.field a) := fun h => hne h.symm
        rw [show reverse_ordering (e0 :: rest) =
          ⟨e0.field, !e0.ascending⟩ :: reverse_ordering rest from rfl] at hab hba
        rw [rowBle_cons_ne f ⟨e0.field, !e0.ascending⟩ (reverse_ordering rest) a b hxy] at hab
        rw [rowBle_cons_ne f ⟨e0.field, !e0.ascending⟩ (reverse_ordering rest) b a hyx] at hba
        exfalso
        cases hasc : e0.ascending <;> rw [hasc] at hab hba <;> simp at hab hba <;>
          [exact absurd (strLt_asymm hab) (by simp [hba]);
           exact absurd (strLt_asymm hab) (by simp [hba])]

theorem pKeep_ne (asc : Bool) (p q : String) (h : pKeep asc p q = true) : ¬(p = q) := by
  intro heq
  rw [heq, pKeep_irrefl] at h
  exact Bool.noConfusion h

/-- With pairwise-distinct primary positions, `get_next_token` always stops
the tie scan at the last page item: the next cursor is `(0, False, position
of the last page row)`. -/
theorem getNextCursor_distinct {R : Type} (pg : Paginator) (f : String → R → String)
    (l : List R) (hord : pg.ordering ≠ []) (hps : 1 ≤ pg.page_size)
    (hdist : l.Pairwise (fun a b =>
      position_of f pg.ordering a ≠ position_of f pg.ordering b))
    (c? : Option Cursor) (s : Nat) (st : PageState R)
    (hnext : s + pg.page_size < (order_by f pg.ordering l).length)
    (hinv : GoodCur (pg.ordering.headD ⟨"", true⟩).ascending (position_of f pg.ordering)
      (order_by f pg.ordering l) c? s)
    (hcur : st.cursor = c?)
    (hpage : st.page = ((order_by f pg.ordering l).drop s).take pg.page_size)
    (hhn : st.has_next = true)
    (hnp : st.next_position =
      some (position_of f pg.ordering ((order_by f pg.ordering l).get ⟨s + pg.page_size, hnext⟩))) :
    getNextCursor pg f st = .ok (some ⟨0, false, some (position_of f pg.ordering
      ((order_by f pg.ordering l).get ⟨s + pg.page_size - 1, by omega⟩))⟩) := by
  have hcmp : nextCompare pg f st = .ok st.next_position := by
    rw [nextCompare, hcur]
    cases c? with
    | none => rfl
    | some c =>
      have hrev : c.reverse = false := hinv.1
      simp [hrev]
  have hlenpage : st.page.length = pg.page_size := by
    rw [hpage]
    simp only [List.length_take, List.length_drop]
    omega
  have egnc : getNextCursor pg f st =
      (match tieScan (position_of f pg.ordering) st.page.reverse st.next_position with
       | some (offset, position) => .ok (some ⟨offset, false, some position⟩)
       | none =>
         if st.has_previous = false then .ok (some ⟨pg.page_size, false, none⟩)
         else
           match st.cursor with
           | none => .error .attributeError
           | some c =>
             if c.reverse then .ok (some ⟨0, false, st.previous_position⟩)
             else .ok (some ⟨c.offset + pg.page_size, false, st.previous_position⟩)) := by
    rw [getNextCursor, if_neg (by rw [hhn]; simp), hcmp]
  have hrevlen : st.page.reverse.length = pg.page_size := by
    rw [List.length_reverse, hlenpage]
  have hgetconv : ∀ (i2 : Nat) (hi2 : i2 < pg.page_size),
      st.page.reverse.get ⟨i2, by rw [hrevlen]; exact hi2⟩ =
        (order_by f pg.ordering l).get ⟨s + pg.page_size - 1 - i2, by omega⟩ := by
    intro i2 hi2
    rw [List.get_eq_getElem, List.get_eq_getElem, List.getElem_reverse]
    simp only [hpage, List.getElem_take, List.getElem_drop,
      List.length_take, List.length_drop]
    congr 1
    omega
  have hh : st.page.reverse.head? =
      some ((order_by f pg.ordering l).get ⟨s + pg.page_size - 1, by omega⟩) := by
    have h0 : st.page.reverse.get ⟨0, by rw [hrevlen]; omega⟩ =
        (order_by f pg.ordering l).get ⟨s + pg.page_size - 1 - 0, by omega⟩ :=
      hgetconv 0 (by omega)
    rw [get_congr (order_by f pg.ordering l) (s + pg.page_size - 1 - 0)
      (s + pg.page_size - 1) (by omega) (by omega) (by omega)] at h0
    rw [List.head?_eq_getElem?,
      List.getElem?_eq_getElem (show 0 < st.page.reverse.length from by rw [hrevlen]; omega)]
    rw [← h0]
    rfl
  have hne : ¬(some (position_of f pg.ordering
      ((order_by f pg.ordering l).get ⟨s + pg.page_size - 1, by omega⟩)) =
        st.next_position) := by
    rw [hnp]
    intro hceq
    have h2 := Option.some.inj hceq
    exact pKeep_ne _ _ _
      (strict_of_distinct f pg.ordering l hord hdist (s + pg.page_size - 1)
        (s + pg.page_size) (by omega) hnext (by omega)) h2
  rw [egnc, tieScan_head_ne (position_of f pg.ordering) st.page.reverse _
    st.next_position hh hne]

/-- For a page reached by a forward cursor `(0, False, p)` whose head row
position differs from `p`, `get_previous_token` stops the tie scan at the
first page item: the previous cursor is `(0, True, position of the first
page row)`. -/
theorem getPrevCursor_distinct {R : Type} (pg : Paginator) (f : String → R → String)
    (l : List R) (hps : 1 ≤ pg.page_size)
    (p : String) (s : Nat) (st : PageState R)
    (hs : s < (order_by f pg.ordering l).length)
    (hcur : st.cursor = some ⟨0, false, some p⟩)
    (hpage : st.page = ((order_by f pg.ordering l).drop s).take pg.page_size)
    (hhp : st.has_previous = true)
    (hpp : st.previous_position = some p)
    (hne : ¬(position_of f pg.ordering ((order_by f pg.ordering l).get ⟨s, hs⟩) = p)) :
    getPrevCursor pg f st = .ok (some ⟨0, true, some (position_of f pg.ordering
      ((order_by f pg.ordering l).get ⟨s, hs⟩))⟩) := by
  have hcmp : prevCompare pg f st = .ok st.previous_position := by
    rw [prevCompare, hcur]
    simp
  have hh : st.page.head? = some ((order_by f pg.ordering l).get ⟨s, hs⟩) := by
    rw [hpage, List.head?_eq_getElem?, List.getElem?_take, if_pos (by omega),
      List.getElem?_drop]
    rw [List.getElem?_eq_getElem (by omega : s + 0 < (order_by f pg.ordering l).length)]
    rfl
  have hne2 : ¬(some (position_of f pg.ordering
      ((order_by f pg.ordering l).get ⟨s, hs⟩)) = st.previous_position) := by
    rw [hpp]
    intro hceq
    exact hne (Option.some.inj hceq)
  rw [getPrevCursor, if_neg (by rw [hhp]; simp), hcmp]
  show (match tieScan (position_of f pg.ordering) st.page st.previous_position with
    | some (offset, position) =>
      (Except.ok (some ⟨offset, true, some position⟩) : Except PyExc (Option Cursor))
    | none =>
      if st.has_next = false then Except.ok (some ⟨pg.page_size, true, none⟩)
      else
        match st.cursor with
        | none => Except.error .attributeError
        | some c =>
          if c.reverse then Except.ok (some ⟨c.offset + pg.page_size, true,
            st.next_position⟩)
          else Except.ok (some ⟨0, true, st.next_position⟩)) =
    Except.ok (some ⟨0, true, some (position_of f pg.ordering
      ((order_by f pg.ordering l).get ⟨s, hs⟩))⟩)
  rw [tieScan_head_ne (position_of f pg.ordering) st.page _ st.previous_position hh hne2]


theorem filtered_backward_anchor {R : Type} (pg : Paginator) (f : String → R → String)
    (l : List R) (k : Nat) (p : String)
    (hattr : pg.attrs.contains (pg.ordering.headD ⟨"", true⟩).field = true) :
    filteredOf pg f l (some ⟨k, true, some p⟩) =
      .ok ((order_by f (reverse_ordering pg.ordering) l).filter
        (fun r => pKeep (pg.ordering.headD ⟨"", true⟩).ascending
          (f (pg.ordering.headD ⟨"", true⟩).field r) p)) := by
  unfold filteredOf
  simp only [cursorTriple]
  have hne : ¬(pg.attrs.contains (pg.ordering.headD ⟨"", true⟩).field = false) := by
    rw [hattr]
    simp
  rw [if_neg hne]
  cases hasc : (pg.ordering.headD ⟨"", true⟩).ascending
  · rw [if_neg (by simp)]
    rfl
  · rw [if_pos (by simp)]
    rfl

/-- The backward slice: for the reverse anchored cursor `(0, True, q)` with
`q` the position of row `s`, the results are the last `page_size + 1` rows
before `s`, in reverse. -/
theorem results_backward {R : Type} (pg : Paginator) (f : String → R → String)
    (l : List R) (hord : pg.ordering ≠ [])
    (hattr : pg.attrs.contains (pg.ordering.headD ⟨"", true⟩).field = true)
    (hdist : l.Pairwise (fun a b =>
      position_of f pg.ordering a ≠ position_of f pg.ordering b))
    (s : Nat) (hs : s < (order_by f pg.ordering l).length) :
    resultsOf pg f l (some ⟨0, true, some (position_of f pg.ordering
        ((order_by f pg.ordering l).get ⟨s, hs⟩))⟩) =
      .ok ((((order_by f pg.ordering l).take s).reverse).take (pg.page_size + 1)) := by
  have hfil : filteredOf pg f l (some ⟨0, true, some (position_of f pg.ordering
      ((order_by f pg.ordering l).get ⟨s, hs⟩))⟩) =
      .ok (((order_by f pg.ordering l).take s).reverse) := by
    rw [filtered_backward_anchor pg f l 0 _ hattr]
    congr 1
    rw [ordered_reverse_eq f pg.ordering l hord hdist, List.filter_reverse]
    congr 1
    apply filter_eq_take (order_by f pg.ordering l) _ s (by omega)
    · intro i hi his
      exact strict_of_distinct f pg.ordering l hord hdist i s hi hs his
    · intro i hi his
      rcases Nat.eq_or_lt_of_le his with heq | hlt
      · subst heq
        exact pKeep_irrefl _ _
      · exact pKeep_asymm _ _ _
          (strict_of_distinct f pg.ordering l hord hdist s i hs hi hlt)
  unfold resultsOf
  simp only [cursorTriple]
  rw [hfil]
  show Except.ok (((((order_by f pg.ordering l).take s).reverse).drop 0).take
    (pg.page_size + 1)) = _
  rw [List.drop_zero]

/-- Backward pagination from the reverse anchored cursor `(0, True, q)`,
`q` the position of row `s`: the returned page is exactly the block of
`page_size` rows ending just before `s`, in forward order. -/
theorem paginate_backward {R : Type} (pg : Paginator) (f : String → R → String)
    (l : List R) (hord : pg.ordering ≠ [])
    (hattr : pg.attrs.contains (pg.ordering.headD ⟨"", true⟩).field = true)
    (hdist : l.Pairwise (fun a b =>
      position_of f pg.ordering a ≠ position_of f pg.ordering b))
    (s : Nat) (hs : s < (order_by f pg.ordering l).length)
    (hpss : pg.page_size ≤ s) :
    ∃ stp : PageState R, paginateCursor pg f l (some ⟨0, true, some (position_of f pg.ordering
        ((order_by f pg.ordering l).get ⟨s, hs⟩))⟩) = .ok stp ∧
      stp.page = ((order_by f pg.ordering l).drop (s - pg.page_size)).take pg.page_size := by
  have hres := results_backward pg f l hord hattr hdist s hs
  simp only [paginateCursor, cursorTriple, hres]
  refine ⟨_, rfl, ?_⟩
  show ((((order_by f pg.ordering l).take s).reverse.take (pg.page_size + 1)).take
      pg.page_size).reverse =
    ((order_by f pg.ordering l).drop (s - pg.page_size)).take pg.page_size
  rw [List.take_take, show min pg.page_size (pg.page_size + 1) = pg.page_size by omega]
  rw [List.take_reverse]
  rw [List.reverse_reverse, List.length_take,
    show min s (order_by f pg.ordering l).length = s by omega]
  rw [List.drop_take]
  congr 1
  omega

/-- The forward chain under pairwise-distinct primary positions: the
`i`-th round of `paginate_query` / `get_next_token` from the null token
paginates with a cursor that resumes the snapshot at `i * page_size`, and
for `i ≥ 1` that cursor is exactly `(0, False, position of the last row of
the previous page)`. -/
theorem chain_distinct {R : Type} (pg : Paginator) (f : String → R → String) (l : List R)
    (hord : pg.ordering ≠ [])
    (hattr : pg.attrs.contains (pg.ordering.headD ⟨"", true⟩).field = true)
    (hps : 1 ≤ pg.page_size)
    (hdist : l.Pairwise (fun a b =>
      position_of f pg.ordering a ≠ position_of f pg.ordering b)) :
    ∀ (i : Nat) (hilen : i * pg.page_size < (order_by f pg.ordering l).length),
      ∃ (st : PageState R) (tok : Option String) (c? : Option Cursor),
        chainSt pg f l i = .ok (st, tok) ∧
        paginateCursor pg f l c? = .ok st ∧
        GoodCur (pg.ordering.headD ⟨"", true⟩).ascending (position_of f pg.ordering)
          (order_by f pg.ordering l) c? (i * pg.page_size) ∧
        st.cursor = c? ∧
        (1 ≤ i → c? = some ⟨0, false, some (position_of f pg.ordering
          ((order_by f pg.ordering l).get ⟨i * pg.page_size - 1, by omega⟩))⟩) ∧
        (∀ h2 : (i + 1) * pg.page_size < (order_by f pg.ordering l).length,
          tok = some (encode_cursor ⟨0, false, some (position_of f pg.ordering
            ((order_by f pg.ordering l).get ⟨(i + 1) * pg.page_size - 1, by omega⟩))⟩)) := by
  intro i
  induction i with
  | zero =>
    intro hilen
    obtain ⟨st, hpc, hcur, hpage, hhn, hhp, hpp, hnp⟩ :=
      paginate_forward_fields pg f l hattr none 0 rfl
    have hpq : paginate_query pg f l none = .ok st := by
      rw [paginate_query]
      exact hpc
    by_cases hn1 : 0 + pg.page_size < (order_by f pg.ordering l).length
    · have hgnc := getNextCursor_distinct pg f l hord hps hdist none 0 st hn1 rfl
        hcur hpage (by rw [hhn]; exact decide_eq_true hn1) (hnp hn1)
      have hgt : get_next_token pg f st = .ok (some (encode_cursor
          ⟨0, false, some (position_of f pg.ordering
            ((order_by f pg.ordering l).get ⟨0 + pg.page_size - 1, by omega⟩))⟩)) := by
        rw [get_next_token, hgnc]
        rfl
      refine ⟨st, some (encode_cursor ⟨0, false, some (position_of f pg.ordering
          ((order_by f pg.ordering l).get ⟨0 + pg.page_size - 1, by omega⟩))⟩), none,
        ?_, hpc, by show 0 * pg.page_size = 0; omega, hcur, by omega, ?_⟩
      · show walkStep pg f l none = _
        rw [walkStep, hpq]
        show (match get_next_token pg f st with
          | Except.error e => Except.error e
          | Except.ok nt => Except.ok (st, nt)) = _
        rw [hgt]
      · intro h1
        rw [get_congr (order_by f pg.ordering l) (0 + pg.page_size - 1)
          ((0 + 1) * pg.page_size - 1) (by omega) (by omega) (by omega)]
    · have hgnc : getNextCursor pg f st = .ok none :=
        getNextCursor_last pg f st (by rw [hhn]; exact decide_eq_false hn1)
      have hgt : get_next_token pg f st = .ok none := by
        rw [get_next_token, hgnc]
        rfl
      refine ⟨st, none, none, ?_, hpc, by show 0 * pg.page_size = 0; omega, hcur,
        by omega, by omega⟩
      show walkStep pg f l none = _
      rw [walkStep, hpq]
      show (match get_next_token pg f st with
        | Except.error e => Except.error e
        | Except.ok nt => Except.ok (st, nt)) = _
      rw [hgt]
  | succ i ih =>
    intro hilen
    have hmul : (i + 1) * pg.page_size = i * pg.page_size + pg.page_size := by
      ring
    have hplen : i * pg.page_size < (order_by f pg.ordering l).length := by omega
    obtain ⟨sti, toki, ci?, hchaini, hpci, hinvi, hcuri, _, htoki⟩ := ih hplen
    have htokval := htoki (by omega)
    -- fields of the previous page state
    obtain ⟨sti2, hpci2, hcuri2, hpagei, hhni, hhpi, hppi, hnpi⟩ :=
      paginate_forward_fields pg f l hattr ci? (i * pg.page_size) hinvi
    rw [hpci] at hpci2
    have hsti : sti = sti2 := Except.ok.inj hpci2
    subst hsti
    have hnexti : i * pg.page_size + pg.page_size < (order_by f pg.ordering l).length := by
      omega
    -- the concrete next cursor and its invariant
    obtain ⟨c2, hgnc2, hr2, ho2, hne2, hinv2⟩ :=
      getNextCursor_step pg f l hord hps ci? (i * pg.page_size) hinvi sti hnexti
        hcuri2 hpagei (by rw [hhni]; exact decide_eq_true hnexti) (hnpi hnexti) hhpi hppi
    have hgncd := getNextCursor_distinct pg f l hord hps hdist ci? (i * pg.page_size) sti
      hnexti hinvi hcuri2 hpagei (by rw [hhni]; exact decide_eq_true hnexti) (hnpi hnexti)
    have hc2 : c2 = ⟨0, false, some (position_of f pg.ordering
        ((order_by f pg.ordering l).get
          ⟨i * pg.page_size + pg.page_size - 1, by omega⟩))⟩ := by
      rw [hgnc2] at hgncd
      exact Option.some.inj (Except.ok.inj hgncd)
    have hoc2 : c2.offset ≤ offset_cutoff := by
      rw [hc2]
      exact Nat.zero_le _
    have hdecc2 : decode_cursor (some (encode_cursor c2)) = .ok (some c2) :=
      decode_encode_cursor c2 hoc2 hne2
    -- paginate the new cursor
    obtain ⟨st, hpc, hcur, hpage, hhn, hhp, hpp, hnp⟩ :=
      paginate_forward_fields pg f l hattr (some c2)
        (i * pg.page_size + pg.page_size) hinv2
    have hpq : paginate_query pg f l (some (encode_cursor c2)) = .ok st := by
      rw [paginate_query, hdecc2]
      exact hpc
    have hchain : chainSt pg f l (i + 1) = walkStep pg f l (some (encode_cursor c2)) := by
      show (match chainSt pg f l i with
        | .ok (_, some t) => walkStep pg f l (some t)
        | .ok (_, none) => .error .indexError
        | .error e => .error e) = _
      rw [hchaini, htokval, hc2]
      rw [get_congr (order_by f pg.ordering l) ((i + 1) * pg.page_size - 1)
        (i * pg.page_size + pg.page_size - 1) (by omega) (by omega) (by omega)]
    by_cases hn2 : (i + 1) * pg.page_size + pg.page_size < (order_by f pg.ordering l).length
    · have hn2m : i * pg.page_size + pg.page_size + pg.page_size <
          (order_by f pg.ordering l).length := by
        have h2 : (i + 1 + 1) * pg.page_size = (i + 1) * pg.page_size + pg.page_size := by
          ring
        omega
      have hgnc := getNextCursor_distinct pg f l hord hps hdist (some c2)
        (i * pg.page_size + pg.page_size) st hn2m hinv2 hcur hpage
        (by rw [hhn]; exact decide_eq_true hn2m) (hnp hn2m)
      have hgt : get_next_token pg f st = .ok (some (encode_cursor
          ⟨0, false, some (position_of f pg.ordering
            ((order_by f pg.ordering l).get
              ⟨i * pg.page_size + pg.page_size + pg.page_size - 1, by omega⟩))⟩)) := by
        rw [get_next_token, hgnc]
        rfl
      refine ⟨st, some (encode_cursor ⟨0, false, some (position_of f pg.ordering
          ((order_by f pg.ordering l).get
            ⟨i * pg.page_size + pg.page_size + pg.page_size - 1, by omega⟩))⟩),
        some c2, ?_, hpc, by rw [hmul]; exact hinv2, hcur, ?_, ?_⟩
      · rw [hchain, walkStep, hpq]
        show (match get_next_token pg f st with
          | Except.error e => Except.error e
          | Except.ok nt => Except.ok (st, nt)) = _
        rw [hgt]
      · intro h1
        rw [hc2]
        rw [get_congr (order_by f pg.ordering l)
          (i * pg.page_size + pg.page_size - 1) ((i + 1) * pg.page_size - 1)
          (by omega) (by omega) (by omega)]
      · intro h2
        have h3 : (i + 1 + 1) * pg.page_size = i * pg.page_size + pg.page_size +
            pg.page_size := by
          ring
        rw [get_congr (order_by f pg.ordering l)
          (i * pg.page_size + pg.page_size + pg.page_size - 1)
          ((i + 1 + 1) * pg.page_size - 1) (by omega) (by rw [h3]; omega)
          (by rw [h3])]
    · have hn2m : ¬(i * pg.page_size + pg.page_size + pg.page_size <
          (order_by f pg.ordering l).length) := by
        have h2 : (i + 1 + 1) * pg.page_size = (i + 1) * pg.page_size + pg.page_size := by
          ring
        omega
      have hgnc : getNextCursor pg f st = .ok none :=
        getNextCursor_last pg f st (by rw [hhn]; exact decide_eq_false hn2m)
      have hgt : get_next_token pg f st = .ok none := by
        rw [get_next_token, hgnc]
        rfl
      refine ⟨st, none, some c2, ?_, hpc, by rw [hmul]; exact hinv2, hcur, ?_,
        fun h2 => absurd h2 (by
          have e1 : (i + 1 + 1) * pg.page_size = (i + 1) * pg.page_size +
              pg.page_size := by ring
          omega)⟩
      · rw [hchain, walkStep, hpq]
        show (match get_next_token pg f st with
          | Except.error e => Except.error e
          | Except.ok nt => Except.ok (st, nt)) = _
        rw [hgt]
      · intro h1
        rw [hc2]
        rw [get_congr (order_by f pg.ordering l)
          (i * pg.page_size + pg.page_size - 1) ((i + 1) * pg.page_size - 1)
          (by omega) (by omega) (by omega)]

/-- C2 (amended): over a snapshot whose rows carry pairwise-distinct primary
positions, with positive page size, any
page reached from the null token by `i ≥ 1` rounds of `paginate_query` /
`get_next_token` answers `get_previous_token` with a token that re-paginates
to exactly the items of the preceding page of the chain. -/
theorem C2_prev_page_amended {R : Type} (attrs : List String) (ps0 : Nat)
    (arg : OrderingArg) (pg : Paginator) (f : String → R → String) (l : List R)
    (hinit : cursorPaginationInit attrs ps0 arg = .ok pg)
    (hps : 1 ≤ pg.page_size)
    (hdist : l.Pairwise (fun a b =>
      position_of f pg.ordering a ≠ position_of f pg.ordering b))
    (i : Nat) (hi1 : 1 ≤ i)
    (hilen : i * pg.page_size < (order_by f pg.ordering l).length)
    (st : PageState R) (tok : Option String)
    (hchain : chainSt pg f l i = .ok (st, tok)) :
    ∃ (t : String) (stp stprev : PageState R) (tokprev : Option String),
      get_previous_token pg f st = .ok (some t) ∧
      paginate_query pg f l (some t) = .ok stp ∧
      chainSt pg f l (i - 1) = .ok (stprev, tokprev) ∧
      stp.page = stprev.page := by
  obtain ⟨-, -, hord, hattr⟩ := init_wf attrs ps0 arg pg hinit
  obtain ⟨i2, rfl⟩ : ∃ i2, i = i2 + 1 := ⟨i - 1, by omega⟩
  have hmul : (i2 + 1) * pg.page_size = i2 * pg.page_size + pg.page_size := by
    ring
  obtain ⟨st', tok', c?, hch', hpc', hinv', hcur', hcval, -⟩ :=
    chain_distinct pg f l hord hattr hps hdist (i2 + 1) hilen
  rw [hchain] at hch'
  have hstst : st = st' := congrArg Prod.fst (Except.ok.inj hch')
  subst hstst
  have hcv := hcval (by omega)
  obtain ⟨st2, hpc2, hcur2, hpage2, hhn2, hhp2, hpp2, hnp2⟩ :=
    paginate_forward_fields pg f l hattr c? ((i2 + 1) * pg.page_size) hinv'
  rw [hpc'] at hpc2
  have hstst2 : st = st2 := Except.ok.inj hpc2
  subst hstst2
  have hhpT : st.has_previous = true := by
    cases hb : st.has_previous
    · exact absurd (hhp2 hb) (by omega)
    · rfl
  obtain ⟨c, hceq, hppv⟩ := hpp2 hhpT
  rw [hcv] at hceq
  have hcc : c = ⟨0, false, some (position_of f pg.ordering
      ((order_by f pg.ordering l).get ⟨(i2 + 1) * pg.page_size - 1, by omega⟩))⟩ :=
    (Option.some.inj hceq).symm
  rw [hcc] at hppv
  have hne : ¬(position_of f pg.ordering
      ((order_by f pg.ordering l).get ⟨(i2 + 1) * pg.page_size, hilen⟩) =
      position_of f pg.ordering
        ((order_by f pg.ordering l).get ⟨(i2 + 1) * pg.page_size - 1, by omega⟩)) := by
    intro h
    exact pKeep_ne _ _ _
      (strict_of_distinct f pg.ordering l hord hdist ((i2 + 1) * pg.page_size - 1)
        ((i2 + 1) * pg.page_size) (by omega) hilen (by omega)) h.symm
  have hprevC := getPrevCursor_distinct pg f l hps _ ((i2 + 1) * pg.page_size) st hilen
    (by rw [hcur2, hcv]) hpage2 hhpT hppv hne
  have hgpt : get_previous_token pg f st = .ok (some (encode_cursor
      ⟨0, true, some (position_of f pg.ordering
        ((order_by f pg.ordering l).get ⟨(i2 + 1) * pg.page_size, hilen⟩))⟩)) := by
    rw [get_previous_token, hprevC]
    rfl
  have hdect : decode_cursor (some (encode_cursor
      ⟨0, true, some (position_of f pg.ordering
        ((order_by f pg.ordering l).get ⟨(i2 + 1) * pg.page_size, hilen⟩))⟩)) =
      .ok (some ⟨0, true, some (position_of f pg.ordering
        ((order_by f pg.ordering l).get ⟨(i2 + 1) * pg.page_size, hilen⟩))⟩) :=
    decode_encode_cursor _ (by show 0 ≤ offset_cutoff; omega)
      (by intro h; exact Bool.noConfusion (congrArg Cursor.reverse h))
  obtain ⟨stp, hpcb, hpageb⟩ := paginate_backward pg f l hord hattr hdist
    ((i2 + 1) * pg.page_size) hilen (by omega)
  obtain ⟨stprev, tokprev, cp?, hchp, hpcp, hinvp, hcurp, -, -⟩ :=
    chain_distinct pg f l hord hattr hps hdist i2 (by omega)
  obtain ⟨stp2, hpcp2, hcurp2, hpagep2, -, -, -, -⟩ :=
    paginate_forward_fields pg f l hattr cp? (i2 * pg.page_size) hinvp
  rw [hpcp] at hpcp2
  have hstst3 : stprev = stp2 := Except.ok.inj hpcp2
  subst hstst3
  refine ⟨_, stp, stprev, tokprev, hgpt, ?_, by simpa using hchp, ?_⟩
  · rw [paginate_query, hdect]
    exact hpcb
  · rw [hpageb, hpagep2]
    rw [show (i2 + 1) * pg.page_size - pg.page_size = i2 * pg.page_size from by
      rw [hmul]; omega]

set_option maxRecDepth 10000 in
/-- C2 witness: the amended previous-page law at a concrete instance (three
rows with distinct names, page size one, second page). -/
theorem C2_prev_page_amended_witness :
    cursorPaginationInit ["name"] 1 (.many [⟨"name", some true⟩]) =
      .ok (⟨["name"], 1, [⟨"name", true⟩]⟩ : Paginator) ∧
    1 ≤ (⟨["name"], 1, [⟨"name", true⟩]⟩ : Paginator).page_size ∧
    ([3, 1, 2] : List Nat).Pairwise (fun a b =>
      position_of (fun _ n => decRepr n)
          (⟨["name"], 1, [⟨"name", true⟩]⟩ : Paginator).ordering a ≠
        position_of (fun _ n => decRepr n)
          (⟨["name"], 1, [⟨"name", true⟩]⟩ : Paginator).ordering b) ∧
    1 * (⟨["name"], 1, [⟨"name", true⟩]⟩ : Paginator).page_size <
      (order_by (fun _ n => decRepr n)
        (⟨["name"], 1, [⟨"name", true⟩]⟩ : Paginator).ordering [3, 1, 2]).length ∧
    chainSt (⟨["name"], 1, [⟨"name", true⟩]⟩ : Paginator) (fun _ n => decRepr n)
      ([3, 1, 2] : List Nat) 1 = .ok (⟨some ⟨0, false, some "1"⟩, [2], true, true,
        some "3", some "1"⟩, some "cD0y") ∧
    (∃ (t : String) (stp stprev : PageState Nat) (tokprev : Option String),
      get_previous_token (⟨["name"], 1, [⟨"name", true⟩]⟩ : Paginator)
        (fun _ n => decRepr n)
        (⟨some ⟨0, false, some "1"⟩, [2], true, true, some "3", some "1"⟩ : PageState Nat) =
        .ok (some t) ∧
      paginate_query (⟨["name"], 1, [⟨"name", true⟩]⟩ : Paginator) (fun _ n => decRepr n)
        ([3, 1, 2] : List Nat) (some t) = .ok stp ∧
      chainSt (⟨["name"], 1, [⟨"name", true⟩]⟩ : Paginator) (fun _ n => decRepr n)
        ([3, 1, 2] : List Nat) (1 - 1) = .ok (stprev, tokprev) ∧
      stp.page = stprev.page) :=
  ⟨rfl, by decide, by decide, by decide, by decide,
   C2_prev_page_amended ["name"] 1 (.many [⟨"name", some true⟩])
     ⟨["name"], 1, [⟨"name", true⟩]⟩ (fun _ n => decRepr n) [3, 1, 2]
     rfl (by decide) (by decide) 1 (by decide) (by decide)
     (⟨some ⟨0, false, some "1"⟩, [2], true, true, some "3", some "1"⟩ : PageState Nat)
     (some "cD0y") (by decide)⟩

set_option maxRecDepth 10000 in
/-- C2 counterexample: two rows that tie on the primary position, page size
one.  The second page of the forward chain is the one-row page `[1]`;
`get_previous_token` then re-paginates to `[1]` again, not to the actual
preceding page `[0]`: the tie scan exhausts the all-tying page, falls back
to the next-position anchor, and the unamended claim fails. -/
theorem C2_prev_page_counterexample :
    cursorPaginationInit ["name"] 1 (.many [⟨"name", some true⟩]) =
      .ok (⟨["name"], 1, [⟨"name", true⟩]⟩ : Paginator) ∧
    (chainSt (⟨["name"], 1, [⟨"name", true⟩]⟩ : Paginator) (fun _ _ => "a")
      ([0, 1] : List Nat) 0).map (fun pr => pr.1.page) = .ok [0] ∧
    (chainSt (⟨["name"], 1, [⟨"name", true⟩]⟩ : Paginator) (fun _ _ => "a")
      ([0, 1] : List Nat) 1).map (fun pr => pr.1.page) = .ok [1] ∧
    (chainSt (⟨["name"], 1, [⟨"name", true⟩]⟩ : Paginator) (fun _ _ => "a")
      ([0, 1] : List Nat) 1).map (fun pr => get_previous_token
        (⟨["name"], 1, [⟨"name", true⟩]⟩ : Paginator) (fun _ _ => "a") pr.1) =
      .ok (.ok (some "bz0xJnI9MQ==")) ∧
    (paginate_query (⟨["name"], 1, [⟨"name", true⟩]⟩ : Paginator) (fun _ _ => "a")
      ([0, 1] : List Nat) (some "bz0xJnI9MQ==")).map (fun st => st.page) = .ok [1] ∧
    ¬(([1] : List Nat) = [0]) :=
  ⟨rfl, by decide, by decide, by decide, by decide, by decide⟩

/-! ## Lemmas: offset parsing in `decode_cursor` -/

theorem pyInt_neg_decRepr (k : Nat) : pyInt ("-" ++ decRepr k) = .ok (-(k : Int)) := by
  obtain ⟨hne, hdig, hval⟩ := decAux_spec (k + 1) k (by omega)
  rcases hd : decAux (k + 1) k with _ | ⟨c, ds⟩
  · exact absurd hd hne
  · have hcd : isAsciiDigit c = true := hdig c (by rw [hd]; simp)
    have hdata : ("-" ++ decRepr k).data = '-' :: c :: ds := by
      rw [string_append_data]
      show '-' :: decAux (k + 1) k = _
      rw [hd]
    have hstrip : ((("-" ++ decRepr k).data.dropWhile isPySpace).reverse.dropWhile
        isPySpace).reverse = '-' :: c :: ds := by
      rw [hdata, dropWhile_head_false (by decide : isPySpace '-' = false)]
      rcases hr : (c :: ds).reverse with _ | ⟨y, ys⟩
      · simp at hr
      · have hy : y ∈ c :: ds := by
          have h2 : y ∈ (c :: ds).reverse := by rw [hr]; simp
          rw [List.mem_reverse] at h2
          exact h2
        have hyd : isAsciiDigit y = true := hdig y (by rw [hd]; exact hy)
        have hrev : ('-' :: c :: ds).reverse = y :: (ys ++ ['-']) := by
          rw [List.reverse_cons, hr]
          rfl
        rw [hrev, dropWhile_head_false (isPySpace_of_digit hyd), ← hrev,
          List.reverse_reverse]
    have hpd : pyIntDigits (c :: ds) = some k := by
      unfold pyIntDigits
      rw [if_pos]
      · rw [← hd, hval]
      · refine ⟨by simp, ?_⟩
        rw [List.all_eq_true]
        intro x hx
        exact hdig x (by rw [hd]; exact hx)
    unfold pyInt
    rw [hstrip]
    show (if ('-' : Char) = '-' then
        (match pyIntDigits (c :: ds) with
         | some n => Except.ok (-(n : Int))
         | none => Except.error PyExc.valueError)
      else if ('-' : Char) = '+' then
        (match pyIntDigits (c :: ds) with
         | some n => Except.ok ((n : Int))
         | none => Except.error PyExc.valueError)
      else
        (match pyIntDigits ('-' :: c :: ds) with
         | some n => Except.ok ((n : Int))
         | none => Except.error PyExc.valueError)) = Except.ok (-(k : Int))
    rw [if_pos rfl, hpd]

theorem positive_int_neg (k : Nat) (hk : 1 ≤ k) :
    positive_int ("-" ++ decRepr k) false (some offset_cutoff) = .error .valueError := by
  unfold positive_int
  rw [pyInt_neg_decRepr]
  show (if (-(k : Int)) < 0 ∨ ((-(k : Int)) = 0 ∧ (false = true)) then
      (Except.error PyExc.valueError : Except PyExc Nat)
    else
      if offset_cutoff ≠ 0 then Except.ok (min (-(k : Int)).toNat offset_cutoff)
      else Except.ok (-(k : Int)).toNat) = Except.error PyExc.valueError
  rw [if_pos (Or.inl (by omega))]

theorem decodeRaw_encode_clamp (n : Nat) (hn : 1 ≤ n) :
    decodeCursorRaw (encode_cursor ⟨n, false, none⟩) =
      .ok ⟨min n offset_cutoff, false, none⟩ := by
  have hqs := urlencode_ascii (cursorTokens ⟨n, false, none⟩)
  have hpipe := decodeRaw_pipeline (urlencode (cursorTokens ⟨n, false, none⟩)) hqs
  show decodeCursorRaw ⟨(b64encodeBytes ((urlencode
    (cursorTokens ⟨n, false, none⟩)).data.map Char.toNat)).map Char.ofNat⟩ = _
  rw [hpipe]
  simp only [parse_urlencode_id, qsGetFirst_cursorTokens_o, qsGetFirst_cursorTokens_r,
    qsGetFirst_cursorTokens_p]
  rw [if_pos (show ¬(n = 0) by omega), if_neg (by simp)]
  simp only [Option.getD_some, Option.getD_none]
  show (do
    let offset ← positive_int (decRepr n) false (some offset_cutoff)
    let ri ← pyInt "0"
    (.ok ⟨offset, decide (ri ≠ 0), none⟩ : Except PyExc Cursor)) = _
  rw [positive_int_decRepr, pyInt_zero]
  rfl

theorem decode_negative_offset (k : Nat) (hk : 1 ≤ k) :
    decode_cursor (some ⟨(b64encodeBytes ((urlencode [("o", "-" ++ decRepr k)]).data.map
      Char.toNat)).map Char.ofNat⟩) =
      .error (.notFound (some invalid_cursor_message)) := by
  have hqs := urlencode_ascii [("o", "-" ++ decRepr k)]
  have hpipe := decodeRaw_pipeline (urlencode [("o", "-" ++ decRepr k)]) hqs
  have hdne := urlencode_ne_nil ("o", "-" ++ decRepr k) []
  have hbne : b64encodeBytes ((urlencode [("o", "-" ++ decRepr k)]).data.map
      Char.toNat) ≠ [] := by
    apply b64encodeBytes_ne_nil
    intro hmap
    exact hdne (List.map_eq_nil_iff.mp hmap)
  have htne : ¬((⟨(b64encodeBytes ((urlencode [("o", "-" ++ decRepr k)]).data.map
      Char.toNat)).map Char.ofNat⟩ : String) = "") := by
    intro hcon
    have hmap2 := congrArg String.data hcon
    exact hbne (List.map_eq_nil_iff.mp hmap2)
  show (if (⟨(b64encodeBytes ((urlencode [("o", "-" ++ decRepr k)]).data.map
      Char.toNat)).map Char.ofNat⟩ : String) = "" then Except.ok none
    else
      match decodeCursorRaw ⟨(b64encodeBytes ((urlencode
          [("o", "-" ++ decRepr k)]).data.map Char.toNat)).map Char.ofNat⟩ with
      | Except.ok c => Except.ok (some c)
      | Except.error PyExc.valueError =>
        Except.error (PyExc.notFound (some invalid_cursor_message))
      | Except.error PyExc.typeError =>
        Except.error (PyExc.notFound (some invalid_cursor_message))
      | Except.error e => Except.error e) = _
  have hval : decodeCursorRaw ⟨(b64encodeBytes ((urlencode
      [("o", "-" ++ decRepr k)]).data.map Char.toNat)).map Char.ofNat⟩ =
      .error .valueError := by
    rw [hpipe]
    simp only [parse_urlencode_id]
    rw [show qsGetFirst [("o", "-" ++ decRepr k)] "o" = some ("-" ++ decRepr k) from by
      simp [qsGetFirst, List.find?]]
    simp only [Option.getD_some]
    rw [positive_int_neg k hk]
    rfl
  rw [if_neg htne, hval]

/-- C8: a token carrying offset `n ≥ 1` decodes to the offset clamped to
`offset_cutoff`, whose value is 1000; the token `o=0` decodes to offset 0;
and a token whose offset field is the negative integer `-k` fails with the
invalid-cursor error. -/
theorem C8_offset_parse_clamp (n k : Nat) (hn : 1 ≤ n) (hk : 1 ≤ k) :
    decode_cursor (some (encode_cursor ⟨n, false, none⟩)) =
      .ok (some ⟨min n offset_cutoff, false, none⟩) ∧
    offset_cutoff = 1000 ∧
    decode_cursor (some "bz0w") = .ok (some ⟨0, false, none⟩) ∧
    decode_cursor (some ⟨(b64encodeBytes ((urlencode [("o", "-" ++ decRepr k)]).data.map
        Char.toNat)).map Char.ofNat⟩) =
      .error (.notFound (some invalid_cursor_message)) := by
  refine ⟨?_, rfl, by decide, decode_negative_offset k hk⟩
  have hc : ¬((⟨n, false, none⟩ : Cursor) = ⟨0, false, none⟩) := by
    intro h
    have := congrArg Cursor.offset h
    simp at this
    omega
  show (if encode_cursor ⟨n, false, none⟩ = "" then Except.ok none
    else
      match decodeCursorRaw (encode_cursor ⟨n, false, none⟩) with
      | Except.ok c => Except.ok (some c)
      | Except.error PyExc.valueError =>
        Except.error (PyExc.notFound (some invalid_cursor_message))
      | Except.error PyExc.typeError =>
        Except.error (PyExc.notFound (some invalid_cursor_message))
      | Except.error e => Except.error e) = _
  rw [if_neg (encode_cursor_ne_empty _ hc), decodeRaw_encode_clamp n hn]

/-- C8 witness: offset 1500 clamps to 1000, and offset `-7` is rejected. -/
theorem C8_offset_parse_clamp_witness :
    1 ≤ 1500 ∧ 1 ≤ 7 ∧
    (decode_cursor (some (encode_cursor ⟨1500, false, none⟩)) =
        .ok (some ⟨min 1500 offset_cutoff, false, none⟩) ∧
      offset_cutoff = 1000 ∧
      decode_cursor (some "bz0w") = .ok (some ⟨0, false, none⟩) ∧
      decode_cursor (some ⟨(b64encodeBytes ((urlencode [("o", "-" ++ decRepr 7)]).data.map
          Char.toNat)).map Char.ofNat⟩) =
        .error (.notFound (some invalid_cursor_message))) :=
  ⟨by decide, by decide, C8_offset_parse_clamp 1500 7 (by decide) (by decide)⟩

/-- C4 (amended): for every cursor whose offset does not exceed
`offset_cutoff` and which is not the all-default `(0, False, None)`,
decoding the encoded token returns exactly the cursor.  (Unamended, the
claim fails: the all-default cursor encodes to the empty string, which
decodes to the null first-page marker, and offsets above `offset_cutoff`
are clamped by the decoder.) -/
theorem C4_roundtrip_amended (c : Cursor) (hoff : c.offset ≤ offset_cutoff)
    (hc : ¬(c = ⟨0, false, none⟩)) :
    decode_cursor (some (encode_cursor c)) = .ok (some c) :=
  decode_encode_cursor c hoff hc

/-- C4 witness: the round trip at a concrete reverse anchored cursor. -/
theorem C4_roundtrip_amended_witness :
    (⟨3, true, some "x"⟩ : Cursor).offset ≤ offset_cutoff ∧
    ¬((⟨3, true, some "x"⟩ : Cursor) = ⟨0, false, none⟩) ∧
    decode_cursor (some (encode_cursor ⟨3, true, some "x"⟩)) =
      .ok (some ⟨3, true, some "x"⟩) :=
  ⟨by decide, by decide, C4_roundtrip_amended ⟨3, true, some "x"⟩ (by decide) (by decide)⟩

/-- C4 counterexample: the all-default cursor round-trips to the null
first-page marker, not to itself, and an offset above `offset_cutoff`
round-trips clamped; both are cursor values the token derivations can
produce. -/
theorem C4_roundtrip_counterexample :
    decode_cursor (some (encode_cursor ⟨0, false, none⟩)) = .ok none ∧
    ¬(decode_cursor (some (encode_cursor ⟨0, false, none⟩)) =
      .ok (some ⟨0, false, none⟩)) ∧
    decode_cursor (some (encode_cursor ⟨1001, false, some "x"⟩)) =
      .ok (some ⟨1000, false, some "x"⟩) ∧
    ¬(decode_cursor (some (encode_cursor ⟨1001, false, some "x"⟩)) =
      .ok (some ⟨1001, false, some "x"⟩)) := by
  refine ⟨by decide, by decide, ?_, ?_⟩ <;> decide

/-- C10: `encode_cursor` maps the all-default cursor `(0, False, None)` to
the empty string, and `decode_cursor` maps the empty string to the null
first-page marker rather than back to that cursor, so the round trip fails
exactly there. -/
theorem C10_default_cursor_asymmetry :
    encode_cursor ⟨0, false, none⟩ = "" ∧
    decode_cursor (some "") = .ok none ∧
    ¬(decode_cursor (some (encode_cursor ⟨0, false, none⟩)) =
      .ok (some ⟨0, false, none⟩)) := by
  refine ⟨?_, ?_, ?_⟩ <;> decide

/-! ## Lemmas: error classification of the decoder -/

theorem strToAscii_onlyVE (s : String) : onlyVE (strToAscii s) := by
  unfold strToAscii
  split
  · trivial
  · rfl

theorem b64Quads_onlyVE : ∀ l, onlyVE (b64Quads l)
  | [] => trivial
  | [_] => rfl
  | [_, _] => rfl
  | [_, _, _] => rfl
  | c1 :: c2 :: c3 :: c4 :: rest => by
    have ih := b64Quads_onlyVE rest
    unfold b64Quads
    repeat' split
    all_goals first
      | trivial
      | rfl
      | (rcases hq : b64Quads rest with e2 | t
         · have h2 : e2 = PyExc.valueError := by
             first
               | exact ih
               | (rw [hq] at ih; exact ih)
           subst h2
           rfl
         · trivial)
      | (rename_i e heq
         rw [heq] at ih
         exact ih)

theorem bytesToAscii_onlyVE (bs : List Nat) : onlyVE (bytesToAscii bs) := by
  unfold bytesToAscii
  split
  · trivial
  · rfl

theorem pyInt_onlyVE (s : String) : onlyVE (pyInt s) := by
  show onlyVE (match ((s.data.dropWhile isPySpace).reverse.dropWhile isPySpace).reverse with
    | [] => Except.error PyExc.valueError
    | c :: ds =>
      if c = '-' then
        (match pyIntDigits ds with
         | some n => Except.ok (-(n : Int))
         | none => Except.error PyExc.valueError)
      else if c = '+' then
        (match pyIntDigits ds with
         | some n => Except.ok ((n : Int))
         | none => Except.error PyExc.valueError)
      else
        (match pyIntDigits (c :: ds) with
         | some n => Except.ok ((n : Int))
         | none => Except.error PyExc.valueError))
  repeat' split
  all_goals first | trivial | rfl

theorem positive_int_onlyVE (s : String) (strict : Bool) (cutoff : Option Nat) :
    onlyVE (positive_int s strict cutoff) := by
  unfold positive_int
  split
  · next e heq =>
    have h := pyInt_onlyVE s
    rw [heq] at h
    exact h
  · repeat' split
    all_goals first | trivial | rfl

theorem decodeRaw_onlyVE (s : String) : onlyVE (decodeCursorRaw s) := by
  unfold decodeCursorRaw
  rcases h1 : strToAscii s with e1 | bs
  · have h := strToAscii_onlyVE s
    rw [h1] at h
    have h2 : e1 = .valueError := h
    rw [h2]
    rfl
  · show onlyVE (b64decodeBytes bs >>= _)
    rcases h2 : b64decodeBytes bs with e2 | qb
    · have h := b64Quads_onlyVE (bs.filter (fun c => (b64CharVal c).isSome || c == 61))
      rw [show b64Quads (bs.filter (fun c => (b64CharVal c).isSome || c == 61)) =
        b64decodeBytes bs from rfl, h2] at h
      have h3 : e2 = .valueError := h
      rw [h3]
      rfl
    · show onlyVE (bytesToAscii qb >>= _)
      rcases h3 : bytesToAscii qb with e3 | qs
      · have h := bytesToAscii_onlyVE qb
        rw [h3] at h
        have h4 : e3 = .valueError := h
        rw [h4]
        rfl
      · show onlyVE (positive_int ((qsGetFirst (parse_qsl qs) "o").getD "0") false
          (some offset_cutoff) >>= _)
        rcases h4 : positive_int ((qsGetFirst (parse_qsl qs) "o").getD "0") false
            (some offset_cutoff) with e4 | off
        · have h := positive_int_onlyVE ((qsGetFirst (parse_qsl qs) "o").getD "0") false
            (some offset_cutoff)
          rw [h4] at h
          have h5 : e4 = .valueError := h
          rw [h5]
          rfl
        · show onlyVE (pyInt ((qsGetFirst (parse_qsl qs) "r").getD "0") >>= _)
          rcases h5 : pyInt ((qsGetFirst (parse_qsl qs) "r").getD "0") with e5 | ri
          · have h := pyInt_onlyVE ((qsGetFirst (parse_qsl qs) "r").getD "0")
            rw [h5] at h
            have h6 : e5 = .valueError := h
            rw [h6]
            rfl
          · trivial

/-- C6: a non-empty token either decodes to a cursor or fails with the
not-found invalid-cursor error; no underlying parse error (bad base64,
malformed query string, non-numeric or negative offset, non-numeric
reverse flag) escapes `decode_cursor`. -/
theorem C6_tamper_rejection (tok : String) (htok : ¬(tok = "")) :
    (∃ c?, decode_cursor (some tok) = .ok c?) ∨
      decode_cursor (some tok) = .error (.notFound (some invalid_cursor_message)) := by
  have hred : decode_cursor (some tok) =
      (match decodeCursorRaw tok with
       | Except.ok c => Except.ok (some c)
       | Except.error PyExc.valueError =>
         Except.error (PyExc.notFound (some invalid_cursor_message))
       | Except.error PyExc.typeError =>
         Except.error (PyExc.notFound (some invalid_cursor_message))
       | Except.error e => Except.error e) := by
    show (if tok = "" then Except.ok none else _) = _
    rw [if_neg htok]
  rcases h : decodeCursorRaw tok with e | c
  · have hve := decodeRaw_onlyVE tok
    rw [h] at hve
    have he : e = .valueError := hve
    subst he
    right
    rw [hred, h]
  · left
    exact ⟨some c, by rw [hred, h]⟩

/-- C6 witness: the tampered token from the test suite is rejected with the
invalid-cursor error. -/
theorem C6_tamper_rejection_witness :
    ¬(("123" : String) = "") ∧
    ((∃ c?, decode_cursor (some "123") = .ok c?) ∨
      decode_cursor (some "123") = .error (.notFound (some invalid_cursor_message))) :=
  ⟨by decide, C6_tamper_rejection "123" (by decide)⟩

/-- C7: construction silently drops ordering entries that name a missing
attribute or omit the `ascending` value, normalizes a single dict to a
one-entry list, and fails with the assertion error exactly when no entry
survives; `None`, a bare string, and a sole entry without `ascending` all
fail that way. -/
theorem C7_init_filtering (attrs : List String) (ps : Nat) (l : List RawOrderEntry)
    (d : RawOrderEntry) (s : String) :
    cursorPaginationInit attrs ps .pyNone = .error .assertionError ∧
    cursorPaginationInit attrs ps (.pyStr s) = .error .assertionError ∧
    cursorPaginationInit attrs ps (.single d) = cursorPaginationInit attrs ps (.many [d]) ∧
    (cursorPaginationInit attrs ps (.many l) = .error .assertionError ↔
      filterOrdering attrs l = []) ∧
    (cursorPaginationInit attrs ps (.many l) = .ok ⟨attrs, ps, filterOrdering attrs l⟩ ↔
      ¬(filterOrdering attrs l = [])) ∧
    (filterOrdering attrs (d :: l) =
      if attrs.contains d.field then
        (match d.ascending with
         | some a => (⟨d.field, a⟩ : OrderEntry) :: filterOrdering attrs l
         | none => filterOrdering attrs l)
      else filterOrdering attrs l) ∧
    (d.ascending = none → cursorPaginationInit attrs ps (.many [d]) = .error .assertionError) := by
  have hred : cursorPaginationInit attrs ps (.many l) =
      (if filterOrdering attrs l = [] then Except.error PyExc.assertionError
       else Except.ok (⟨attrs, ps, filterOrdering attrs l⟩ : Paginator)) := rfl
  refine ⟨rfl, rfl, rfl, ?_, ?_, ?_, ?_⟩
  · rw [hred]
    by_cases hf : filterOrdering attrs l = []
    · rw [if_pos hf]
      simp [hf]
    · rw [if_neg hf]
      simp [hf]
  · rw [hred]
    by_cases hf : filterOrdering attrs l = []
    · rw [if_pos hf]
      simp [hf]
    · rw [if_neg hf]
      simp [hf]
  · simp only [filterOrdering, List.filterMap_cons]
    by_cases hc : attrs.contains d.field
    · rw [if_pos hc, if_pos hc]
      rcases d.ascending with _ | a
      · rfl
      · rfl
    · rw [if_neg hc, if_neg hc]
  · intro ha
    have hf : filterOrdering attrs [d] = [] := by
      show (List.filterMap _ [d]) = []
      rw [List.filterMap_cons]
      rw [show (if attrs.contains d.field then
          match d.ascending with
          | some a => some (⟨d.field, a⟩ : OrderEntry)
          | none => none
        else none) = none from by
          by_cases hc : attrs.contains d.field
          · rw [if_pos hc, ha]
          · rw [if_neg hc]]
      rfl
    show (if filterOrdering attrs [d] = [] then Except.error PyExc.assertionError
      else Except.ok (⟨attrs, ps, filterOrdering attrs [d]⟩ : Paginator)) = _
    rw [if_pos hf]

/-- C7 witness: a sole ordering entry without `ascending` fails construction
with the assertion error. -/
theorem C7_init_filtering_witness :
    (⟨"created_at", none⟩ : RawOrderEntry).ascending = none ∧
    cursorPaginationInit ["created_at"] 10 (.many [⟨"created_at", none⟩]) =
      .error .assertionError :=
  ⟨rfl, (C7_init_filtering ["created_at"] 10 [] ⟨"created_at", none⟩
    "created_at").2.2.2.2.2.2 rfl⟩

/-- C9: every page returned by a successful `paginate_query` call has at
most `page_size` items. -/
theorem C9_page_size_bound {R : Type} (pg : Paginator) (f : String → R → String)
    (l : List R) (tok : Option String) (st : PageState R)
    (h : paginate_query pg f l tok = .ok st) : st.page.length ≤ pg.page_size := by
  unfold paginate_query at h
  rcases hdec : decode_cursor tok with e | c?
  · rw [hdec] at h
    exact Except.noConfusion h
  · rw [hdec] at h
    have h : paginateCursor pg f l c? = .ok st := h
    unfold paginateCursor at h
    rcases hres : resultsOf pg f l c? with e | results
    · rw [hres] at h
      exact Except.noConfusion h
    · rw [hres] at h
      rcases c? with _ | ⟨k, rev, pos⟩
      · have h2 := Except.ok.inj h
        rw [← h2]
        show (results.take pg.page_size).length ≤ pg.page_size
        rw [List.length_take]
        omega
      · have h2 := Except.ok.inj h
        rw [← h2]
        cases rev
        · show (results.take pg.page_size).length ≤ pg.page_size
          rw [List.length_take]
          omega
        · show ((results.take pg.page_size).reverse).length ≤ pg.page_size
          rw [List.length_reverse, List.length_take]
          omega

/-- C9 witness: a concrete two-row collection paginated with page size two. -/
theorem C9_page_size_bound_witness :
    paginate_query (⟨["name"], 2, [⟨"name", true⟩]⟩ : Paginator) (fun _ n => decRepr n)
      ([5, 3] : List Nat) none = .ok (⟨none, [3, 5], false, false, none, none⟩ : PageState Nat) ∧
    (⟨none, [3, 5], false, false, none, none⟩ : PageState Nat).page.length ≤
      (⟨["name"], 2, [⟨"name", true⟩]⟩ : Paginator).page_size :=
  ⟨by decide, C9_page_size_bound (⟨["name"], 2, [⟨"name", true⟩]⟩ : Paginator)
    (fun _ n => decRepr n) ([5, 3] : List Nat) none
    (⟨none, [3, 5], false, false, none, none⟩ : PageState Nat) (by decide)⟩

/-- C5: the direction table of `paginate_query`.  For a forward cursor the
next side reflects the extra fetched row and the previous side reflects the
cursor anchor; for a reverse cursor the two sides swap.  The positions are
stated unguarded as in the table: when the corresponding flag is false both
sides reduce to null. -/
theorem C5_direction_table {R : Type} (pg : Paginator) (f : String → R → String)
    (l : List R) (c? : Option Cursor) (st : PageState R) (results : List R)
    (hres : resultsOf pg f l c? = .ok results)
    (hpag : paginateCursor pg f l c? = .ok st) :
    ((cursorTriple c?).2.1 = false →
      st.has_next = decide ((results.take pg.page_size).length < results.length) ∧
      st.has_previous = decide (¬((cursorTriple c?).2.2 = none) ∨ 0 < (cursorTriple c?).1) ∧
      st.next_position = (if (results.take pg.page_size).length < results.length
        then (results.getLast?).map (position_of f pg.ordering) else none) ∧
      st.previous_position = (cursorTriple c?).2.2) ∧
    ((cursorTriple c?).2.1 = true →
      st.has_next = decide (¬((cursorTriple c?).2.2 = none) ∨ 0 < (cursorTriple c?).1) ∧
      st.has_previous = decide ((results.take pg.page_size).length < results.length) ∧
      st.next_position = (cursorTriple c?).2.2 ∧
      st.previous_position = (if (results.take pg.page_size).length < results.length
        then (results.getLast?).map (position_of f pg.ordering) else none)) := by
  unfold paginateCursor at hpag
  rw [hres] at hpag
  have h2 := Except.ok.inj hpag
  subst h2
  rcases c? with _ | ⟨k, rev, pos⟩
  · refine ⟨fun _ => ⟨rfl, rfl, ?_, ?_⟩, fun hcon => absurd hcon (by simp [cursorTriple])⟩
    · by_cases hf : (results.take pg.page_size).length < results.length <;>
        simp [hf] <;> intro hle <;> rw [if_neg (by omega)]
    · rfl
  · cases rev
    · refine ⟨fun _ => ⟨rfl, rfl, ?_, ?_⟩, fun hcon => absurd hcon (by simp [cursorTriple])⟩
      · by_cases hf : (results.take pg.page_size).length < results.length <;>
          simp [hf] <;> intro hle <;> rw [if_neg (by omega)]
      · rcases pos with _ | p <;> simp [cursorTriple]
    · refine ⟨fun hcon => absurd hcon (by simp [cursorTriple]), fun _ => ⟨rfl, rfl, ?_, ?_⟩⟩
      · rcases pos with _ | p <;> simp [cursorTriple]
      · by_cases hf : (results.take pg.page_size).length < results.length <;>
          simp [hf] <;> intro hle <;> rw [if_neg (by omega)]

/-- C5 witness: the forward table at a concrete first-page call. -/
theorem C5_direction_table_witness :
    resultsOf (⟨["name"], 1, [⟨"name", true⟩]⟩ : Paginator) (fun _ n => decRepr n)
      ([5, 3] : List Nat) none = .ok [3, 5] ∧
    paginateCursor (⟨["name"], 1, [⟨"name", true⟩]⟩ : Paginator) (fun _ n => decRepr n)
      ([5, 3] : List Nat) none =
      .ok (⟨none, [3], true, false, some "5", none⟩ : PageState Nat) ∧
    (((cursorTriple (none : Option Cursor)).2.1 = false →
      (⟨none, [3], true, false, some "5", none⟩ : PageState Nat).has_next =
        decide ((([3, 5] : List Nat).take 1).length < ([3, 5] : List Nat).length) ∧
      (⟨none, [3], true, false, some "5", none⟩ : PageState Nat).has_previous =
        decide (¬((cursorTriple (none : Option Cursor)).2.2 = none) ∨
          0 < (cursorTriple (none : Option Cursor)).1) ∧
      (⟨none, [3], true, false, some "5", none⟩ : PageState Nat).next_position =
        (if (([3, 5] : List Nat).take 1).length < ([3, 5] : List Nat).length
          then (([3, 5] : List Nat).getLast?).map
            (position_of (fun _ n => decRepr n) [⟨"name", true⟩]) else none) ∧
      (⟨none, [3], true, false, some "5", none⟩ : PageState Nat).previous_position =
        (cursorTriple (none : Option Cursor)).2.2) ∧
    ((cursorTriple (none : Option Cursor)).2.1 = true →
      (⟨none, [3], true, false, some "5", none⟩ : PageState Nat).has_next =
        decide (¬((cursorTriple (none : Option Cursor)).2.2 = none) ∨
          0 < (cursorTriple (none : Option Cursor)).1) ∧
      (⟨none, [3], true, false, some "5", none⟩ : PageState Nat).has_previous =
        decide ((([3, 5] : List Nat).take 1).length < ([3, 5] : List Nat).length) ∧
      (⟨none, [3], true, false, some "5", none⟩ : PageState Nat).next_position =
        (cursorTriple (none : Option Cursor)).2.2 ∧
      (⟨none, [3], true, false, some "5", none⟩ : PageState Nat).previous_position =
        (if (([3, 5] : List Nat).take 1).length < ([3, 5] : List Nat).length
          then (([3, 5] : List Nat).getLast?).map
            (position_of (fun _ n => decRepr n) [⟨"name", true⟩]) else none))) :=
  ⟨by decide, by decide,
   C5_direction_table (⟨["name"], 1, [⟨"name", true⟩]⟩ : Paginator) (fun _ n => decRepr n)
     ([5, 3] : List Nat) none _ [3, 5] (by decide) (by decide)⟩

/-- C3: the tie-scan-exhausted fallbacks of the token derivations.  When the
scan finds no differing position in the page: (a) with no previous page
(for next) or no next page (for previous) the cursor is `(page_size,
direction, None)`; (b) with an existing cursor pointing against the token
direction, the cursor is `(0, direction, opposite anchor)` — the previous
position for the next token, the next position for the previous token;
(c) otherwise the existing offset is carried forward incremented by
`page_size`, with that same anchor. -/
theorem C3_exhausted_fallbacks {R : Type} (pg : Paginator) (f : String → R → String)
    (st : PageState R) (compareN compareP : Option String) (c : Cursor)
    (hcur : st.cursor = some c)
    (hnc : nextCompare pg f st = .ok compareN)
    (hpc : prevCompare pg f st = .ok compareP)
    (hscanN : tieScan (position_of f pg.ordering) st.page.reverse compareN = none)
    (hscanP : tieScan (position_of f pg.ordering) st.page compareP = none) :
    (st.has_next = true → st.has_previous = false →
      getNextCursor pg f st = .ok (some ⟨pg.page_size, false, none⟩)) ∧
    (st.has_next = true → st.has_previous = true → c.reverse = true →
      getNextCursor pg f st = .ok (some ⟨0, false, st.previous_position⟩)) ∧
    (st.has_next = true → st.has_previous = true → c.reverse = false →
      getNextCursor pg f st =
        .ok (some ⟨c.offset + pg.page_size, false, st.previous_position⟩)) ∧
    (st.has_previous = true → st.has_next = false →
      getPrevCursor pg f st = .ok (some ⟨pg.page_size, true, none⟩)) ∧
    (st.has_previous = true → st.has_next = true → c.reverse = false →
      getPrevCursor pg f st = .ok (some ⟨0, true, st.next_position⟩)) ∧
    (st.has_previous = true → st.has_next = true → c.reverse = true →
      getPrevCursor pg f st =
        .ok (some ⟨c.offset + pg.page_size, true, st.next_position⟩)) := by
  refine ⟨?_, ?_, ?_, ?_, ?_, ?_⟩
  · intro hn hp
    rw [getNextCursor, if_neg (by rw [hn]; simp), hnc]
    show ((match tieScan (position_of f pg.ordering) st.page.reverse compareN with
      | some (offset, position) => Except.ok (some ⟨offset, false, some position⟩)
      | none =>
        if st.has_previous = false then Except.ok (some ⟨pg.page_size, false, none⟩)
        else
          match st.cursor with
          | none => Except.error .attributeError
          | some c =>
            if c.reverse then Except.ok (some ⟨0, false, st.previous_position⟩)
            else Except.ok (some ⟨c.offset + pg.page_size, false,
              st.previous_position⟩)) : Except PyExc (Option Cursor)) = _
    rw [hscanN, if_pos hp]
  · intro hn hp hr
    rw [getNextCursor, if_neg (by rw [hn]; simp), hnc]
    show ((match tieScan (position_of f pg.ordering) st.page.reverse compareN with
      | some (offset, position) => Except.ok (some ⟨offset, false, some position⟩)
      | none =>
        if st.has_previous = false then Except.ok (some ⟨pg.page_size, false, none⟩)
        else
          match st.cursor with
          | none => Except.error .attributeError
          | some c =>
            if c.reverse then Except.ok (some ⟨0, false, st.previous_position⟩)
            else Except.ok (some ⟨c.offset + pg.page_size, false,
              st.previous_position⟩)) : Except PyExc (Option Cursor)) = _
    rw [hscanN, if_neg (by rw [hp]; simp), hcur]
    show ((if c.reverse then Except.ok (some ⟨0, false, st.previous_position⟩)
      else Except.ok (some ⟨c.offset + pg.page_size, false, st.previous_position⟩)) :
        Except PyExc (Option Cursor)) = _
    rw [if_pos hr]
  · intro hn hp hr
    rw [getNextCursor, if_neg (by rw [hn]; simp), hnc]
    show ((match tieScan (position_of f pg.ordering) st.page.reverse compareN with
      | some (offset, position) => Except.ok (some ⟨offset, false, some position⟩)
      | none =>
        if st.has_previous = false then Except.ok (some ⟨pg.page_size, false, none⟩)
        else
          match st.cursor with
          | none => Except.error .attributeError
          | some c =>
            if c.reverse then Except.ok (some ⟨0, false, st.previous_position⟩)
            else Except.ok (some ⟨c.offset + pg.page_size, false,
              st.previous_position⟩)) : Except PyExc (Option Cursor)) = _
    rw [hscanN, if_neg (by rw [hp]; simp), hcur]
    show ((if c.reverse then Except.ok (some ⟨0, false, st.previous_position⟩)
      else Except.ok (some ⟨c.offset + pg.page_size, false, st.previous_position⟩)) :
        Except PyExc (Option Cursor)) = _
    rw [if_neg (by rw [hr]; simp)]
  · intro hp hn
    rw [getPrevCursor, if_neg (by rw [hp]; simp), hpc]
    show ((match tieScan (position_of f pg.ordering) st.page compareP with
      | some (offset, position) => Except.ok (some ⟨offset, true, some position⟩)
      | none =>
        if st.has_next = false then Except.ok (some ⟨pg.page_size, true, none⟩)
        else
          match st.cursor with
          | none => Except.error .attributeError
          | some c =>
            if c.reverse then Except.ok (some ⟨c.offset + pg.page_size, true,
              st.next_position⟩)
            else Except.ok (some ⟨0, true, st.next_position⟩)) :
        Except PyExc (Option Cursor)) = _
    rw [hscanP, if_pos hn]
  · intro hp hn hr
    rw [getPrevCursor, if_neg (by rw [hp]; simp), hpc]
    show ((match tieScan (position_of f pg.ordering) st.page compareP with
      | some (offset, position) => Except.ok (some ⟨offset, true, some position⟩)
      | none =>
        if st.has_next = false then Except.ok (some ⟨pg.page_size, true, none⟩)
        else
          match st.cursor with
          | none => Except.error .attributeError
          | some c =>
            if c.reverse then Except.ok (some ⟨c.offset + pg.page_size, true,
              st.next_position⟩)
            else Except.ok (some ⟨0, true, st.next_position⟩)) :
        Except PyExc (Option Cursor)) = _
    rw [hscanP, if_neg (by rw [hn]; simp), hcur]
    show ((if c.reverse then Except.ok (some ⟨c.offset + pg.page_size, true,
        st.next_position⟩)
      else Except.ok (some ⟨0, true, st.next_position⟩)) :
        Except PyExc (Option Cursor)) = _
    rw [if_neg (by rw [hr]; simp)]
  · intro hp hn hr
    rw [getPrevCursor, if_neg (by rw [hp]; simp), hpc]
    show ((match tieScan (position_of f pg.ordering) st.page compareP with
      | some (offset, position) => Except.ok (some ⟨offset, true, some position⟩)
      | none =>
        if st.has_next = false then Except.ok (some ⟨pg.page_size, true, none⟩)
        else
          match st.cursor with
          | none => Except.error .attributeError
          | some c =>
            if c.reverse then Except.ok (some ⟨c.offset + pg.page_size, true,
              st.next_position⟩)
            else Except.ok (some ⟨0, true, st.next_position⟩)) :
        Except PyExc (Option Cursor)) = _
    rw [hscanP, if_neg (by rw [hn]; simp), hcur]
    show ((if c.reverse then Except.ok (some ⟨c.offset + pg.page_size, true,
        st.next_position⟩)
      else Except.ok (some ⟨0, true, st.next_position⟩)) :
        Except PyExc (Option Cursor)) = _
    rw [if_pos hr]

/-- C3 witness: a one-row all-tying page with a forward offset cursor takes
the carry-forward fallback for the next token and the direction-change
fallback for the previous token. -/
theorem C3_exhausted_fallbacks_witness :
    (⟨some ⟨2, false, some "q"⟩, [7], true, true, some "a", some "q"⟩ :
      PageState Nat).cursor = some ⟨2, false, some "q"⟩ ∧
    nextCompare (⟨["name"], 3, [⟨"name", true⟩]⟩ : Paginator) (fun _ _ => "a")
      (⟨some ⟨2, false, some "q"⟩, [7], true, true, some "a", some "q"⟩ : PageState Nat) =
      .ok (some "a") ∧
    prevCompare (⟨["name"], 3, [⟨"name", true⟩]⟩ : Paginator) (fun _ _ => "a")
      (⟨some ⟨2, false, some "q"⟩, [7], true, true, some "a", some "q"⟩ : PageState Nat) =
      .ok (some "a") ∧
    tieScan (position_of (fun _ _ => "a") [⟨"name", true⟩])
      ([7] : List Nat).reverse (some "a") = none ∧
    tieScan (position_of (fun _ _ => "a") [⟨"name", true⟩]) ([7] : List Nat) (some "a") =
      none ∧
    getNextCursor (⟨["name"], 3, [⟨"name", true⟩]⟩ : Paginator) (fun _ _ => "a")
      (⟨some ⟨2, false, some "q"⟩, [7], true, true, some "a", some "q"⟩ : PageState Nat) =
      .ok (some ⟨2 + 3, false, some "q"⟩) ∧
    getPrevCursor (⟨["name"], 3, [⟨"name", true⟩]⟩ : Paginator) (fun _ _ => "a")
      (⟨some ⟨2, false, some "q"⟩, [7], true, true, some "a", some "q"⟩ : PageState Nat) =
      .ok (some ⟨0, true, some "a"⟩) :=
  ⟨rfl, by decide, by decide, by decide, by decide,
   (C3_exhausted_fallbacks (⟨["name"], 3, [⟨"name", true⟩]⟩ : Paginator) (fun _ _ => "a")
     (⟨some ⟨2, false, some "q"⟩, [7], true, true, some "a", some "q"⟩ : PageState Nat)
     (some "a") (some "a") ⟨2, false, some "q"⟩ rfl (by decide) (by decide) (by decide)
     (by decide)).2.2.1 rfl rfl rfl,
   (C3_exhausted_fallbacks (⟨["name"], 3, [⟨"name", true⟩]⟩ : Paginator) (fun _ _ => "a")
     (⟨some ⟨2, false, some "q"⟩, [7], true, true, some "a", some "q"⟩ : PageState Nat)
     (some "a") (some "a") ⟨2, false, some "q"⟩ rfl (by decide) (by decide) (by decide)
     (by decide)).2.2.2.2.1 rfl rfl rfl⟩


/-! ### All-tie snapshots -/

theorem orderedInsert_all {A : Type} (r : A → A → Prop) [DecidableRel r]
    (hall : ∀ a b, r a b) (a : A) (l : List A) : List.orderedInsert r a l = a :: l := by
  cases l with
  | nil => rfl
  | cons b t =>
    show (if r a b then a :: b :: t else b :: List.orderedInsert r a t) = a :: b :: t
    rw [if_pos (hall a b)]

theorem insertionSort_all {A : Type} (r : A → A → Prop) [DecidableRel r]
    (hall : ∀ a b, r a b) (l : List A) : List.insertionSort r l = l := by
  induction l with
  | nil => rfl
  | cons b t ih =>
    show List.orderedInsert r b (List.insertionSort r t) = b :: t
    rw [ih]
    exact orderedInsert_all r hall b t

theorem rowBle_const {R : Type} (ord : List OrderEntry) (a b : R) :
    rowBle (fun _ _ => "a") ord a b = true := by
  induction ord with
  | nil => rfl
  | cons e rest ih =>
    show (if ("a" : String) = "a" then rowBle (fun _ _ => "a") rest a b
      else if e.ascending then strLt "a" "a" else strLt "a" "a") = true
    rw [if_pos rfl]
    exact ih

theorem order_by_const {R : Type} (ord : List OrderEntry) (l : List R) :
    order_by (fun _ _ => "a") ord l = l :=
  insertionSort_all _ (fun a b => rowBle_const ord a b) l

theorem tieScan_const {R : Type} (pos1 : R → String) (q : String)
    (hq : ∀ r, pos1 r = q) (l : List R) : tieScan pos1 l (some q) = none := by
  induction l with
  | nil => rfl
  | cons item rest ih =>
    show (if (some (pos1 item) = some q : Prop) then
        (tieScan pos1 rest (some (pos1 item))).map (fun p => (p.1 + 1, p.2))
      else some (0, pos1 item)) = none
    rw [hq item, if_pos rfl, ih]
    rfl

/-- The tie-scan-exhausted first-page fallback of `get_next_token`, for a
state with no previous page: the emitted cursor is the page size as offset,
forward, with no position. -/
theorem getNextCursor_all_tie_first {R : Type} (pg : Paginator) (f : String → R → String)
    (st : PageState R) (compare : Option String)
    (hn : st.has_next = true) (hp : st.has_previous = false)
    (hnc : nextCompare pg f st = .ok compare)
    (hscan : tieScan (position_of f pg.ordering) st.page.reverse compare = none) :
    getNextCursor pg f st = .ok (some ⟨pg.page_size, false, none⟩) := by
  rw [getNextCursor, if_neg (by rw [hn]; simp), hnc]
  show ((match tieScan (position_of f pg.ordering) st.page.reverse compare with
    | some (offset, position) => Except.ok (some ⟨offset, false, some position⟩)
    | none =>
      if st.has_previous = false then Except.ok (some ⟨pg.page_size, false, none⟩)
      else
        match st.cursor with
        | none => Except.error .attributeError
        | some c =>
          if c.reverse then Except.ok (some ⟨0, false, st.previous_position⟩)
          else Except.ok (some ⟨c.offset + pg.page_size, false, st.previous_position⟩)) :
      Except PyExc (Option Cursor)) = Except.ok (some ⟨pg.page_size, false, none⟩)
  rw [hscan, if_pos hp]

/-- One walk round from its two halves. -/
theorem walkStep_eq {R : Type} (pg : Paginator) (f : String → R → String) (query : List R)
    (tok : Option String) (st : PageState R) (nt : Option String)
    (hpq : paginate_query pg f query tok = .ok st)
    (hgt : get_next_token pg f st = .ok nt) :
    walkStep pg f query tok = .ok (st, nt) := by
  rw [walkStep, hpq]
  show (match get_next_token pg f st with
    | Except.error e => Except.error e
    | Except.ok nt => Except.ok (st, nt)) = Except.ok (st, nt)
  rw [hgt]

/-- A two-round walk from one round and the walk of the produced token. -/
theorem walk_two {R : Type} (pg : Paginator) (f : String → R → String) (query : List R)
    (tok : Option String) (st : PageState R) (t : String) (pages : List (List R)) (b : Bool)
    (hstep : walkStep pg f query tok = .ok (st, some t))
    (hrest : walk pg f query 1 (some t) = .ok (pages, b)) :
    walk pg f query 2 tok = .ok (st.page :: pages, b) := by
  rw [walk_succ, hstep]
  show (walk pg f query 1 (some t)).map (fun pr => (st.page :: pr.1, pr.2)) =
    Except.ok (st.page :: pages, b)
  rw [hrest]
  rfl

set_option maxRecDepth 4000 in
/-- C1 counterexample: on a snapshot of 1002 rows that all tie on the
primary ordering value, page size 1001, the walk from the null token
terminates after two pages but the second page starts again at row 1000:
`get_next_token` emits the offset 1001 and `decode_cursor` clamps it down to
`offset_cutoff`, so the walk returns 1003 items for the 1002-row snapshot
and the concatenation of the pages is not the sorted snapshot.  Separately,
with page size 0 a single round maps both the null token and its own output
token to the same empty page and the token `""`, so the walk never reaches
a null next token: the unamended claim fails on both counts. -/
theorem C1_walk_no_loss_counterexample :
    cursorPaginationInit ["name"] 1001 (.many [⟨"name", some true⟩]) =
      .ok (⟨["name"], 1001, [⟨"name", true⟩]⟩ : Paginator) ∧
    walk (⟨["name"], 1001, [⟨"name", true⟩]⟩ : Paginator) (fun _ _ => "a") (List.range 1002) 2 none =
      .ok ([(List.range 1002).take 1001, (List.range 1002).drop 1000], true) ∧
    ¬(([(List.range 1002).take 1001, (List.range 1002).drop 1000] :
        List (List Nat)).flatten =
        order_by (fun _ _ => "a") [⟨"name", true⟩] (List.range 1002)) ∧
    ¬(([(List.range 1002).take 1001, (List.range 1002).drop 1000] :
        List (List Nat)).flatten.length = (List.range 1002).length) ∧
    walkStep (⟨["name"], 0, [⟨"name", true⟩]⟩ : Paginator) (fun _ _ => "a") [0] none =
      .ok ((⟨none, [], true, false, some "a", none⟩ : PageState Nat), some "") ∧
    walkStep (⟨["name"], 0, [⟨"name", true⟩]⟩ : Paginator) (fun _ _ => "a") [0] (some "") =
      .ok ((⟨none, [], true, false, some "a", none⟩ : PageState Nat), some "") := by
  refine ⟨rfl, ?_, ?_, ?_, by decide, by decide⟩
  · have hattr : (⟨["name"], 1001, [⟨"name", true⟩]⟩ : Paginator).attrs.contains ((⟨["name"], 1001, [⟨"name", true⟩]⟩ : Paginator).ordering.headD ⟨"", true⟩).field = true := rfl
    have horder : order_by (fun _ _ => "a") (⟨["name"], 1001, [⟨"name", true⟩]⟩ : Paginator).ordering (List.range 1002) = (List.range 1002) := order_by_const _ _
    have hinv1 : GoodCur ((⟨["name"], 1001, [⟨"name", true⟩]⟩ : Paginator).ordering.headD ⟨"", true⟩).ascending
        (position_of (fun _ _ => "a") (⟨["name"], 1001, [⟨"name", true⟩]⟩ : Paginator).ordering) (order_by (fun _ _ => "a") (⟨["name"], 1001, [⟨"name", true⟩]⟩ : Paginator).ordering (List.range 1002)) none 0 := rfl
    have hlt : 0 + (⟨["name"], 1001, [⟨"name", true⟩]⟩ : Paginator).page_size < (List.range 1002).length := by
      rw [List.length_range]
      decide
    have hpc1 : paginateCursor (⟨["name"], 1001, [⟨"name", true⟩]⟩ : Paginator) (fun _ _ => "a") (List.range 1002) none = .ok (⟨none, (List.range 1002).take 1001, true, false, some "a", none⟩ : PageState Nat) := by
      rw [paginate_forward (⟨["name"], 1001, [⟨"name", true⟩]⟩ : Paginator) (fun _ _ => "a") (List.range 1002) hattr none 0 hinv1]
      show Except.ok (⟨none,
          ((order_by (fun _ _ => "a") (⟨["name"], 1001, [⟨"name", true⟩]⟩ : Paginator).ordering (List.range 1002)).drop 0).take (⟨["name"], 1001, [⟨"name", true⟩]⟩ : Paginator).page_size,
          decide (0 + (⟨["name"], 1001, [⟨"name", true⟩]⟩ : Paginator).page_size < (order_by (fun _ _ => "a") (⟨["name"], 1001, [⟨"name", true⟩]⟩ : Paginator).ordering (List.range 1002)).length),
          false,
          (if 0 + (⟨["name"], 1001, [⟨"name", true⟩]⟩ : Paginator).page_size < (order_by (fun _ _ => "a") (⟨["name"], 1001, [⟨"name", true⟩]⟩ : Paginator).ordering (List.range 1002)).length then
            (((order_by (fun _ _ => "a") (⟨["name"], 1001, [⟨"name", true⟩]⟩ : Paginator).ordering (List.range 1002)).drop (0 + (⟨["name"], 1001, [⟨"name", true⟩]⟩ : Paginator).page_size)).head?).map
              (position_of (fun _ _ => "a") (⟨["name"], 1001, [⟨"name", true⟩]⟩ : Paginator).ordering)
          else none),
          none⟩ : PageState Nat) = Except.ok (⟨none, (List.range 1002).take 1001, true, false, some "a", none⟩ : PageState Nat)
      rw [horder, List.drop_zero, List.head?_drop, List.getElem?_eq_getElem hlt,
        List.getElem_range, List.length_range]
      exact rfl
    have hpq1 : paginate_query (⟨["name"], 1001, [⟨"name", true⟩]⟩ : Paginator) (fun _ _ => "a") (List.range 1002) none = .ok (⟨none, (List.range 1002).take 1001, true, false, some "a", none⟩ : PageState Nat) := hpc1
    have hnc1 : nextCompare (⟨["name"], 1001, [⟨"name", true⟩]⟩ : Paginator) (fun _ _ => "a") (⟨none, (List.range 1002).take 1001, true, false, some "a", none⟩ : PageState Nat) = .ok (some "a") := rfl
    have hscan1 : tieScan (position_of (fun _ _ => "a") (⟨["name"], 1001, [⟨"name", true⟩]⟩ : Paginator).ordering) ((⟨none, (List.range 1002).take 1001, true, false, some "a", none⟩ : PageState Nat).page).reverse (some "a") =
        none := tieScan_const _ "a" (fun r => rfl) _
    have hgnc1 : getNextCursor (⟨["name"], 1001, [⟨"name", true⟩]⟩ : Paginator) (fun _ _ => "a") (⟨none, (List.range 1002).take 1001, true, false, some "a", none⟩ : PageState Nat) =
        .ok (some ⟨(⟨["name"], 1001, [⟨"name", true⟩]⟩ : Paginator).page_size, false, none⟩) :=
      getNextCursor_all_tie_first (⟨["name"], 1001, [⟨"name", true⟩]⟩ : Paginator) (fun _ _ => "a") (⟨none, (List.range 1002).take 1001, true, false, some "a", none⟩ : PageState Nat) (some "a") rfl rfl hnc1 hscan1
    have hgt1 : get_next_token (⟨["name"], 1001, [⟨"name", true⟩]⟩ : Paginator) (fun _ _ => "a") (⟨none, (List.range 1002).take 1001, true, false, some "a", none⟩ : PageState Nat) =
        .ok (some (encode_cursor ⟨(⟨["name"], 1001, [⟨"name", true⟩]⟩ : Paginator).page_size, false, none⟩)) := by
      rw [get_next_token, hgnc1]
      exact rfl
    have hstep1 : walkStep (⟨["name"], 1001, [⟨"name", true⟩]⟩ : Paginator) (fun _ _ => "a") (List.range 1002) none =
        .ok ((⟨none, (List.range 1002).take 1001, true, false, some "a", none⟩ : PageState Nat), some (encode_cursor ⟨(⟨["name"], 1001, [⟨"name", true⟩]⟩ : Paginator).page_size, false, none⟩)) :=
      walkStep_eq (⟨["name"], 1001, [⟨"name", true⟩]⟩ : Paginator) (fun _ _ => "a") (List.range 1002) none (⟨none, (List.range 1002).take 1001, true, false, some "a", none⟩ : PageState Nat)
        (some (encode_cursor ⟨(⟨["name"], 1001, [⟨"name", true⟩]⟩ : Paginator).page_size, false, none⟩)) hpq1 hgt1
    have hdec2 : decode_cursor (some (encode_cursor ⟨(⟨["name"], 1001, [⟨"name", true⟩]⟩ : Paginator).page_size, false, none⟩)) = .ok (some ⟨1000, false, none⟩) := by decide
    have hinv2 : GoodCur ((⟨["name"], 1001, [⟨"name", true⟩]⟩ : Paginator).ordering.headD ⟨"", true⟩).ascending
        (position_of (fun _ _ => "a") (⟨["name"], 1001, [⟨"name", true⟩]⟩ : Paginator).ordering) (order_by (fun _ _ => "a") (⟨["name"], 1001, [⟨"name", true⟩]⟩ : Paginator).ordering (List.range 1002))
        (some ⟨1000, false, none⟩) 1000 := ⟨rfl, rfl⟩
    have hn2 : ¬(1000 + (⟨["name"], 1001, [⟨"name", true⟩]⟩ : Paginator).page_size < (order_by (fun _ _ => "a") (⟨["name"], 1001, [⟨"name", true⟩]⟩ : Paginator).ordering (List.range 1002)).length) := by
      rw [horder, List.length_range]
      decide
    have hwalk1 := walk_last (⟨["name"], 1001, [⟨"name", true⟩]⟩ : Paginator) (fun _ _ => "a") (List.range 1002) hattr 1000 (some (encode_cursor ⟨(⟨["name"], 1001, [⟨"name", true⟩]⟩ : Paginator).page_size, false, none⟩)) (some ⟨1000, false, none⟩)
      hn2 hdec2 hinv2
    rw [horder] at hwalk1
    exact walk_two (⟨["name"], 1001, [⟨"name", true⟩]⟩ : Paginator) (fun _ _ => "a") (List.range 1002) none (⟨none, (List.range 1002).take 1001, true, false, some "a", none⟩ : PageState Nat)
      (encode_cursor ⟨(⟨["name"], 1001, [⟨"name", true⟩]⟩ : Paginator).page_size, false, none⟩)
      [(List.range 1002).drop 1000] true hstep1 hwalk1
  · intro h
    have hlen := congrArg List.length h
    rw [order_by_length, List.length_range] at hlen
    rw [show ([(List.range 1002).take 1001, (List.range 1002).drop 1000] :
        List (List Nat)).flatten = (List.range 1002).take 1001 ++
        ((List.range 1002).drop 1000 ++ []) from rfl] at hlen
    rw [List.length_append, List.length_append, List.length_take, List.length_drop,
      List.length_range] at hlen
    omega
  · intro h
    rw [show ([(List.range 1002).take 1001, (List.range 1002).drop 1000] :
        List (List Nat)).flatten = (List.range 1002).take 1001 ++
        ((List.range 1002).drop 1000 ++ []) from rfl] at h
    rw [List.length_append, List.length_append, List.length_take, List.length_drop,
      List.length_range] at h
    omega
